import Mathlib

/-!
Block-compressed level-2 BLAS (`fp/fp_blas.hpp`): embedding and verification

The classes `matrix` and `triangular_matrix` of `include/fp/fp_blas.hpp` are
embedded shallowly.

* `std::size_t` values are natural numbers.  The geometry (the member
  initialisers and the static footprints) is embedded twice: in `std::size_t`
  arithmetic modulo `2 ^ 64` (`matrix.members_size_t` and its siblings), and in
  exact arithmetic (`matrix.members` and its siblings), to which the former
  reduces as long as the values are representable.  `compress` and the kernels
  work on a scratch array of `bs * bs` values and on the arrays of the matrix
  and the vectors, and are embedded over the exact geometry; where the source
  subtracts two unsigned values they use truncated subtraction, and
  `get_offset` additionally has a checked variant in which every subtraction
  is tested.
* Arrays are functions `Nat → γ` indexed from the pointer they are reached
  through.  The vectors `x` and `y` of the kernels live in one address space
  `Ptr.mem`, the stack buffer of `blas2_frame` in a second one, `Ptr.buf`.
* Scalars range over an arbitrary commutative ring (a field for `solve`):
  exact arithmetic.
* Loops are run with explicit fuel, `forUp` and `forDown`; the fuel handed to
  them is the loop bound, which suffices whenever the step is positive.
* The block loops take the loop body as a parameter `visit j i k`, so that the
  same loop yields the effect of the function and the sequence of cursor
  values at which the blocks are reached.
-/

namespace fw.blas

/-! ## Loops -/

/-- The loop `for (j = start; j < stop; j += step) s = body j s`, run for at
most `fuel` iterations: `forUp body stop step fuel start s`. -/
def forUp {σ : Type} (body : Nat → σ → σ) (stop step : Nat) : Nat → Nat → σ → σ
  | 0, _, s => s
  | fuel + 1, j, s =>
    if j < stop then forUp body stop step fuel (j + step) (body j s) else s

/-- The decrement `--j` of a `std::size_t`: it wraps around at `0`. -/
def size_t_dec (j : Nat) : Nat := if j = 0 then 2 ^ 64 - 1 else j - 1

/-- The loop `for (j = start; j >= stop; --j) { s = body j s; if (j == stop) break; }`
on an unsigned index, run for at most `fuel` iterations:
`forDown body stop fuel start s`. -/
def forDown {σ : Type} (body : Nat → σ → σ) (stop : Nat) : Nat → Nat → σ → σ
  | 0, _, s => s
  | fuel + 1, j, s =>
    if stop ≤ j then
      (if j = stop then body j s else forDown body stop fuel (size_t_dec j) (body j s))
    else s

/-- matrix types: lower, upper -/
inductive triangular_matrix_type where
  | lower
  | upper
  deriving DecidableEq, Repr

/-! ## Arrays and the codec -/

/-- The values `a[p], .., a[p + count - 1]`. -/
def slice {γ : Type} (a : Nat → γ) (p count : Nat) : List γ :=
  (List.range count).map (fun q => a (p + q))

/-- The array `a` after the values of `l` are stored at `a[p], a[p + 1], ..`. -/
def blit {γ : Type} (a : Nat → γ) (p : Nat) (l : List γ) : Nat → γ :=
  fun q => if p ≤ q then l.getD (q - p) (a q) else a q

/-- The array `a` after `a[p] = v`. -/
def set_at {γ : Type} (a : Nat → γ) (p : Nat) (v : γ) : Nat → γ :=
  fun q => if q = p then v else a q

/-- Modelled from the spec: the codec `fw::fp<T>` with its `format<BE, BM>`
(`fp/fp.hpp`, not among the sources).  `memory_footprint_elements k` is the
number of stream elements of `k` logical values, `compress` maps the logical
values to the stream elements it writes, `decompress l k` maps the stream
elements of `k` logical values back to the values it writes. -/
structure fp (α β : Type) where
  memory_footprint_elements : Nat → Nat
  compress : List α → List β
  decompress : List β → Nat → List α

/-- Modelled from the spec: the codec at the default widths, `fp_type = T`:
the identity, with `memory_footprint_elements n = n`. -/
def fp.identity (α : Type) : fp α α where
  memory_footprint_elements := fun k => k
  compress := fun l => l
  decompress := fun l k => l.take k

/-- The call `fp<T>::compress<BE, BM>(out + ptr, in, count)`. -/
def fp.compress_at {α β : Type} (F : fp α β) (out : Nat → β) (ptr : Nat)
    (inp : Nat → α) (count : Nat) : Nat → β :=
  blit out ptr (F.compress (slice inp 0 count))

/-- The call `fp<T>::decompress<BE, BM>(out, in + k, count)`. -/
def fp.decompress_at {α β : Type} (F : fp α β) (out : Nat → α)
    (inp : Nat → β) (k count : Nat) : Nat → α :=
  blit out 0 (F.decompress (slice inp k (F.memory_footprint_elements count)) count)

/-! ## Geometry -/

/-- The data members of `matrix` other than the stream. -/
structure geometry where
  m : Nat
  n : Nat
  bs : Nat
  num_blocks_a : Nat
  num_elements_a : Nat
  num_blocks_b : Nat
  num_elements_b : Nat
  num_blocks_c : Nat
  num_elements_c : Nat
  num_blocks_d : Nat
  num_elements_d : Nat
  num_elements : Nat
  deriving DecidableEq, Repr

/-- The member initialisers of the public constructor of `matrix`
(`extent = {m, n}`), in exact arithmetic: the values of the members as long as
no sum or product leaves the range of `std::size_t`
(`matrix.members_size_t` has them in `std::size_t` arithmetic). -/
def matrix.members (f : Nat → Nat) (m n bs : Nat) : geometry :=
  let num_blocks_a := (m / bs) * (n / bs)
  let num_elements_a := f (bs * bs)
  let num_blocks_b := (m / bs) * (((n + bs - 1) / bs) - (n / bs))
  let num_elements_b := f (bs * (n - (n / bs) * bs))
  let num_blocks_c := (((m + bs - 1) / bs) - (m / bs)) * (n / bs)
  let num_elements_c := f ((m - (m / bs) * bs) * bs)
  let num_blocks_d := (((m + bs - 1) / bs) - (m / bs)) * (((n + bs - 1) / bs) - (n / bs))
  let num_elements_d := f ((m - (m / bs) * bs) * (n - (n / bs) * bs))
  { m := m, n := n, bs := bs,
    num_blocks_a := num_blocks_a, num_elements_a := num_elements_a,
    num_blocks_b := num_blocks_b, num_elements_b := num_elements_b,
    num_blocks_c := num_blocks_c, num_elements_c := num_elements_c,
    num_blocks_d := num_blocks_d, num_elements_d := num_elements_d,
    num_elements := num_blocks_a * num_elements_a + num_blocks_b * num_elements_b
      + num_blocks_c * num_elements_c + num_blocks_d * num_elements_d }

/-- The member initialisers of the protected constructor of `matrix` that
`triangular_matrix` calls (`extent = {n}`), in exact arithmetic: the values of
the members as long as no sum or product leaves the range of `std::size_t`
(`triangular_matrix.members_size_t` has them in `std::size_t` arithmetic). -/
def triangular_matrix.members (f : Nat → Nat) (n bs : Nat) : geometry :=
  let num_blocks_a := n / bs
  let num_elements_a := f ((bs * (bs + 1)) / 2)
  let num_blocks_b := (((n / bs) * ((n / bs) + 1)) / 2) - (n / bs)
  let num_elements_b := f (bs * bs)
  let num_blocks_c := (n / bs) * (((n + bs - 1) / bs) - (n / bs))
  let num_elements_c := f (bs * (n - (n / bs) * bs))
  let num_blocks_d := ((n + bs - 1) / bs) - (n / bs)
  let num_elements_d := f (((n - (n / bs) * bs) * (n - (n / bs) * bs + 1)) / 2)
  { m := n, n := n, bs := bs,
    num_blocks_a := num_blocks_a, num_elements_a := num_elements_a,
    num_blocks_b := num_blocks_b, num_elements_b := num_elements_b,
    num_blocks_c := num_blocks_c, num_elements_c := num_elements_c,
    num_blocks_d := num_blocks_d, num_elements_d := num_elements_d,
    num_elements := num_blocks_a * num_elements_a + num_blocks_b * num_elements_b
      + num_blocks_c * num_elements_c + num_blocks_d * num_elements_d }

/-- An object of class `matrix` (or `triangular_matrix`): the geometry and the
stream `compressed_data` points to. -/
structure matrix (β : Type) extends geometry where
  compressed_data : Nat → β

/-! ## `matrix::compress` -/

/-- The block loops of `matrix::compress`.  The state is the
running pointer `ptr` (as `ptr - compressed_data`) and the state `σ` of the
body; `visit j i ptr` is the body up to the advance of the pointer. -/
def matrix.compress_loop {σ : Type} (m n bs : Nat)
    (num_elements_a num_elements_b num_elements_c : Nat)
    (visit : Nat → Nat → Nat → σ → σ) (s : Nat × σ) : Nat × σ :=
  forUp (fun j s =>
    forUp (fun i s =>
      (s.1 + (if n - i < bs then num_elements_b
              else if m - j < bs then num_elements_c else num_elements_a),
       visit j i s.1 s.2)) n bs n 0 s) m bs m 0 s

/-- The body of the block loops of `matrix::compress` for the block at row
`j`, column `i`: copy the `mm x nn` rectangle into `buffer`, compress `buffer`
to `ptr`.  The state is `(buffer, stream)`. -/
def matrix.compress_block {α β : Type} (F : fp α β) (data : Nat → α)
    (m n ld_data bs : Nat) (j i ptr : Nat)
    (s : (Nat → α) × (Nat → β)) : (Nat → α) × (Nat → β) :=
  let mm := min (m - j) bs
  let nn := min (n - i) bs
  let buffer := forUp (fun jj buffer =>
    forUp (fun ii buffer =>
      set_at buffer (jj * nn + ii) (data ((j + jj) * ld_data + (i + ii))))
      nn 1 nn 0 buffer) mm 1 mm 0 s.1
  (buffer, F.compress_at s.2 ptr buffer (mm * nn))

/-- The static `matrix::compress(data, compressed_data, {m, n}, ld_data, bs, mat)`:
the value returned and the stream afterwards.  A null pointer is `none`;
`buffer` is the content of the uninitialised scratch array. -/
def matrix.compress {α β : Type} (F : fp α β) (data : Option (Nat → α))
    (compressed_data : Option (Nat → β)) (m n ld_data bs : Nat)
    (mat : Option geometry) (buffer : Nat → α) : Nat × Option (Nat → β) :=
  match data, compressed_data with
  | some data, some stream =>
    if m = 0 ∨ n = 0 then (0, some stream)
    else
      let num_elements_a := match mat with
        | some g => g.num_elements_a
        | none => F.memory_footprint_elements (bs * bs)
      let num_elements_b := match mat with
        | some g => g.num_elements_b
        | none => F.memory_footprint_elements (bs * (n - (n / bs) * bs))
      let num_elements_c := match mat with
        | some g => g.num_elements_c
        | none => F.memory_footprint_elements ((m - (m / bs) * bs) * bs)
      let num_elements_d := match mat with
        | some g => g.num_elements_d
        | none => F.memory_footprint_elements ((m - (m / bs) * bs) * (n - (n / bs) * bs))
      let r := matrix.compress_loop m n bs num_elements_a num_elements_b num_elements_c
        (matrix.compress_block F data m n ld_data bs) (0, (buffer, stream))
      let ptr := if num_elements_d ≠ 0 then
          r.1 - (if num_elements_b ≠ 0 then num_elements_b else num_elements_c) + num_elements_d
        else r.1
      (ptr, some r.2.2)
  | _, _ => (0, compressed_data)

/-- The cursor values of `matrix::compress`: the triples `(j, i, ptr)` of the
blocks in the order in which they are written. -/
def matrix.compress_trace (m n bs : Nat)
    (num_elements_a num_elements_b num_elements_c : Nat) : List (Nat × Nat × Nat) :=
  (matrix.compress_loop m n bs num_elements_a num_elements_b num_elements_c
    (fun j i ptr tr => tr ++ [(j, i, ptr)]) (0, [])).2

/-- The compressing branch of the public constructor of `matrix` (the `else`
of `std::is_same<TT, fp_type>`, a source whose pointer type is not
`fp_type`): the stream is the reserved `memory` after `compress`.  The whole
constructor is `matrix.constructor`. -/
def matrix.ctor {α β : Type} (F : fp α β) (data : Option (Nat → α))
    (m n ld_data bs : Nat) (memory : Nat → β) (buffer : Nat → α) : matrix β :=
  let g := matrix.members F.memory_footprint_elements m n bs
  { g with
    compressed_data :=
      ((matrix.compress F data (some memory) m n ld_data bs (some g) buffer).2).getD memory }

/-! ## Memory of the kernels -/

/-- An address: `mem a` in the memory of the caller, where `x` and `y` live,
`buf a` in the stack array `buffer_y` of `blas2_frame`. -/
inductive Ptr where
  | mem (a : Nat)
  | buf (a : Nat)
  deriving DecidableEq, Repr

/-- Pointer arithmetic `p + i`. -/
def Ptr.add : Ptr → Nat → Ptr
  | Ptr.mem a, i => Ptr.mem (a + i)
  | Ptr.buf a, i => Ptr.buf (a + i)

/-- The array reached through the pointer `p`: `p[0], p[1], ..`. -/
def load {α : Type} (mem : Ptr → α) (p : Ptr) : Nat → α :=
  fun i => mem (p.add i)

/-- The memory after `p[i] = v i` for all `i < len`. -/
def store {α : Type} (mem : Ptr → α) (p : Ptr) (len : Nat) (v : Nat → α) : Ptr → α :=
  fun l => match p, l with
    | Ptr.mem a, Ptr.mem b => if a ≤ b ∧ b < a + len then v (b - a) else mem l
    | Ptr.buf a, Ptr.buf b => if a ≤ b ∧ b < a + len then v (b - a) else mem l
    | _, _ => mem l

/-! ## The dense BLAS-2 routines -/

section blas2
variable {α : Type}

/-- Modelled from the spec: GEMV of the Level-2 BLAS (`blas/wrapper.hpp` and
the BLAS library are not among the sources), row-major, unit increments:
`Y := alpha * op(A) * X + beta * Y` with `A` an `M x N` matrix of leading
dimension `lda`; the value is the vector `Y` afterwards. -/
def gemv [CommRing α] (trans : Bool) (M N : Nat) (alpha : α) (A : Nat → α) (lda : Nat)
    (X : Nat → α) (beta : α) (Y : Nat → α) : Nat → α :=
  fun r =>
    if trans then
      (if r < N then alpha * (∑ c ∈ Finset.range M, A (c * lda + r) * X c) + beta * Y r
       else Y r)
    else
      (if r < M then alpha * (∑ c ∈ Finset.range N, A (r * lda + c) * X c) + beta * Y r
       else Y r)

/-- Modelled from the spec: the entry `(i, j)` of the triangular matrix of
order `N` held in row-major packed storage `Ap` (zero outside the triangle). -/
def tp_entry [CommRing α] (uplo : triangular_matrix_type) (N : Nat) (Ap : Nat → α)
    (i j : Nat) : α :=
  match uplo with
  | triangular_matrix_type.upper =>
    if i ≤ j then Ap (i * N - (i * (i - 1)) / 2 + (j - i)) else 0
  | triangular_matrix_type.lower =>
    if j ≤ i then Ap ((i * (i + 1)) / 2 + j) else 0

/-- Modelled from the spec: the entry `(i, j)` of `op(A)` for the packed
triangular matrix `A`. -/
def tp_op [CommRing α] (uplo : triangular_matrix_type) (trans : Bool) (N : Nat)
    (Ap : Nat → α) (i j : Nat) : α :=
  if trans then tp_entry uplo N Ap j i else tp_entry uplo N Ap i j

/-- Modelled from the spec: TPMV of the Level-2 BLAS, row-major, non-unit
diagonal, unit increment: `X := op(A) * X`. -/
def tpmv [CommRing α] (uplo : triangular_matrix_type) (trans : Bool) (N : Nat)
    (Ap : Nat → α) (X : Nat → α) : Nat → α :=
  fun r => if r < N then ∑ c ∈ Finset.range N, tp_op uplo trans N Ap r c * X c else X r

/-- Modelled from the spec: SPMV of the Level-2 BLAS, row-major, unit
increments: `Y := alpha * A * X + beta * Y` for the symmetric matrix `A` whose
`uplo` triangle is held in packed storage `Ap`. -/
def spmv [CommRing α] (uplo : triangular_matrix_type) (N : Nat) (alpha : α) (Ap : Nat → α)
    (X : Nat → α) (beta : α) (Y : Nat → α) : Nat → α :=
  fun r =>
    if r < N then
      alpha * (∑ c ∈ Finset.range N,
        (tp_entry uplo N Ap r c + (if r = c then 0 else tp_entry uplo N Ap c r)) * X c)
        + beta * Y r
    else Y r

/-- Modelled from the spec: forward substitution, the lower triangular case of
TPSV, for the system `a * x = b` of order `N`:
`x[i] = (b[i] - sum_{j < i} a[i][j] * x[j]) / a[i][i]` for `i = 0, .., N - 1`. -/
def forward_substitution [Field α] (a : Nat → Nat → α) (N : Nat) (b : Nat → α) : Nat → α :=
  (List.range N).foldl (fun x i =>
    set_at x i ((x i - ∑ j ∈ Finset.range i, a i j * x j) / a i i)) b

/-- Modelled from the spec: backward substitution, the upper triangular case
of TPSV, for the system `a * x = b` of order `N`:
`x[i] = (b[i] - sum_{i < j < N} a[i][j] * x[j]) / a[i][i]` for `i = N - 1, .., 0`. -/
def backward_substitution [Field α] (a : Nat → Nat → α) (N : Nat) (b : Nat → α) : Nat → α :=
  (List.range N).reverse.foldl (fun x i =>
    set_at x i ((x i - ∑ j ∈ Finset.range (N - (i + 1)), a i (i + 1 + j) * x (i + 1 + j))
      / a i i)) b

/-- Modelled from the spec: TPSV of the Level-2 BLAS, row-major, non-unit
diagonal, unit increment: `X` is overwritten with the solution of
`op(A) * x = X`, computed by substitution, forward when `op(A)` is lower
triangular and backward when it is upper triangular.  No test for
singularity. -/
def tpsv [Field α] (uplo : triangular_matrix_type) (trans : Bool) (N : Nat)
    (Ap : Nat → α) (X : Nat → α) : Nat → α :=
  if (uplo = triangular_matrix_type.lower ∧ trans = false)
      ∨ (uplo = triangular_matrix_type.upper ∧ trans = true) then
    forward_substitution (tp_op uplo trans N Ap) N X
  else
    backward_substitution (tp_op uplo trans N Ap) N X

/-- The call `gemv(CblasRowMajor, trans, M, N, alpha, A, lda, X, 1, beta, Y, 1)`
on vectors in memory. -/
def gemv_at [CommRing α] (trans : Bool) (M N : Nat) (alpha : α) (A : Nat → α) (lda : Nat)
    (X : Ptr) (beta : α) (Y : Ptr) (mem : Ptr → α) : Ptr → α :=
  store mem Y (if trans then N else M)
    (gemv trans M N alpha A lda (load mem X) beta (load mem Y))

/-- The call `spmv(CblasRowMajor, uplo, N, alpha, Ap, X, 1, beta, Y, 1)` on
vectors in memory. -/
def spmv_at [CommRing α] (uplo : triangular_matrix_type) (N : Nat) (alpha : α)
    (Ap : Nat → α) (X : Ptr) (beta : α) (Y : Ptr) (mem : Ptr → α) : Ptr → α :=
  store mem Y N (spmv uplo N alpha Ap (load mem X) beta (load mem Y))

/-- The call `tpsv(CblasRowMajor, uplo, trans, CblasNonUnit, N, Ap, X, 1)` on a
vector in memory. -/
def tpsv_at [Field α] (uplo : triangular_matrix_type) (trans : Bool) (N : Nat)
    (Ap : Nat → α) (X : Ptr) (mem : Ptr → α) : Ptr → α :=
  store mem X N (tpsv uplo trans N Ap (load mem X))

end blas2

/-! ## `matrix::blas2_frame` and `matrix::matrix_vector` -/

section kernels
variable {α β : Type}

/-- The member `blas2_frame(kernel, transpose, alpha, x, beta, y)`; `x` and `y`
are addresses in the memory of the caller.  `kernel transpose alpha x y` is
the effect of the kernel on the memory. -/
def matrix.blas2_frame [CommRing α] [DecidableEq α] (g : geometry)
    (kernel : Bool → α → Ptr → Ptr → (Ptr → α) → (Ptr → α))
    (transpose : Bool) (alpha : α) (x : Nat) (beta : α) (y : Nat)
    (mem : Ptr → α) : Ptr → α :=
  if g.n = 0 ∨ g.m = 0 then mem
  else if alpha = 0 then
    (if beta = 0 then
      forUp (fun j mem => Function.update mem (Ptr.mem (y + j)) 0) g.m 1 g.m 0 mem
    else if beta ≠ 1 then
      forUp (fun j mem => Function.update mem (Ptr.mem (y + j)) (beta * mem (Ptr.mem (y + j))))
        g.m 1 g.m 0 mem
    else mem)
  else
    let mn := if transpose then g.n else g.m
    let use_buffer : Bool :=
      if Int.natAbs ((y : Int) - (x : Int)) ≥ max g.m g.n then false else true
    let ptr_y : Ptr := if use_buffer then Ptr.buf 0 else Ptr.mem y
    let mem1 : Ptr → α :=
      if use_buffer then
        forUp (fun j mem => Function.update mem (ptr_y.add j) 0) mn 1 mn 0 mem
      else if beta = 0 then
        forUp (fun j mem => Function.update mem (ptr_y.add j) 0) mn 1 mn 0 mem
      else if beta ≠ 1 then
        forUp (fun j mem => Function.update mem (ptr_y.add j) (mem (ptr_y.add j) * beta))
          mn 1 mn 0 mem
      else mem
    let mem2 := kernel transpose alpha (Ptr.mem x) ptr_y mem1
    if use_buffer = false then mem2
    else if beta = 0 then
      forUp (fun j mem => Function.update mem (Ptr.mem (y + j)) (mem (Ptr.buf j))) mn 1 mn 0 mem2
    else if beta = 1 then
      forUp (fun j mem => Function.update mem (Ptr.mem (y + j))
        (mem (Ptr.mem (y + j)) + mem (Ptr.buf j))) mn 1 mn 0 mem2
    else
      forUp (fun j mem => Function.update mem (Ptr.mem (y + j))
        (mem (Ptr.buf j) + beta * mem (Ptr.mem (y + j)))) mn 1 mn 0 mem2

/-- The block loops of the kernel of `matrix::matrix_vector`.  The state is the
cursor `k` and the state `σ` of the body; `visit j i k` is the body up to the
advance of `k`. -/
def matrix.matrix_vector_loop {σ : Type} (m n bs : Nat)
    (num_elements_a num_elements_b num_elements_c : Nat)
    (visit : Nat → Nat → Nat → σ → σ) (s : Nat × σ) : Nat × σ :=
  forUp (fun j s =>
    let k_inc := if m - j < bs then num_elements_c else num_elements_a
    forUp (fun i s =>
      (s.1 + (if n - i < bs then num_elements_b else k_inc), visit j i s.1 s.2))
      n bs n 0 s) m bs m 0 s

/-- The body of the block loops of `matrix::matrix_vector` for the block at
row `j`, column `i` with cursor `k`: decompress the block, apply `gemv`.  The
state is `(buffer_a, memory)`. -/
def matrix.matrix_vector_block [CommRing α] (F : fp α β) (A : matrix β)
    (transpose : Bool) (alpha : α) (x y : Ptr) (j i k : Nat)
    (s : (Nat → α) × (Ptr → α)) : (Nat → α) × (Ptr → α) :=
  let mm := min (A.m - j) A.bs
  let nn := min (A.n - i) A.bs
  let buffer_a := F.decompress_at s.1 A.compressed_data k (mm * nn)
  (buffer_a,
   gemv_at transpose mm nn alpha buffer_a nn (if transpose then x.add j else x.add i) 1
     (if transpose then y.add i else y.add j) s.2)

/-- The cursor values of `matrix::matrix_vector`: the triples `(j, i, k)` of
the blocks in the order in which they are read. -/
def matrix.matrix_vector_trace (A : geometry) : List (Nat × Nat × Nat) :=
  (matrix.matrix_vector_loop A.m A.n A.bs A.num_elements_a A.num_elements_b A.num_elements_c
    (fun j i k tr => tr ++ [(j, i, k)]) (0, [])).2

/-- The member `matrix::matrix_vector(transpose, alpha, x, beta, y)`: the memory
afterwards.  `buffer_a` is the content of the uninitialised scratch array. -/
def matrix.matrix_vector [CommRing α] [DecidableEq α] (F : fp α β) (A : matrix β)
    (transpose : Bool) (alpha : α) (x : Nat) (beta : α) (y : Nat)
    (buffer_a : Nat → α) (mem : Ptr → α) : Ptr → α :=
  if A.m = 0 ∨ A.n = 0 then mem
  else
    matrix.blas2_frame A.togeometry (fun transpose alpha x y mem =>
      (matrix.matrix_vector_loop A.m A.n A.bs
        A.num_elements_a A.num_elements_b A.num_elements_c
        (matrix.matrix_vector_block F A transpose alpha x y) (0, (buffer_a, mem))).2.2)
      transpose alpha x beta y mem

end kernels

/-! ## `triangular_matrix` -/

section triangular
variable {α β : Type}

/-- The private member `triangular_matrix::get_offset(mt, bj, bi)`, with
truncated subtraction. -/
def triangular_matrix.get_offset (A : geometry) (mt : triangular_matrix_type)
    (bj bi : Nat) : Nat :=
  match mt with
  | triangular_matrix_type.upper =>
    let n_ab_row := A.n / A.bs
    let n_c_row := ((A.n + A.bs - 1) / A.bs) - n_ab_row
    let n_abc_row := n_ab_row + n_c_row
    let n_total := (n_abc_row * (n_abc_row + 1)) / 2
    let n_abc := n_total - ((n_abc_row - bj) * ((n_abc_row - bj + 1))) / 2
    let n_a := bj + (if bi > bj then 1 else 0)
    let n_b := n_abc - bj * (1 + n_c_row) + (if bi > (bj + 1) then (bi - (bj + 1)) else 0)
    let n_c := bj * n_c_row
    n_a * A.num_elements_a + n_b * A.num_elements_b + n_c * A.num_elements_c
  | triangular_matrix_type.lower =>
    let n_blocks := (A.n + A.bs - 1) / A.bs
    let n_a := bj
    let n_b := (bj * (bj + 1)) / 2 - bj + (if bj < (n_blocks - 1) then bi else 0)
    let n_c := if bj = (n_blocks - 1) then bi else 0
    n_a * A.num_elements_a + n_b * A.num_elements_b
      + n_c * (if A.num_elements_c ≠ 0 then A.num_elements_c else A.num_elements_b)

/-- The subtraction `a - b` of two `std::size_t`, `none` when it wraps
around. -/
def checked_sub (a b : Nat) : Option Nat :=
  if b ≤ a then some (a - b) else none

/-- The private member `triangular_matrix::get_offset(mt, bj, bi)` with every
subtraction checked: `none` as soon as one of them wraps around. -/
def triangular_matrix.get_offset_checked (A : geometry) (mt : triangular_matrix_type)
    (bj bi : Nat) : Option Nat :=
  match mt with
  | triangular_matrix_type.upper => do
    let n_ab_row := A.n / A.bs
    let t1 ← checked_sub (A.n + A.bs) 1
    let n_c_row ← checked_sub (t1 / A.bs) n_ab_row
    let n_abc_row := n_ab_row + n_c_row
    let n_total := (n_abc_row * (n_abc_row + 1)) / 2
    let t2 ← checked_sub n_abc_row bj
    let t3 ← checked_sub n_abc_row bj
    let n_abc ← checked_sub n_total ((t2 * ((t3 + 1))) / 2)
    let n_a := bj + (if bi > bj then 1 else 0)
    let t4 ← checked_sub n_abc (bj * (1 + n_c_row))
    let t5 ← if bi > (bj + 1) then checked_sub bi (bj + 1) else some 0
    let n_b := t4 + t5
    let n_c := bj * n_c_row
    pure (n_a * A.num_elements_a + n_b * A.num_elements_b + n_c * A.num_elements_c)
  | triangular_matrix_type.lower => do
    let t1 ← checked_sub (A.n + A.bs) 1
    let n_blocks := t1 / A.bs
    let n_a := bj
    let t2 ← checked_sub ((bj * (bj + 1)) / 2) bj
    let t3 ← checked_sub n_blocks 1
    let n_b := t2 + (if bj < t3 then bi else 0)
    let t4 ← checked_sub n_blocks 1
    let n_c := if bj = t4 then bi else 0
    pure (n_a * A.num_elements_a + n_b * A.num_elements_b
      + n_c * (if A.num_elements_c ≠ 0 then A.num_elements_c else A.num_elements_b))

/-- The block loops of `triangular_matrix::compress`.  The state is the running
pointer `ptr` (as `ptr - compressed_data`) and the state `σ` of the body;
`visit j i ptr` is the body up to the advance of the pointer. -/
def triangular_matrix.compress_loop {σ : Type} (MT : triangular_matrix_type) (n bs : Nat)
    (num_elements_a num_elements_b num_elements_c : Nat)
    (visit : Nat → Nat → Nat → σ → σ) (s : Nat × σ) : Nat × σ :=
  forUp (fun j s =>
    let i_start := if MT = triangular_matrix_type.upper then j else 0
    let i_end := if MT = triangular_matrix_type.upper then n else (j + 1)
    forUp (fun i s =>
      (if i = j then s.1 + num_elements_a
       else
         let ij := if MT = triangular_matrix_type.upper then i else j
         s.1 + (if n - ij < bs then num_elements_c else num_elements_b),
       visit j i s.1 s.2)) i_end bs i_end i_start s) n bs n 0 s

/-- The body of the block loops of `triangular_matrix::compress` for the block
at row `j`, column `i`: copy the packed triangle (diagonal block) or the
rectangle into `buffer`, compress `buffer` to `ptr`.  The state is
`(buffer, stream)`. -/
def triangular_matrix.compress_block (F : fp α β) (MT : triangular_matrix_type)
    (data : Nat → α) (n ld_data bs : Nat) (j i ptr : Nat)
    (s : (Nat → α) × (Nat → β)) : (Nat → α) × (Nat → β) :=
  let mm := min (n - j) bs
  let nn := min (n - i) bs
  let r := forUp (fun jj (s : Nat × (Nat → α)) =>
    if i = j then
      let ii_start := if MT = triangular_matrix_type.upper then jj else 0
      let ii_end := if MT = triangular_matrix_type.upper then nn else (jj + 1)
      forUp (fun ii (s : Nat × (Nat → α)) =>
        (s.1 + 1, set_at s.2 s.1 (data ((j + jj) * ld_data + (i + ii)))))
        ii_end 1 ii_end ii_start s
    else
      (s.1, forUp (fun ii buffer =>
        set_at buffer (jj * nn + ii) (data ((j + jj) * ld_data + (i + ii))))
        nn 1 nn 0 s.2)) mm 1 mm 0 (0, s.1)
  (r.2, F.compress_at s.2 ptr r.2 (if i = j then (mm * (mm + 1)) / 2 else mm * nn))

/-- The static `triangular_matrix::compress(data, compressed_data, {n}, ld_data, bs, mat)`
of the class with orientation `MT`: the value returned and the stream
afterwards.  A null pointer is `none`; `buffer` is the content of the
uninitialised scratch array. -/
def triangular_matrix.compress (F : fp α β) (MT : triangular_matrix_type)
    (data : Option (Nat → α)) (compressed_data : Option (Nat → β)) (n ld_data bs : Nat)
    (mat : Option geometry) (buffer : Nat → α) : Nat × Option (Nat → β) :=
  match data, compressed_data with
  | some data, some stream =>
    if n = 0 then (0, some stream)
    else
      let num_elements_a := match mat with
        | some g => g.num_elements_a
        | none => F.memory_footprint_elements ((bs * (bs + 1)) / 2)
      let num_elements_b := match mat with
        | some g => g.num_elements_b
        | none => F.memory_footprint_elements (bs * bs)
      let num_elements_c := match mat with
        | some g => g.num_elements_c
        | none => F.memory_footprint_elements (bs * (n - (n / bs) * bs))
      let num_elements_d := match mat with
        | some g => g.num_elements_d
        | none => F.memory_footprint_elements
            (((n - (n / bs) * bs) * (n - (n / bs) * bs + 1)) / 2)
      let r := triangular_matrix.compress_loop MT n bs
        num_elements_a num_elements_b num_elements_c
        (triangular_matrix.compress_block F MT data n ld_data bs) (0, (buffer, stream))
      let ptr := if num_elements_d ≠ 0 then r.1 - num_elements_a + num_elements_d else r.1
      (ptr, some r.2.2)
  | _, _ => (0, compressed_data)

/-- The cursor values of `triangular_matrix::compress`: the triples
`(j, i, ptr)` of the blocks in the order in which they are written. -/
def triangular_matrix.compress_trace (MT : triangular_matrix_type) (A : geometry) :
    List (Nat × Nat × Nat) :=
  (triangular_matrix.compress_loop MT A.n A.bs
    A.num_elements_a A.num_elements_b A.num_elements_c
    (fun j i ptr tr => tr ++ [(j, i, ptr)]) (0, [])).2

/-- The compressing branch of the constructor of `triangular_matrix` (the
`else` of `std::is_same<TT, fp_type>`, a source whose pointer type is not
`fp_type`): the stream is the reserved `memory` after `compress`.  The whole
constructor is `triangular_matrix.constructor`. -/
def triangular_matrix.ctor (F : fp α β) (MT : triangular_matrix_type)
    (data : Option (Nat → α)) (n ld_data bs : Nat) (memory : Nat → β)
    (buffer : Nat → α) : matrix β :=
  let g := triangular_matrix.members F.memory_footprint_elements n bs
  { g with
    compressed_data :=
      ((triangular_matrix.compress F MT data (some memory) n ld_data bs (some g) buffer).2).getD
        memory }

/-- The block loops of the first pass of `triangular_matrix::matrix_vector`
(diagonal blocks).  The state is the cursor `k` and the state `σ` of the body;
`visit j i k` is the body up to the advance of `k`. -/
def triangular_matrix.matrix_vector_loop_1 {σ : Type} (MT : triangular_matrix_type)
    (n bs : Nat) (num_elements_a num_elements_b num_elements_c : Nat)
    (visit : Nat → Nat → Nat → σ → σ) (s : Nat × σ) : Nat × σ :=
  forUp (fun j s =>
    let i_start := if MT = triangular_matrix_type.upper then j else 0
    let i_end := if MT = triangular_matrix_type.upper then n else (j + 1)
    forUp (fun i s =>
      (if i = j then s.1 + num_elements_a
       else
         let ij := if MT = triangular_matrix_type.upper then i else j
         s.1 + (if n - ij < bs then num_elements_c else num_elements_b),
       visit j i s.1 s.2)) i_end bs i_end i_start s) n bs n 0 s

/-- The block loops of the second pass of `triangular_matrix::matrix_vector`
(non-diagonal blocks). -/
def triangular_matrix.matrix_vector_loop_2 {σ : Type} (MT : triangular_matrix_type)
    (n bs : Nat) (num_elements_a num_elements_b num_elements_c : Nat)
    (visit : Nat → Nat → Nat → σ → σ) (s : Nat × σ) : Nat × σ :=
  forUp (fun j s =>
    let i_start := if MT = triangular_matrix_type.upper then j else 0
    let i_end := if MT = triangular_matrix_type.upper then n else (j + 1)
    forUp (fun i s =>
      (if i = j then s.1 + num_elements_a
       else
         let ij := if MT = triangular_matrix_type.upper then i else j
         s.1 + (if n - ij < bs then num_elements_c else num_elements_b),
       visit j i s.1 s.2)) i_end bs i_end i_start s) n bs n 0 s

/-- The body of the first pass of `triangular_matrix::matrix_vector` for the
block at row `j`, column `i` with cursor `k`: a diagonal block is decompressed
and applied with `tpmv` to a copy of the slice of `x`, a non-diagonal block is
skipped.  The state is `(buffer_a, buffer_y, memory)`. -/
def triangular_matrix.matrix_vector_block_1 [CommRing α] (F : fp α β)
    (MT : triangular_matrix_type) (A : matrix β) (transpose : Bool) (alpha : α)
    (x y : Ptr) (j i k : Nat)
    (s : (Nat → α) × (Nat → α) × (Ptr → α)) : (Nat → α) × (Nat → α) × (Ptr → α) :=
  let nn := min (A.n - i) A.bs
  if i = j then
    let buffer_a := F.decompress_at s.1 A.compressed_data k ((nn * (nn + 1)) / 2)
    let buffer_y := forUp (fun jj b => set_at b jj (s.2.2 (x.add (j + jj)))) nn 1 nn 0 s.2.1
    let buffer_y := tpmv MT transpose nn buffer_a buffer_y
    let mem := forUp (fun jj mem =>
      Function.update mem (y.add (j + jj)) (mem (y.add (j + jj)) + alpha * buffer_y jj))
      nn 1 nn 0 s.2.2
    (buffer_a, buffer_y, mem)
  else s

/-- The body of the second pass of `triangular_matrix::matrix_vector`: a
non-diagonal block is decompressed and applied with `gemv`, a diagonal block
is skipped. -/
def triangular_matrix.matrix_vector_block_2 [CommRing α] (F : fp α β)
    (A : matrix β) (transpose : Bool) (alpha : α)
    (x y : Ptr) (j i k : Nat)
    (s : (Nat → α) × (Nat → α) × (Ptr → α)) : (Nat → α) × (Nat → α) × (Ptr → α) :=
  let mm := min (A.n - j) A.bs
  let nn := min (A.n - i) A.bs
  if i = j then s
  else
    let buffer_a := F.decompress_at s.1 A.compressed_data k (mm * nn)
    (buffer_a, s.2.1,
     gemv_at transpose mm nn alpha buffer_a nn (if transpose then x.add j else x.add i) 1
       (if transpose then y.add i else y.add j) s.2.2)

/-- The member `triangular_matrix::matrix_vector(transpose, alpha, x, beta, y)`
of the class with orientation `MT`: the memory afterwards.  `buffer_a` and
`buffer_y` are the contents of the uninitialised scratch arrays. -/
def triangular_matrix.matrix_vector [CommRing α] [DecidableEq α] (F : fp α β)
    (MT : triangular_matrix_type) (A : matrix β)
    (transpose : Bool) (alpha : α) (x : Nat) (beta : α) (y : Nat)
    (buffer_a buffer_y : Nat → α) (mem : Ptr → α) : Ptr → α :=
  if A.n = 0 then mem
  else
    matrix.blas2_frame A.togeometry (fun transpose alpha x y mem =>
      let s1 := (triangular_matrix.matrix_vector_loop_1 MT A.n A.bs
        A.num_elements_a A.num_elements_b A.num_elements_c
        (triangular_matrix.matrix_vector_block_1 F MT A transpose alpha x y)
        (0, (buffer_a, buffer_y, mem))).2
      (triangular_matrix.matrix_vector_loop_2 MT A.n A.bs
        A.num_elements_a A.num_elements_b A.num_elements_c
        (triangular_matrix.matrix_vector_block_2 F A transpose alpha x y)
        (0, s1)).2.2.2)
      transpose alpha x beta y mem

/-- The block loops of `triangular_matrix::symmetric_matrix_vector`. -/
def triangular_matrix.symmetric_matrix_vector_loop {σ : Type} (MT : triangular_matrix_type)
    (n bs : Nat) (num_elements_a num_elements_b num_elements_c : Nat)
    (visit : Nat → Nat → Nat → σ → σ) (s : Nat × σ) : Nat × σ :=
  forUp (fun j s =>
    let i_start := if MT = triangular_matrix_type.upper then j else 0
    let i_end := if MT = triangular_matrix_type.upper then n else (j + 1)
    forUp (fun i s =>
      (if i = j then s.1 + num_elements_a
       else
         let ij := if MT = triangular_matrix_type.upper then i else j
         s.1 + (if n - ij < bs then num_elements_c else num_elements_b),
       visit j i s.1 s.2)) i_end bs i_end i_start s) n bs n 0 s

/-- The body of the block loops of `triangular_matrix::symmetric_matrix_vector`:
`spmv` for a diagonal block, two `gemv` calls on the same scratch for a
non-diagonal block.  The state is `(buffer_a, memory)`. -/
def triangular_matrix.symmetric_matrix_vector_block [CommRing α] (F : fp α β)
    (MT : triangular_matrix_type) (A : matrix β) (alpha : α)
    (x y : Ptr) (j i k : Nat)
    (s : (Nat → α) × (Ptr → α)) : (Nat → α) × (Ptr → α) :=
  let mm := min (A.n - j) A.bs
  let nn := min (A.n - i) A.bs
  if i = j then
    let buffer_a := F.decompress_at s.1 A.compressed_data k ((nn * (nn + 1)) / 2)
    (buffer_a, spmv_at MT nn alpha buffer_a (x.add i) 1 (y.add i) s.2)
  else
    let buffer_a := F.decompress_at s.1 A.compressed_data k (mm * nn)
    let mem := gemv_at false mm nn alpha buffer_a nn (x.add i) 1 (y.add j) s.2
    (buffer_a, gemv_at true mm nn alpha buffer_a nn (x.add j) 1 (y.add i) mem)

/-- The member `triangular_matrix::symmetric_matrix_vector(alpha, x, beta, y)`:
the memory afterwards. -/
def triangular_matrix.symmetric_matrix_vector [CommRing α] [DecidableEq α] (F : fp α β)
    (MT : triangular_matrix_type) (A : matrix β)
    (alpha : α) (x : Nat) (beta : α) (y : Nat)
    (buffer_a : Nat → α) (mem : Ptr → α) : Ptr → α :=
  if A.n = 0 then mem
  else
    matrix.blas2_frame A.togeometry (fun _transpose alpha x y mem =>
      (triangular_matrix.symmetric_matrix_vector_loop MT A.n A.bs
        A.num_elements_a A.num_elements_b A.num_elements_c
        (triangular_matrix.symmetric_matrix_vector_block F MT A alpha x y)
        (0, (buffer_a, mem))).2.2)
      false alpha x beta y mem

/-- The body of the inner loop of the kernel of `triangular_matrix::solve` for
block row `bj` and block column `bi` (the same in both sweeps): decompress the
non-diagonal block and accumulate its product with the solved slice
`y[bi * bs ..]` on `buffer_x`.  The state is `(buffer_a, buffer_x, memory)`. -/
def triangular_matrix.solve_block [Field α] (F : fp α β)
    (MT : triangular_matrix_type) (A : matrix β) (transpose : Bool)
    (y : Ptr) (bj bi mm : Nat)
    (s : (Nat → α) × (Nat → α) × (Ptr → α)) : (Nat → α) × (Nat → α) × (Ptr → α) :=
  let nn := min (A.n - bi * A.bs) A.bs
  let k := if transpose then triangular_matrix.get_offset A.togeometry MT bi bj
    else triangular_matrix.get_offset A.togeometry MT bj bi
  let buffer_a := F.decompress_at s.1 A.compressed_data k (mm * nn)
  let buffer_x :=
    if transpose then gemv true nn mm 1 buffer_a mm (load s.2.2 (y.add (bi * A.bs))) 1 s.2.1
    else gemv false mm nn 1 buffer_a nn (load s.2.2 (y.add (bi * A.bs))) 1 s.2.1
  (buffer_a, buffer_x, s.2.2)

/-- The end of the body of the outer loop of the kernel of
`triangular_matrix::solve` for block row `bj` (the same in both sweeps):
`y[bj * bs ..] = x[bj * bs ..] - buffer_x`, then `tpsv` with the diagonal
block. -/
def triangular_matrix.solve_diagonal [Field α] (F : fp α β)
    (MT : triangular_matrix_type) (A : matrix β) (transpose : Bool)
    (x y : Ptr) (bj mm : Nat)
    (s : (Nat → α) × (Nat → α) × (Ptr → α)) : (Nat → α) × (Nat → α) × (Ptr → α) :=
  let mem := forUp (fun jj mem =>
    Function.update mem (y.add (bj * A.bs + jj)) (mem (x.add (bj * A.bs + jj)) - s.2.1 jj))
    mm 1 mm 0 s.2.2
  let k := triangular_matrix.get_offset A.togeometry MT bj bj
  let buffer_a := F.decompress_at s.1 A.compressed_data k ((mm * (mm + 1)) / 2)
  (buffer_a, s.2.1, tpsv_at MT transpose mm buffer_a (y.add (bj * A.bs)) mem)

/-- The kernel of `triangular_matrix::solve` (the lambda handed to
`blas2_frame`): the memory afterwards. -/
def triangular_matrix.solve_kernel [Field α] (F : fp α β)
    (MT : triangular_matrix_type) (A : matrix β)
    (buffer_a buffer_x : Nat → α)
    (transpose : Bool) (alpha : α) (x y : Ptr) (mem : Ptr → α) : Ptr → α :=
  let s : (Nat → α) × (Nat → α) × (Ptr → α) :=
    if (transpose = true ∧ MT = triangular_matrix_type.upper)
        ∨ (transpose = false ∧ MT = triangular_matrix_type.lower) then
      let n_blocks := (A.n + A.bs - 1) / A.bs
      forUp (fun bj s =>
        let mm := min (A.n - bj * A.bs) A.bs
        let buffer_x := forUp (fun jj b => set_at b jj 0) mm 1 mm 0 s.2.1
        let s := forUp (fun bi s => triangular_matrix.solve_block F MT A transpose y bj bi mm s)
          bj 1 bj 0 (s.1, buffer_x, s.2.2)
        triangular_matrix.solve_diagonal F MT A transpose x y bj mm s)
        n_blocks 1 n_blocks 0 (buffer_a, buffer_x, mem)
    else if (transpose = false ∧ MT = triangular_matrix_type.upper)
        ∨ (transpose = true ∧ MT = triangular_matrix_type.lower) then
      let ij_start := (A.n + A.bs - 1) / A.bs - 1
      forDown (fun bj s =>
        let mm := min (A.n - bj * A.bs) A.bs
        let buffer_x := forUp (fun jj b => set_at b jj 0) mm 1 mm 0 s.2.1
        let i_stop := bj + 1
        let s := forDown (fun bi s => triangular_matrix.solve_block F MT A transpose y bj bi mm s)
          i_stop (ij_start + 1) ij_start (s.1, buffer_x, s.2.2)
        triangular_matrix.solve_diagonal F MT A transpose x y bj mm s)
        0 (ij_start + 1) ij_start (buffer_a, buffer_x, mem)
    else (buffer_a, buffer_x, mem)
  let inv_alpha := 1 / alpha
  forUp (fun j mem => Function.update mem (y.add j) (mem (y.add j) * inv_alpha))
    A.n 1 A.n 0 s.2.2

/-- The member `triangular_matrix::solve(transpose, alpha, x, y)` of the class
with orientation `MT`: the memory afterwards; `x` is the address of the
output, `y` the address of the right-hand side. -/
def triangular_matrix.solve [Field α] [DecidableEq α] (F : fp α β)
    (MT : triangular_matrix_type) (A : matrix β)
    (transpose : Bool) (alpha : α) (x y : Nat)
    (buffer_a buffer_x : Nat → α) (mem : Ptr → α) : Ptr → α :=
  if A.n = 0 then mem
  else
    matrix.blas2_frame A.togeometry
      (triangular_matrix.solve_kernel F MT A buffer_a buffer_x)
      transpose alpha y 0 x mem

end triangular

/-! ## Closed forms used in the statements and proofs -/

/-- The number of blocks along an extent `n`: `ceil(n / bs)`. -/
def num_blocks (n bs : Nat) : Nat := (n + bs - 1) / bs

/-- The advance of the running pointer of `matrix::compress` (and of the cursor
of `matrix::matrix_vector`) after the block `(bj, bi)`. -/
def matrix.advance (m n bs num_elements_a num_elements_b num_elements_c : Nat)
    (bj bi : Nat) : Nat :=
  if n - bi * bs < bs then num_elements_b
  else if m - bj * bs < bs then num_elements_c else num_elements_a

/-- The closed form of the stream position of the block `(bj, bi)` of a full
matrix: the `A`, `B` and `C` blocks before it in row-major block order,
weighted by their sizes. -/
def matrix.block_offset (m n bs num_elements_a num_elements_b num_elements_c : Nat)
    (bj bi : Nat) : Nat :=
  let cn := if n % bs = 0 then 0 else 1
  if bj < m / bs then
    bj * ((n / bs) * num_elements_a + cn * num_elements_b) + bi * num_elements_a
  else
    (m / bs) * ((n / bs) * num_elements_a + cn * num_elements_b) + bi * num_elements_c

/-- The row-major `mm x nn` rectangle of the dense source `data` (leading
dimension `ld`) whose corner is at row `j`, column `i`: the list `B` with
`B[jj * nn + ii] = data[(j + jj) * ld + (i + ii)]`. -/
def block_values {α : Type} (data : Nat → α) (ld j i mm nn : Nat) : List α :=
  (List.range (mm * nn)).map (fun p => data ((j + p / nn) * ld + (i + p % nn)))

/-- The number of blocks of block row `bj` of a triangular matrix with `N`
block rows. -/
def triangular_matrix.row_count (MT : triangular_matrix_type) (N bj : Nat) : Nat :=
  match MT with
  | triangular_matrix_type.upper => N - bj
  | triangular_matrix_type.lower => bj + 1

/-- The block column of the `t`-th block of block row `bj` of a triangular
matrix. -/
def triangular_matrix.column (MT : triangular_matrix_type) (bj t : Nat) : Nat :=
  match MT with
  | triangular_matrix_type.upper => bj + t
  | triangular_matrix_type.lower => t

/-- The advance of the running pointer of `triangular_matrix::compress` (and of
the cursors of the kernels) after the block at row `j`, column `i`. -/
def triangular_matrix.advance (MT : triangular_matrix_type) (n bs : Nat)
    (num_elements_a num_elements_b num_elements_c : Nat) (j i : Nat) : Nat :=
  if i = j then num_elements_a
  else
    let ij := if MT = triangular_matrix_type.upper then i else j
    if n - ij < bs then num_elements_c else num_elements_b

/-- The packed triangle of the diagonal block of edge `nn` whose corner is at
row and column `j` of the dense source: the entries of the `MT` triangle row by
row. -/
def packed_values {α : Type} (MT : triangular_matrix_type) (data : Nat → α)
    (ld j nn : Nat) : List α :=
  (List.range nn).flatMap (fun jj =>
    (List.range (triangular_matrix.row_count MT nn jj)).map (fun t =>
      data ((j + jj) * ld + (j + triangular_matrix.column MT jj t))))

/-- The logical values of the block at row `j`, column `i` of a triangular
matrix of order `n`: the packed triangle for a diagonal block, the row-major
rectangle otherwise. -/
def triangular_matrix.logical_values {α : Type} (MT : triangular_matrix_type)
    (data : Nat → α) (n ld bs j i : Nat) : List α :=
  if i = j then packed_values MT data ld j (min (n - j) bs)
  else block_values data ld j i (min (n - j) bs) (min (n - i) bs)

/-- The row-major packed index of the entry `(jj, ii)` of the `MT` triangle of
a diagonal block of edge `nn`. -/
def packed_index (MT : triangular_matrix_type) (nn jj ii : Nat) : Nat :=
  match MT with
  | triangular_matrix_type.upper => jj * nn - (jj * (jj - 1)) / 2 + (ii - jj)
  | triangular_matrix_type.lower => (jj * (jj + 1)) / 2 + ii

end fw.blas


namespace fw.blas

end fw.blas


namespace fw.blas

end fw.blas


namespace fw.blas

/-! ## Footprints -/

/-- The static `matrix::memory_footprint_elements({m, n}, bs)` in exact
arithmetic (`matrix.memory_footprint_elements_size_t` has it in `std::size_t`
arithmetic); `f` is `fp<T>::format<BE, BM>::memory_footprint_elements`. -/
def matrix.memory_footprint_elements (f : Nat → Nat) (m n bs : Nat) : Nat :=
  if m = 0 ∨ n = 0 then 0
  else
    let num_elements_a := f (bs * bs)
    let num_elements_b := f (bs * (n - (n / bs) * bs))
    let num_elements_c := f ((m - (m / bs) * bs) * bs)
    let num_elements_d := f ((m - (m / bs) * bs) * (n - (n / bs) * bs))
    let num_blocks_a := (m / bs) * (n / bs)
    let num_blocks_b := (m / bs) * (((n + bs - 1) / bs) - (n / bs))
    let num_blocks_c := (((m + bs - 1) / bs) - (m / bs)) * (n / bs)
    let num_blocks_d := (((m + bs - 1) / bs) - (m / bs)) * (((n + bs - 1) / bs) - (n / bs))
    num_blocks_a * num_elements_a + num_blocks_b * num_elements_b
      + num_blocks_c * num_elements_c + num_blocks_d * num_elements_d

/-- The member `memory_footprint_elements()` of `matrix` (inherited by
`triangular_matrix`): the member `num_elements`. -/
def matrix.memory_footprint_elements_query (A : geometry) : Nat :=
  A.num_elements

/-- The static `triangular_matrix::memory_footprint_elements({n}, bs)` in
exact arithmetic (`triangular_matrix.memory_footprint_elements_size_t` has it
in `std::size_t` arithmetic); `f` is
`fp<T>::format<BE, BM>::memory_footprint_elements`. -/
def triangular_matrix.memory_footprint_elements (f : Nat → Nat) (n bs : Nat) : Nat :=
  if n = 0 then 0
  else
    let num_elements_a := f ((bs * (bs + 1)) / 2)
    let num_elements_b := f (bs * bs)
    let num_elements_c := f (bs * (n - (n / bs) * bs))
    let num_elements_d := f (((n - (n / bs) * bs) * (n - (n / bs) * bs + 1)) / 2)
    let num_blocks_a := n / bs
    let num_blocks_b := (((n / bs) * ((n / bs) + 1)) / 2) - (n / bs)
    let num_blocks_c := (n / bs) * (((n + bs - 1) / bs) - (n / bs))
    let num_blocks_d := ((n + bs - 1) / bs) - (n / bs)
    num_blocks_a * num_elements_a + num_blocks_b * num_elements_b
      + num_blocks_c * num_elements_c + num_blocks_d * num_elements_d

/-! ## The loops of `solve` -/

/-- The block loops of the kernel of `triangular_matrix::solve` with the bodies
as parameters: `start bj` is the part of the outer body before the inner loop,
`visit bj bi` the body of the inner loop, `finish bj` the part of the outer
body after it.  Every loop is run with `extra` iterations of fuel more than
its bound. -/
def triangular_matrix.solve_loops {σ : Type} (MT : triangular_matrix_type) (n bs : Nat)
    (transpose : Bool) (extra : Nat) (start : Nat → σ → σ) (visit : Nat → Nat → σ → σ)
    (finish : Nat → σ → σ) (s : σ) : σ :=
  if (transpose = true ∧ MT = triangular_matrix_type.upper)
      ∨ (transpose = false ∧ MT = triangular_matrix_type.lower) then
    let n_blocks := (n + bs - 1) / bs
    forUp (fun bj s =>
      finish bj (forUp (fun bi s => visit bj bi s) bj 1 (bj + extra) 0 (start bj s)))
      n_blocks 1 (n_blocks + extra) 0 s
  else if (transpose = false ∧ MT = triangular_matrix_type.upper)
      ∨ (transpose = true ∧ MT = triangular_matrix_type.lower) then
    let ij_start := (n + bs - 1) / bs - 1
    forDown (fun bj s =>
      let i_stop := bj + 1
      finish bj (forDown (fun bi s => visit bj bi s) i_stop (ij_start + 1 + extra) ij_start
        (start bj s)))
      0 (ij_start + 1 + extra) ij_start s
  else s

/-- The block rows and blocks the loops of the kernel of
`triangular_matrix::solve` reach, in order: `(bj, bi)` for a call of the inner
body, `(bj, bj)` for the diagonal solve that ends the outer body. -/
def triangular_matrix.solve_trace (MT : triangular_matrix_type) (n bs : Nat)
    (transpose : Bool) (extra : Nat) : List (Nat × Nat) :=
  triangular_matrix.solve_loops MT n bs transpose extra
    (fun _ tr => tr) (fun bj bi tr => tr ++ [(bj, bi)]) (fun bj tr => tr ++ [(bj, bj)]) []

end fw.blas


namespace fw.blas

/-! ## The counters of `get_offset` -/

/-- The local counters `(n_a, n_b, n_c)` of
`triangular_matrix::get_offset(mt, bj, bi)`, with truncated subtraction: the
numbers of `A`, `B` and `C` blocks that the function weights with the block
sizes. -/
def triangular_matrix.get_offset_counters (A : geometry) (mt : triangular_matrix_type)
    (bj bi : Nat) : Nat × Nat × Nat :=
  match mt with
  | triangular_matrix_type.upper =>
    let n_ab_row := A.n / A.bs
    let n_c_row := ((A.n + A.bs - 1) / A.bs) - n_ab_row
    let n_abc_row := n_ab_row + n_c_row
    let n_total := (n_abc_row * (n_abc_row + 1)) / 2
    let n_abc := n_total - ((n_abc_row - bj) * ((n_abc_row - bj + 1))) / 2
    let n_a := bj + (if bi > bj then 1 else 0)
    let n_b := n_abc - bj * (1 + n_c_row) + (if bi > (bj + 1) then (bi - (bj + 1)) else 0)
    let n_c := bj * n_c_row
    (n_a, n_b, n_c)
  | triangular_matrix_type.lower =>
    let n_blocks := (A.n + A.bs - 1) / A.bs
    let n_a := bj
    let n_b := (bj * (bj + 1)) / 2 - bj + (if bj < (n_blocks - 1) then bi else 0)
    let n_c := if bj = (n_blocks - 1) then bi else 0
    (n_a, n_b, n_c)

/-- The factor with which `triangular_matrix::get_offset(mt, ..)` multiplies the
counter `n_c` in its return expression: `num_elements_c` for the upper
orientation, `(num_elements_c != 0 ? num_elements_c : num_elements_b)` for the
lower one. -/
def triangular_matrix.get_offset_factor_c (A : geometry) (mt : triangular_matrix_type) : Nat :=
  match mt with
  | triangular_matrix_type.upper => A.num_elements_c
  | triangular_matrix_type.lower =>
    if A.num_elements_c ≠ 0 then A.num_elements_c else A.num_elements_b

end fw.blas


namespace fw.blas

/-! ## The constructors -/

/-- The argument `const TT* data` of the constructors, by its element type
`TT`; the constructors branch on `std::is_same<TT, fp_type>::value`.  A pointer
to `fp_type` is `fp_type data`, with `data` the array it points to; a pointer
to any other type is `other data`, with `data` the array read through
`reinterpret_cast<const T*>(data)` (`none` for a null pointer).  With the codec
at the default widths `fp_type` is `T`, and a dense source of `T` values is a
pointer to `fp_type`. -/
inductive source (α β : Type) where
  | fp_type (data : Nat → β)
  | other (data : Option (Nat → α))

/-- The public constructor of `matrix`,
`matrix(const TT* data, {m, n}, ld_data, bs)`.  For a pointer to `fp_type` no
compression takes place: `compressed_data` is `data` itself.  Otherwise the
stream is the reserved `memory` after `compress` (`matrix.ctor`).  The members
are taken in exact arithmetic (`matrix.members`). -/
def matrix.constructor {α β : Type} (F : fp α β) (data : source α β)
    (m n ld_data bs : Nat) (memory : Nat → β) (buffer : Nat → α) : matrix β :=
  match data with
  | source.fp_type data =>
    { matrix.members F.memory_footprint_elements m n bs with compressed_data := data }
  | source.other data => matrix.ctor F data m n ld_data bs memory buffer

/-- The constructor of `triangular_matrix`,
`triangular_matrix(const TT* data, {n}, ld_data, bs)`, after the protected
constructor of `matrix` has set the members.  For a pointer to `fp_type` no
compression takes place: `compressed_data` is `data` itself.  Otherwise the
stream is the reserved `memory` after `compress` (`triangular_matrix.ctor`). -/
def triangular_matrix.constructor {α β : Type} (F : fp α β) (MT : triangular_matrix_type)
    (data : source α β) (n ld_data bs : Nat) (memory : Nat → β)
    (buffer : Nat → α) : matrix β :=
  match data with
  | source.fp_type data =>
    { triangular_matrix.members F.memory_footprint_elements n bs with compressed_data := data }
  | source.other data => triangular_matrix.ctor F MT data n ld_data bs memory buffer

/-! ## The geometry in `std::size_t` arithmetic -/

/-- A value reduced to a `std::size_t` of 64 bits: the sums and products of
unsigned values are taken modulo `2 ^ 64`. -/
def size_t (a : Nat) : Nat := a % 2 ^ 64

/-- The difference `a - b` of two `std::size_t` values `a, b < 2 ^ 64`: it is
taken modulo `2 ^ 64`, so it wraps around when `a < b`. -/
def size_t_sub (a b : Nat) : Nat := (a + 2 ^ 64 - b) % 2 ^ 64

/-- The member initialisers of the public constructor of `matrix`
(`extent = {m, n}`) in `std::size_t` arithmetic, for `m, n, bs < 2 ^ 64`; `f` is
`fp<T>::format<BE, BM>::memory_footprint_elements`. -/
def matrix.members_size_t (f : Nat → Nat) (m n bs : Nat) : geometry :=
  let num_blocks_a := size_t ((m / bs) * (n / bs))
  let num_elements_a := f (size_t (bs * bs))
  let num_blocks_b := size_t ((m / bs)
    * size_t_sub (size_t_sub (size_t (n + bs)) 1 / bs) (n / bs))
  let num_elements_b := f (size_t (bs * size_t_sub n (size_t ((n / bs) * bs))))
  let num_blocks_c := size_t (size_t_sub (size_t_sub (size_t (m + bs)) 1 / bs) (m / bs)
    * (n / bs))
  let num_elements_c := f (size_t (size_t_sub m (size_t ((m / bs) * bs)) * bs))
  let num_blocks_d := size_t (size_t_sub (size_t_sub (size_t (m + bs)) 1 / bs) (m / bs)
    * size_t_sub (size_t_sub (size_t (n + bs)) 1 / bs) (n / bs))
  let num_elements_d := f (size_t (size_t_sub m (size_t ((m / bs) * bs))
    * size_t_sub n (size_t ((n / bs) * bs))))
  { m := m, n := n, bs := bs,
    num_blocks_a := num_blocks_a, num_elements_a := num_elements_a,
    num_blocks_b := num_blocks_b, num_elements_b := num_elements_b,
    num_blocks_c := num_blocks_c, num_elements_c := num_elements_c,
    num_blocks_d := num_blocks_d, num_elements_d := num_elements_d,
    num_elements := size_t (size_t (size_t (size_t (num_blocks_a * num_elements_a)
      + size_t (num_blocks_b * num_elements_b)) + size_t (num_blocks_c * num_elements_c))
      + size_t (num_blocks_d * num_elements_d)) }

/-- The static `matrix::memory_footprint_elements({m, n}, bs)` in `std::size_t`
arithmetic, for `m, n, bs < 2 ^ 64`. -/
def matrix.memory_footprint_elements_size_t (f : Nat → Nat) (m n bs : Nat) : Nat :=
  if m = 0 ∨ n = 0 then 0
  else
    let num_elements_a := f (size_t (bs * bs))
    let num_elements_b := f (size_t (bs * size_t_sub n (size_t ((n / bs) * bs))))
    let num_elements_c := f (size_t (size_t_sub m (size_t ((m / bs) * bs)) * bs))
    let num_elements_d := f (size_t (size_t_sub m (size_t ((m / bs) * bs))
      * size_t_sub n (size_t ((n / bs) * bs))))
    let num_blocks_a := size_t ((m / bs) * (n / bs))
    let num_blocks_b := size_t ((m / bs)
      * size_t_sub (size_t_sub (size_t (n + bs)) 1 / bs) (n / bs))
    let num_blocks_c := size_t (size_t_sub (size_t_sub (size_t (m + bs)) 1 / bs) (m / bs)
      * (n / bs))
    let num_blocks_d := size_t (size_t_sub (size_t_sub (size_t (m + bs)) 1 / bs) (m / bs)
      * size_t_sub (size_t_sub (size_t (n + bs)) 1 / bs) (n / bs))
    size_t (size_t (size_t (size_t (num_blocks_a * num_elements_a)
      + size_t (num_blocks_b * num_elements_b)) + size_t (num_blocks_c * num_elements_c))
      + size_t (num_blocks_d * num_elements_d))

/-- The member initialisers of the protected constructor of `matrix` that
`triangular_matrix` calls (`extent = {n}`) in `std::size_t` arithmetic, for
`n, bs < 2 ^ 64`. -/
def triangular_matrix.members_size_t (f : Nat → Nat) (n bs : Nat) : geometry :=
  let num_blocks_a := n / bs
  let num_elements_a := f (size_t (bs * size_t (bs + 1)) / 2)
  let num_blocks_b := size_t_sub (size_t ((n / bs) * size_t (n / bs + 1)) / 2) (n / bs)
  let num_elements_b := f (size_t (bs * bs))
  let num_blocks_c := size_t ((n / bs)
    * size_t_sub (size_t_sub (size_t (n + bs)) 1 / bs) (n / bs))
  let num_elements_c := f (size_t (bs * size_t_sub n (size_t ((n / bs) * bs))))
  let num_blocks_d := size_t_sub (size_t_sub (size_t (n + bs)) 1 / bs) (n / bs)
  let num_elements_d := f (size_t (size_t_sub n (size_t ((n / bs) * bs))
    * size_t (size_t_sub n (size_t ((n / bs) * bs)) + 1)) / 2)
  { m := n, n := n, bs := bs,
    num_blocks_a := num_blocks_a, num_elements_a := num_elements_a,
    num_blocks_b := num_blocks_b, num_elements_b := num_elements_b,
    num_blocks_c := num_blocks_c, num_elements_c := num_elements_c,
    num_blocks_d := num_blocks_d, num_elements_d := num_elements_d,
    num_elements := size_t (size_t (size_t (size_t (num_blocks_a * num_elements_a)
      + size_t (num_blocks_b * num_elements_b)) + size_t (num_blocks_c * num_elements_c))
      + size_t (num_blocks_d * num_elements_d)) }

/-- The static `triangular_matrix::memory_footprint_elements({n}, bs)` in
`std::size_t` arithmetic, for `n, bs < 2 ^ 64`. -/
def triangular_matrix.memory_footprint_elements_size_t (f : Nat → Nat) (n bs : Nat) : Nat :=
  if n = 0 then 0
  else
    let num_elements_a := f (size_t (bs * size_t (bs + 1)) / 2)
    let num_elements_b := f (size_t (bs * bs))
    let num_elements_c := f (size_t (bs * size_t_sub n (size_t ((n / bs) * bs))))
    let num_elements_d := f (size_t (size_t_sub n (size_t ((n / bs) * bs))
      * size_t (size_t_sub n (size_t ((n / bs) * bs)) + 1)) / 2)
    let num_blocks_a := n / bs
    let num_blocks_b := size_t_sub (size_t ((n / bs) * size_t (n / bs + 1)) / 2) (n / bs)
    let num_blocks_c := size_t ((n / bs)
      * size_t_sub (size_t_sub (size_t (n + bs)) 1 / bs) (n / bs))
    let num_blocks_d := size_t_sub (size_t_sub (size_t (n + bs)) 1 / bs) (n / bs)
    size_t (size_t (size_t (size_t (num_blocks_a * num_elements_a)
      + size_t (num_blocks_b * num_elements_b)) + size_t (num_blocks_c * num_elements_c))
      + size_t (num_blocks_d * num_elements_d))

/-- The closed form that the specification gives for the footprint of the full
shape, in exact arithmetic: `nA * eA + nB * eB + nC * eC + nD * eD` with
`nA = floor(m / bs) * floor(n / bs)`,
`nB = floor(m / bs) * (ceil(n / bs) - floor(n / bs))`,
`nC = (ceil(m / bs) - floor(m / bs)) * floor(n / bs)`,
`nD = (ceil(m / bs) - floor(m / bs)) * (ceil(n / bs) - floor(n / bs))` and
`ex = f(bs * bs), f(bs * r_n), f(r_m * bs), f(r_m * r_n)`, where
`ceil(n / bs) = floor(n / bs) + (n % bs = 0 ? 0 : 1)` and `r_n = n % bs`. -/
def matrix.footprint_closed_form (f : Nat → Nat) (m n bs : Nat) : Nat :=
  ((m / bs) * (n / bs)) * f (bs * bs)
    + ((m / bs) * ((n / bs + (if n % bs = 0 then 0 else 1)) - n / bs)) * f (bs * (n % bs))
    + (((m / bs + (if m % bs = 0 then 0 else 1)) - m / bs) * (n / bs)) * f ((m % bs) * bs)
    + (((m / bs + (if m % bs = 0 then 0 else 1)) - m / bs)
        * ((n / bs + (if n % bs = 0 then 0 else 1)) - n / bs)) * f ((m % bs) * (n % bs))

end fw.blas


namespace fw.blas

/-! ## Loops as folds -/

theorem lt_ceil_div_iff (a stop step : Nat) (h : 0 < step) :
    a < (stop + step - 1) / step ↔ a * step < stop := by
  rw [Nat.lt_iff_add_one_le, Nat.le_div_iff_mul_le h, Nat.add_mul]
  omega

/-- A block loop with positive step and enough fuel visits the multiples
`a * step, (a + 1) * step, ..` below `stop` in order. -/
theorem forUp_eq_foldl {σ : Type} (body : Nat → σ → σ) (stop step : Nat) (hstep : 0 < step) :
    ∀ (fuel a : Nat) (s : σ), stop ≤ fuel + a * step →
      forUp body stop step fuel (a * step) s
        = (List.range ((stop + step - 1) / step - a)).foldl
            (fun s t => body ((a + t) * step) s) s := by
  intro fuel
  induction fuel with
  | zero =>
    intro a s h
    have : ¬ a < (stop + step - 1) / step := by
      rw [lt_ceil_div_iff a stop step hstep]; omega
    have h0 : (stop + step - 1) / step - a = 0 := by omega
    simp [forUp, h0]
  | succ fuel ih =>
    intro a s h
    by_cases hlt : a * step < stop
    · have hc : a < (stop + step - 1) / step := (lt_ceil_div_iff a stop step hstep).2 hlt
      have hs : (stop + step - 1) / step - a = ((stop + step - 1) / step - (a + 1)) + 1 := by
        omega
      have e : a * step + step = (a + 1) * step := by ring
      rw [forUp, if_pos hlt, e, ih (a + 1) _ (by rw [Nat.add_mul]; omega), hs,
        List.range_succ_eq_map, List.foldl_cons, List.foldl_map]
      simp only [Nat.add_zero]
      congr 1
      funext s t
      congr 2
      omega
    · have : ¬ a < (stop + step - 1) / step := by
        rw [lt_ceil_div_iff a stop step hstep]; exact hlt
      have h0 : (stop + step - 1) / step - a = 0 := by omega
      simp [forUp, hlt, h0]

/-- A unit-step loop with enough fuel visits `a, a + 1, .., stop - 1` in order. -/
theorem forUp_one_eq_foldl {σ : Type} (body : Nat → σ → σ) (stop : Nat) :
    ∀ (fuel a : Nat) (s : σ), stop ≤ fuel + a →
      forUp body stop 1 fuel a s
        = (List.range (stop - a)).foldl (fun s t => body (a + t) s) s := by
  intro fuel a s h
  have := forUp_eq_foldl body stop 1 Nat.one_pos fuel a s (by omega)
  simpa using this

/-- The descending loop with break visits `start, start - 1, .., stop` in
order, and nothing when `start < stop`. -/
theorem forDown_eq_foldl {σ : Type} (body : Nat → σ → σ) (stop : Nat) :
    ∀ (fuel start : Nat) (s : σ), start + 1 ≤ fuel + stop →
      forDown body stop fuel start s
        = (List.range (start + 1 - stop)).foldl (fun s t => body (start - t) s) s := by
  intro fuel
  induction fuel with
  | zero =>
    intro start s h
    have h0 : start + 1 - stop = 0 := by omega
    simp [forDown, h0]
  | succ fuel ih =>
    intro start s h
    by_cases hle : stop ≤ start
    · by_cases heq : start = stop
      · subst heq
        simp [forDown, List.range_succ]
      · have hpos : start ≠ 0 := by omega
        have hd : size_t_dec start = start - 1 := by simp [size_t_dec, hpos]
        have hs : start + 1 - stop = (start - 1 + 1 - stop) + 1 := by omega
        rw [forDown, if_pos hle, if_neg heq, hd, ih (start - 1) _ (by omega), hs,
          List.range_succ_eq_map, List.foldl_cons, List.foldl_map]
        simp only [Nat.sub_zero]
        congr 1
        funext s t
        have e : start - 1 - t = start - t.succ := by omega
        rw [e]
    · have h0 : start + 1 - stop = 0 := by omega
      simp [forDown, hle, h0]

/-! ## Threading a cursor through a fold -/

/-- A fold that advances a cursor by `adv c` after element `c` reaches element
`c` with the cursor at the sum of the advances before it. -/
theorem foldl_thread {σ : Type} (adv : Nat → Nat) (visit : Nat → Nat → σ → σ) (p : Nat) :
    ∀ (t : Nat) (s : σ),
      (List.range t).foldl (fun st c => (st.1 + adv c, visit c st.1 st.2)) (p, s)
        = (p + ∑ c ∈ Finset.range t, adv c,
           (List.range t).foldl
             (fun s c => visit c (p + ∑ d ∈ Finset.range c, adv d) s) s) := by
  intro t
  induction t with
  | zero => intro s; simp
  | succ t ih =>
    intro s
    rw [List.range_succ, List.foldl_append, ih, List.foldl_append, Finset.sum_range_succ]
    simp [Nat.add_assoc]

/-- Two nested folds that thread one cursor: the block `(r, c)` is reached
with the cursor at the sum of the advances of the rows before `r` and of the
blocks before `c` in row `r`. -/
theorem foldl_thread_nested {σ : Type} (cnt : Nat → Nat) (adv : Nat → Nat → Nat)
    (visit : Nat → Nat → Nat → σ → σ) (rows : Nat) (s : σ) :
    (List.range rows).foldl (fun st r =>
        (List.range (cnt r)).foldl (fun st c => (st.1 + adv r c, visit r c st.1 st.2)) st)
        (0, s)
      = (∑ r ∈ Finset.range rows, ∑ c ∈ Finset.range (cnt r), adv r c,
         (List.range rows).foldl (fun s r =>
           (List.range (cnt r)).foldl (fun s c =>
             visit r c ((∑ q ∈ Finset.range r, ∑ d ∈ Finset.range (cnt q), adv q d)
               + ∑ d ∈ Finset.range c, adv r d) s) s) s) := by
  have h := foldl_thread (fun r => ∑ c ∈ Finset.range (cnt r), adv r c)
    (fun r p s => (List.range (cnt r)).foldl (fun s c =>
      visit r c (p + ∑ d ∈ Finset.range c, adv r d) s) s) 0 rows s
  simp only [Nat.zero_add] at h
  rw [← h]
  congr 1
  funext st r
  obtain ⟨p, s⟩ := st
  exact foldl_thread (adv r) (visit r) p (cnt r) s

end fw.blas


namespace fw.blas

/-! ## Array updates -/

theorem blit_of_lt {γ : Type} (a : Nat → γ) (p : Nat) (l : List γ) (q : Nat) (h : q < p) :
    blit a p l q = a q := by
  simp [blit, Nat.not_le.2 h]

theorem blit_of_ge {γ : Type} (a : Nat → γ) (p : Nat) (l : List γ) (q : Nat)
    (h : p + l.length ≤ q) : blit a p l q = a q := by
  unfold blit
  split
  · rw [List.getD_eq_default]
    omega
  · rfl

theorem blit_add {γ : Type} (a : Nat → γ) (p : Nat) (l : List γ) (i : Nat)
    (h : i < l.length) : l[i]? = some (blit a p l (p + i)) := by
  unfold blit
  rw [if_pos (Nat.le_add_right p i), Nat.add_sub_cancel_left, List.getD_eq_getElem?_getD,
    List.getElem?_eq_getElem h]
  rfl

theorem sum_range_mono (f : Nat → Nat) {a b : Nat} (h : a ≤ b) :
    ∑ d ∈ Finset.range a, f d ≤ ∑ d ∈ Finset.range b, f d :=
  Finset.sum_le_sum_of_subset (Finset.range_mono h)

theorem sum_range_succ_le (f : Nat → Nat) {a b : Nat} (h : a < b) :
    ∑ d ∈ Finset.range a, f d + f a ≤ ∑ d ∈ Finset.range b, f d := by
  rw [← Finset.sum_range_succ]
  exact sum_range_mono f h

/-- One row of blocks written at threaded positions: what lies below the row
is kept, and every block of the row is found where it was written. -/
theorem row_blit {β : Type} (cnt : Nat) (adv : Nat → Nat) (vals : Nat → List β) (b : Nat)
    (hlen : ∀ c, c + 1 < cnt → (vals c).length ≤ adv c) (s : Nat → β) :
    ∀ u, u ≤ cnt →
      (∀ q, q < b → (List.range u).foldl
          (fun s c => blit s (b + ∑ d ∈ Finset.range c, adv d) (vals c)) s q = s q)
      ∧ (∀ c p, c < u → p < (vals c).length →
          (vals c)[p]? = some ((List.range u).foldl
            (fun s c => blit s (b + ∑ d ∈ Finset.range c, adv d) (vals c)) s
            (b + ∑ d ∈ Finset.range c, adv d + p))) := by
  intro u
  induction u with
  | zero => intro _; simp
  | succ u ih =>
    intro hu
    obtain ⟨ih1, ih2⟩ := ih (by omega)
    rw [List.range_succ, List.foldl_append]
    simp only [List.foldl_cons, List.foldl_nil]
    constructor
    · intro q hq
      rw [blit_of_lt _ _ _ _ (by omega)]
      exact ih1 q hq
    · intro c p hc hp
      by_cases hcu : c = u
      · subst hcu
        exact blit_add _ _ _ _ hp
      · have hc' : c < u := by omega
        have h1 := hlen c (by omega)
        have h2 := sum_range_succ_le adv hc'
        rw [blit_of_lt _ _ _ _ (by omega)]
        exact ih2 c p hc' hp

/-- All blocks written at threaded positions by two nested loops: every block
is found where it was written, provided each block other than the last one
is no longer than the advance of the cursor after it. -/
theorem nested_blit {β : Type} (rows : Nat) (cnt : Nat → Nat) (adv : Nat → Nat → Nat)
    (vals : Nat → Nat → List β)
    (hlen : ∀ r c, r < rows → c < cnt r → (r + 1 < rows ∨ c + 1 < cnt r) →
      (vals r c).length ≤ adv r c)
    (s0 : Nat → β) :
    ∀ t, t ≤ rows → ∀ r c p, r < t → c < cnt r → p < (vals r c).length →
      (vals r c)[p]? = some ((List.range t).foldl (fun s r =>
        (List.range (cnt r)).foldl (fun s c =>
          blit s ((∑ q ∈ Finset.range r, ∑ d ∈ Finset.range (cnt q), adv q d)
            + ∑ d ∈ Finset.range c, adv r d) (vals r c)) s) s0
        ((∑ q ∈ Finset.range r, ∑ d ∈ Finset.range (cnt q), adv q d)
            + ∑ d ∈ Finset.range c, adv r d + p)) := by
  intro t
  induction t with
  | zero => intro _ r c p hr; omega
  | succ t ih =>
    intro ht r c p hr hc hp
    rw [List.range_succ, List.foldl_append]
    simp only [List.foldl_cons, List.foldl_nil]
    have hrow := row_blit (cnt t) (adv t) (vals t)
      (∑ q ∈ Finset.range t, ∑ d ∈ Finset.range (cnt q), adv q d)
      (fun c hc => hlen t c (by omega) (by omega) (Or.inr hc))
      ((List.range t).foldl (fun s r =>
        (List.range (cnt r)).foldl (fun s c =>
          blit s ((∑ q ∈ Finset.range r, ∑ d ∈ Finset.range (cnt q), adv q d)
            + ∑ d ∈ Finset.range c, adv r d) (vals r c)) s) s0)
      (cnt t) (Nat.le_refl _)
    by_cases hrt : r = t
    · subst hrt
      exact hrow.2 c p hc hp
    · have hr' : r < t := by omega
      have h1 := hlen r c (by omega) hc (Or.inl (by omega))
      have h2 := sum_range_succ_le (adv r) hc
      have h3 := sum_range_succ_le (fun q => ∑ d ∈ Finset.range (cnt q), adv q d) hr'
      simp only at h3
      rw [hrow.1 _ (by omega)]
      exact ih (by omega) r c p hr' hc hp

/-- The second component of a fold on pairs whose step acts on the second
component regardless of the first. -/
theorem foldl_snd {ι σ τ : Type} (step : σ × τ → ι → σ × τ) (g : τ → ι → τ)
    (h : ∀ x y b, (step (x, y) b).2 = g y b) :
    ∀ (L : List ι) (x : σ) (y : τ), (L.foldl step (x, y)).2 = L.foldl g y := by
  intro L
  induction L with
  | nil => intro x y; rfl
  | cons b L ih =>
    intro x y
    rw [List.foldl_cons, List.foldl_cons, ← h x y b]
    exact ih (step (x, y) b).1 (step (x, y) b).2

end fw.blas


namespace fw.blas

/-! ## Block arithmetic -/

theorem lt_num_blocks_iff (n bs bi : Nat) (hbs : 0 < bs) :
    bi < num_blocks n bs ↔ bi * bs < n :=
  lt_ceil_div_iff bi n bs hbs

theorem lt_div_iff_block (n bs bi : Nat) (hbs : 0 < bs) :
    bi < n / bs ↔ bi * bs + bs ≤ n := by
  rw [Nat.lt_iff_add_one_le, Nat.le_div_iff_mul_le hbs, Nat.add_mul, Nat.one_mul]

theorem border_iff (n bs bi : Nat) (hbs : 0 < bs) :
    n - bi * bs < bs ↔ ¬ bi < n / bs := by
  rw [lt_div_iff_block n bs bi hbs]
  omega

theorem num_blocks_eq (n bs : Nat) (hbs : 0 < bs) :
    num_blocks n bs = n / bs + (if n % bs = 0 then 0 else 1) := by
  have h1 : ¬ (n / bs + 1 < num_blocks n bs) := by
    rw [lt_num_blocks_iff n bs _ hbs, Nat.add_mul, Nat.one_mul]
    have := Nat.div_add_mod' n bs
    have := Nat.mod_lt n hbs
    omega
  have h2 : n / bs < num_blocks n bs ↔ n % bs ≠ 0 := by
    rw [lt_num_blocks_iff n bs _ hbs]
    have := Nat.div_add_mod' n bs
    omega
  have h3 : n / bs ≤ num_blocks n bs := by
    unfold num_blocks
    exact Nat.div_le_div_right (by omega)
  split <;> omega

theorem block_lt_div_of_lt (n bs bi d : Nat) (hbs : 0 < bs) (hbi : bi < num_blocks n bs)
    (hd : d < bi) : d < n / bs := by
  have := num_blocks_eq n bs hbs
  split at this <;> omega

theorem min_block (n bs bi : Nat) (hbs : 0 < bs) (h : bi < n / bs) :
    min (n - bi * bs) bs = bs := by
  have := (lt_div_iff_block n bs bi hbs).1 h
  omega

theorem min_border (n bs : Nat) (hbs : 0 < bs) :
    min (n - (n / bs) * bs) bs = n % bs := by
  have := Nat.div_add_mod' n bs
  have := Nat.mod_lt n hbs
  omega

/-! ## The block loops of the full matrix -/

/-- The block loops of `matrix::compress` visit the blocks in row-major order,
block `(bj, bi)` with the pointer at the sum of the advances before it. -/
theorem matrix.compress_loop_thread {σ : Type} (m n bs eA eB eC : Nat) (hbs : 0 < bs)
    (visit : Nat → Nat → Nat → σ → σ) (s : σ) :
    matrix.compress_loop m n bs eA eB eC visit (0, s)
      = (∑ r ∈ Finset.range (num_blocks m bs), ∑ c ∈ Finset.range (num_blocks n bs),
           matrix.advance m n bs eA eB eC r c,
         (List.range (num_blocks m bs)).foldl (fun s bj =>
           (List.range (num_blocks n bs)).foldl (fun s bi =>
             visit (bj * bs) (bi * bs)
               ((∑ q ∈ Finset.range bj, ∑ d ∈ Finset.range (num_blocks n bs),
                   matrix.advance m n bs eA eB eC q d)
                 + ∑ d ∈ Finset.range bi, matrix.advance m n bs eA eB eC bj d) s) s) s) := by
  unfold matrix.compress_loop
  have hout := fun (body : Nat → Nat × σ → Nat × σ) (st : Nat × σ) =>
    forUp_eq_foldl body m bs hbs m 0 st (by omega)
  have hin := fun (body : Nat → Nat × σ → Nat × σ) (st : Nat × σ) =>
    forUp_eq_foldl body n bs hbs n 0 st (by omega)
  simp only [Nat.zero_mul, Nat.sub_zero, Nat.zero_add] at hout hin
  rw [hout]
  simp only [hin]
  exact foldl_thread_nested (fun _ => num_blocks n bs) (matrix.advance m n bs eA eB eC)
    (fun bj bi => visit (bj * bs) (bi * bs)) (num_blocks m bs) s

theorem matrix.advance_eq (m n bs eA eB eC bj bi : Nat) (hbs : 0 < bs) :
    matrix.advance m n bs eA eB eC bj bi
      = if bi < n / bs then (if bj < m / bs then eA else eC) else eB := by
  unfold matrix.advance
  by_cases h1 : bi < n / bs
  · by_cases h2 : bj < m / bs
    · simp [h1, h2, border_iff _ bs _ hbs]
    · simp [h1, h2, border_iff _ bs _ hbs]
  · simp [h1, border_iff _ bs _ hbs]

theorem matrix.sum_advance_prefix (m n bs eA eB eC bj bi : Nat) (hbs : 0 < bs)
    (hbi : bi ≤ n / bs) :
    ∑ d ∈ Finset.range bi, matrix.advance m n bs eA eB eC bj d
      = bi * (if bj < m / bs then eA else eC) := by
  rw [Finset.sum_congr rfl (fun d hd => by
    rw [matrix.advance_eq m n bs eA eB eC bj d hbs,
      if_pos (lt_of_lt_of_le (Finset.mem_range.1 hd) hbi)])]
  simp

theorem matrix.sum_advance_row (m n bs eA eB eC bj : Nat) (hbs : 0 < bs) :
    ∑ d ∈ Finset.range (num_blocks n bs), matrix.advance m n bs eA eB eC bj d
      = (n / bs) * (if bj < m / bs then eA else eC) + (if n % bs = 0 then 0 else 1) * eB := by
  rw [num_blocks_eq n bs hbs]
  by_cases h : n % bs = 0
  · simp only [h, if_true, Nat.add_zero, Nat.zero_mul]
    exact matrix.sum_advance_prefix m n bs eA eB eC bj _ hbs (Nat.le_refl _)
  · simp only [h, if_false, Finset.sum_range_succ, Nat.one_mul]
    rw [matrix.sum_advance_prefix m n bs eA eB eC bj _ hbs (Nat.le_refl _),
      matrix.advance_eq m n bs eA eB eC bj _ hbs, if_neg (Nat.lt_irrefl _)]

/-- The sum of the advances before the block `(bj, bi)` in closed form. -/
theorem matrix.sum_advance_eq_block_offset (m n bs eA eB eC bj bi : Nat) (hbs : 0 < bs)
    (hbj : bj < num_blocks m bs) (hbi : bi < num_blocks n bs) :
    (∑ q ∈ Finset.range bj, ∑ d ∈ Finset.range (num_blocks n bs),
        matrix.advance m n bs eA eB eC q d)
      + ∑ d ∈ Finset.range bi, matrix.advance m n bs eA eB eC bj d
      = matrix.block_offset m n bs eA eB eC bj bi := by
  have hbi' : bi ≤ n / bs := by
    have := num_blocks_eq n bs hbs
    split at this <;> omega
  have hbj' : bj ≤ m / bs := by
    have := num_blocks_eq m bs hbs
    split at this <;> omega
  rw [matrix.sum_advance_prefix m n bs eA eB eC bj bi hbs hbi']
  rw [Finset.sum_congr rfl (fun q hq => by
    rw [matrix.sum_advance_row m n bs eA eB eC q hbs,
      if_pos (lt_of_lt_of_le (Finset.mem_range.1 hq) hbj')])]
  unfold matrix.block_offset
  simp only [Finset.sum_const, Finset.card_range, smul_eq_mul]
  by_cases h : bj < m / bs
  · simp [h]
  · have : bj = m / bs := by omega
    simp [this]

/-- The block loops of `matrix::compress` visit the blocks in row-major order,
block `(bj, bi)` with the pointer at `block_offset bj bi`. -/
theorem matrix.compress_loop_eq {σ : Type} (m n bs eA eB eC : Nat) (hbs : 0 < bs)
    (visit : Nat → Nat → Nat → σ → σ) (s : σ) :
    (matrix.compress_loop m n bs eA eB eC visit (0, s)).2
      = (List.range (num_blocks m bs)).foldl (fun s bj =>
           (List.range (num_blocks n bs)).foldl (fun s bi =>
             visit (bj * bs) (bi * bs) (matrix.block_offset m n bs eA eB eC bj bi) s) s) s := by
  rw [matrix.compress_loop_thread m n bs eA eB eC hbs]
  apply List.foldl_ext
  intro s bj hbj
  apply List.foldl_ext
  intro s bi hbi
  rw [matrix.sum_advance_eq_block_offset m n bs eA eB eC bj bi hbs
    (List.mem_range.1 hbj) (List.mem_range.1 hbi)]

end fw.blas


namespace fw.blas

/-! ## Copy loops -/

theorem foldl_set_at {γ : Type} (base : Nat) (val : Nat → γ) (b0 : Nat → γ) :
    ∀ t, (List.range t).foldl (fun b c => set_at b (base + c) (val c)) b0
      = fun p => if base ≤ p ∧ p < base + t then val (p - base) else b0 p := by
  intro t
  induction t with
  | zero =>
    funext p
    have : ¬ (base ≤ p ∧ p < base + 0) := by omega
    simp only [List.range_zero, List.foldl_nil, if_neg this]
  | succ t ih =>
    rw [List.range_succ, List.foldl_append, ih]
    funext p
    simp only [List.foldl_cons, List.foldl_nil, set_at]
    by_cases h : p = base + t
    · subst h; simp
    · simp only [h, if_false]
      by_cases h2 : base ≤ p ∧ p < base + t
      · rw [if_pos h2, if_pos ⟨h2.1, by omega⟩]
      · rw [if_neg h2, if_neg (by omega)]

theorem div_mod_of_row (nn u p : Nat) (h1 : u * nn ≤ p) (h2 : p < u * nn + nn) :
    p / nn = u ∧ p % nn = p - u * nn := by
  have hnn : 0 < nn := by omega
  have e : p = (p - u * nn) + nn * u := by rw [Nat.mul_comm nn u]; omega
  have hlt : p - u * nn < nn := by omega
  constructor
  · rw [e, Nat.add_mul_div_left _ _ hnn, Nat.div_eq_of_lt hlt, Nat.zero_add]
  · conv_lhs => rw [e]
    rw [Nat.add_mul_mod_self_left, Nat.mod_eq_of_lt hlt]

/-- The rectangle copy of `compress`: entry `jj * nn + ii` of the scratch array
receives the source entry `(jj, ii)` of the block. -/
theorem foldl_copy_rect {γ : Type} (nn : Nat) (val : Nat → Nat → γ) (b0 : Nat → γ) :
    ∀ t, (List.range t).foldl (fun b jj =>
        (List.range nn).foldl (fun b ii => set_at b (jj * nn + ii) (val jj ii)) b) b0
      = fun p => if p < t * nn then val (p / nn) (p % nn) else b0 p := by
  intro t
  induction t with
  | zero => funext p; simp
  | succ t ih =>
    rw [List.range_succ, List.foldl_append, ih]
    simp only [List.foldl_cons, List.foldl_nil]
    rw [foldl_set_at (t * nn) (val t)]
    funext p
    by_cases h : t * nn ≤ p ∧ p < t * nn + nn
    · obtain ⟨e1, e2⟩ := div_mod_of_row nn t p h.1 h.2
      rw [if_pos h, if_pos (by rw [Nat.add_mul]; omega), e1, e2]
    · rw [if_neg h]
      by_cases h2 : p < t * nn
      · rw [if_pos h2, if_pos (by rw [Nat.add_mul]; omega)]
      · rw [if_neg h2, if_neg (by rw [Nat.add_mul]; omega)]

theorem slice_zero_eq_map {γ : Type} (a : Nat → γ) (g : Nat → γ) (count : Nat)
    (h : ∀ p, p < count → a p = g p) :
    slice a 0 count = (List.range count).map g := by
  unfold slice
  apply List.map_congr_left
  intro p hp
  rw [Nat.zero_add]
  exact h p (List.mem_range.1 hp)

/-- The body of `matrix::compress` writes the codec image of the rectangle of
the source at `ptr`, whatever the scratch array held. -/
theorem matrix.compress_block_snd {α β : Type} (F : fp α β) (data : Nat → α)
    (m n ld bs j i ptr : Nat) (buffer : Nat → α) (stream : Nat → β) :
    (matrix.compress_block F data m n ld bs j i ptr (buffer, stream)).2
      = blit stream ptr (F.compress
          (block_values data ld j i (min (m - j) bs) (min (n - i) bs))) := by
  unfold matrix.compress_block fp.compress_at block_values
  simp only
  have hin := fun (body : Nat → (Nat → α) → (Nat → α)) (st : Nat → α) =>
    forUp_one_eq_foldl body (min (n - i) bs) (min (n - i) bs) 0 st (by omega)
  have hout := fun (body : Nat → (Nat → α) → (Nat → α)) (st : Nat → α) =>
    forUp_one_eq_foldl body (min (m - j) bs) (min (m - j) bs) 0 st (by omega)
  simp only [Nat.sub_zero, Nat.zero_add] at hin hout
  rw [hout]
  simp only [hin]
  rw [foldl_copy_rect (min (n - i) bs) (fun jj ii => data ((j + jj) * ld + (i + ii)))]
  rw [slice_zero_eq_map _
    (fun p => data ((j + p / (min (n - i) bs)) * ld + (i + p % (min (n - i) bs))))]
  intro p hp
  simp [hp]

theorem block_values_length {α : Type} (data : Nat → α) (ld j i mm nn : Nat) :
    (block_values data ld j i mm nn).length = mm * nn := by
  simp [block_values]

theorem block_values_get {α : Type} (data : Nat → α) (ld j i mm nn jj ii : Nat)
    (hjj : jj < mm) (hii : ii < nn) :
    (block_values data ld j i mm nn)[jj * nn + ii]?
      = some (data ((j + jj) * ld + (i + ii))) := by
  have hlt : jj * nn + ii < mm * nn := by
    calc jj * nn + ii < jj * nn + nn := by omega
      _ = (jj + 1) * nn := by ring
      _ ≤ mm * nn := Nat.mul_le_mul_right nn hjj
  obtain ⟨e1, e2⟩ := div_mod_of_row nn jj (jj * nn + ii) (by omega) (by omega)
  unfold block_values
  rw [List.getElem?_map, List.getElem?_range hlt]
  simp only [Option.map_some', e1, e2]
  congr 3
  omega

/-- The list with the entries described for the rectangle is `block_values`. -/
theorem eq_block_values {α : Type} (data : Nat → α) (ld j i mm nn : Nat) (B : List α)
    (hlen : B.length = mm * nn)
    (hB : ∀ jj ii, jj < mm → ii < nn →
      B[jj * nn + ii]? = some (data ((j + jj) * ld + (i + ii)))) :
    B = block_values data ld j i mm nn := by
  apply List.ext_getElem?
  intro p
  by_cases hp : p < mm * nn
  · have hnn : 0 < nn := by
      rcases Nat.eq_zero_or_pos nn with h | h
      · subst h; simp at hp
      · exact h
    have hdiv : p / nn < mm := by
      rw [Nat.div_lt_iff_lt_mul hnn]; exact hp
    have hmod : p % nn < nn := Nat.mod_lt p hnn
    have e : p / nn * nn + p % nn = p := Nat.div_add_mod' p nn
    have h1 := hB (p / nn) (p % nn) hdiv hmod
    have h2 := block_values_get data ld j i mm nn (p / nn) (p % nn) hdiv hmod
    rw [e] at h1 h2
    rw [h1, h2]
  · rw [List.getElem?_eq_none (by omega),
      List.getElem?_eq_none (by rw [block_values_length]; omega)]

end fw.blas


namespace fw.blas

theorem nested_foldl_snd {σ τ : Type} (step : Nat → Nat → σ × τ → σ × τ)
    (g : Nat → Nat → τ → τ) (h : ∀ r c x y, (step r c (x, y)).2 = g r c y)
    (rows : Nat) (cnt : Nat → Nat) (x : σ) (y : τ) :
    ((List.range rows).foldl (fun s r =>
        (List.range (cnt r)).foldl (fun s c => step r c s) s) (x, y)).2
      = (List.range rows).foldl (fun y r =>
          (List.range (cnt r)).foldl (fun y c => g r c y) y) y := by
  apply foldl_snd
  intro x y r
  exact foldl_snd (fun s c => step r c s) (fun y c => g r c y) (fun x y c => h r c x y)
    (List.range (cnt r)) x y

/-! ## The stream written by `matrix::compress` -/

/-- The size of each block of a full matrix other than the corner is the
advance of the pointer after it. -/
theorem matrix.block_length_eq_advance (f : Nat → Nat) (m n bs bj bi : Nat) (hbs : 0 < bs)
    (hbj : bj < num_blocks m bs) (hbi : bi < num_blocks n bs)
    (hnl : bj + 1 < num_blocks m bs ∨ bi + 1 < num_blocks n bs) :
    f (min (m - bj * bs) bs * min (n - bi * bs) bs)
      = matrix.advance m n bs (matrix.members f m n bs).num_elements_a
          (matrix.members f m n bs).num_elements_b
          (matrix.members f m n bs).num_elements_c bj bi := by
  rw [matrix.advance_eq _ _ _ _ _ _ _ _ hbs]
  have hN := num_blocks_eq n bs hbs
  have hM := num_blocks_eq m bs hbs
  have hmm := Nat.div_add_mod' m bs
  have hnm := Nat.div_add_mod' n bs
  simp only [matrix.members]
  by_cases h1 : bi < n / bs
  · rw [if_pos h1, min_block n bs bi hbs h1]
    by_cases h2 : bj < m / bs
    · rw [if_pos h2, min_block m bs bj hbs h2]
    · rw [if_neg h2]
      have e : bj = m / bs := by split at hM <;> omega
      rw [e, min_border m bs hbs]
      congr 2
      omega
  · rw [if_neg h1]
    have e : bi = n / bs := by split at hN <;> omega
    have h2 : bj < m / bs := by
      split at hN <;> split at hM <;> omega
    rw [e, min_border n bs hbs, min_block m bs bj hbs h2]
    congr 2
    omega

/-- After `matrix::compress` (through the constructor) the codec image of every
block lies in the stream at the closed-form position of the block. -/
theorem matrix.ctor_stream {α β : Type} (F : fp α β)
    (hF : ∀ l, (F.compress l).length = F.memory_footprint_elements l.length)
    (data : Nat → α) (m n ld bs : Nat) (hm : 0 < m) (hn : 0 < n) (hbs : 0 < bs)
    (memory : Nat → β) (buffer : Nat → α) (bj bi p : Nat)
    (hbj : bj < num_blocks m bs) (hbi : bi < num_blocks n bs)
    (hp : p < F.memory_footprint_elements (min (m - bj * bs) bs * min (n - bi * bs) bs)) :
    (F.compress (block_values data ld (bj * bs) (bi * bs)
        (min (m - bj * bs) bs) (min (n - bi * bs) bs)))[p]?
      = some ((matrix.ctor F (some data) m n ld bs memory buffer).compressed_data
          (matrix.block_offset m n bs
            (matrix.members F.memory_footprint_elements m n bs).num_elements_a
            (matrix.members F.memory_footprint_elements m n bs).num_elements_b
            (matrix.members F.memory_footprint_elements m n bs).num_elements_c bj bi + p)) := by
  have hmn : ¬ (m = 0 ∨ n = 0) := by omega
  simp only [matrix.ctor, matrix.compress, if_neg hmn, Option.getD_some]
  rw [matrix.compress_loop_thread _ _ _ _ _ _ hbs]
  simp only
  rw [nested_foldl_snd
    (fun r c => matrix.compress_block F data m n ld bs (r * bs) (c * bs) _)
    (fun r c y => blit y _ (F.compress (block_values data ld (r * bs) (c * bs)
        (min (m - r * bs) bs) (min (n - c * bs) bs))))
    (fun r c x y => matrix.compress_block_snd F data m n ld bs (r * bs) (c * bs) _ x y)]
  rw [← matrix.sum_advance_eq_block_offset m n bs _ _ _ bj bi hbs hbj hbi]
  refine nested_blit (num_blocks m bs) (fun _ => num_blocks n bs) _
    (fun r c => F.compress (block_values data ld (r * bs) (c * bs)
        (min (m - r * bs) bs) (min (n - c * bs) bs))) ?_ memory (num_blocks m bs)
    (Nat.le_refl _) bj bi p hbj hbi ?_
  · intro r c hr hc hnl
    rw [hF, block_values_length]
    exact Nat.le_of_eq
      (matrix.block_length_eq_advance F.memory_footprint_elements m n bs r c hbs hr hc hnl)
  · rw [hF, block_values_length]
    exact hp

end fw.blas


namespace fw.blas

/-! ## Memory -/

@[simp] theorem Ptr.mem_add (a i : Nat) : (Ptr.mem a).add i = Ptr.mem (a + i) := rfl

@[simp] theorem Ptr.buf_add (a i : Nat) : (Ptr.buf a).add i = Ptr.buf (a + i) := rfl

theorem Ptr.add_zero (p : Ptr) : p.add 0 = p := by
  cases p <;> simp [Ptr.add]

theorem Ptr.add_inj (p : Ptr) (i j : Nat) : p.add i = p.add j ↔ i = j := by
  cases p <;> simp [Ptr.add]

theorem store_add {α : Type} (mem : Ptr → α) (p : Ptr) (len : Nat) (v : Nat → α) (i : Nat)
    (h : i < len) : store mem p len v (p.add i) = v i := by
  cases p <;> simp [store, Ptr.add, h]

theorem store_of_ne {α : Type} (mem : Ptr → α) (p : Ptr) (len : Nat) (v : Nat → α) (l : Ptr)
    (h : ∀ i, i < len → l ≠ p.add i) : store mem p len v l = mem l := by
  cases p with
  | mem a =>
    cases l with
    | mem b =>
      simp only [store]
      split
      · rename_i hc
        exact absurd (by simp [Ptr.add]; omega) (h (b - a) (by omega))
      · rfl
    | buf b => rfl
  | buf a =>
    cases l with
    | mem b => rfl
    | buf b =>
      simp only [store]
      split
      · rename_i hc
        exact absurd (by simp [Ptr.add]; omega) (h (b - a) (by omega))
      · rfl

theorem store_mem_apply {α : Type} (mem : Ptr → α) (y len : Nat) (v : Nat → α) (l : Nat) :
    store mem (Ptr.mem y) len v (Ptr.mem l)
      = if y ≤ l ∧ l < y + len then v (l - y) else mem (Ptr.mem l) := rfl

theorem store_buf_apply_mem {α : Type} (mem : Ptr → α) (b len : Nat) (v : Nat → α) (l : Nat) :
    store mem (Ptr.buf b) len v (Ptr.mem l) = mem (Ptr.mem l) := rfl

theorem store_buf_apply {α : Type} (mem : Ptr → α) (y len : Nat) (v : Nat → α) (l : Nat) :
    store mem (Ptr.buf y) len v (Ptr.buf l)
      = if y ≤ l ∧ l < y + len then v (l - y) else mem (Ptr.buf l) := rfl

/-- An elementwise loop over `p[0 .. t)` whose value at `j` does not depend on
the elements already written is one `store`. -/
theorem foldl_update_eq_store {α : Type} (p : Ptr) (w : Nat → (Ptr → α) → α)
    (hw : ∀ j mem mem', (∀ l, (∀ i, i < j → l ≠ p.add i) → mem l = mem' l) → w j mem = w j mem')
    (mem0 : Ptr → α) :
    ∀ t, (List.range t).foldl (fun mem j => Function.update mem (p.add j) (w j mem)) mem0
      = store mem0 p t (fun j => w j mem0) := by
  intro t
  induction t with
  | zero =>
    funext l
    rw [store_of_ne _ _ _ _ _ (by intro i hi; omega)]
    rfl
  | succ t ih =>
    rw [List.range_succ, List.foldl_append, ih]
    simp only [List.foldl_cons, List.foldl_nil]
    have e : w t (store mem0 p t (fun j => w j mem0)) = w t mem0 :=
      hw t _ _ (fun l hl => store_of_ne _ _ _ _ _ hl)
    rw [e]
    funext l
    by_cases h : l = p.add t
    · subst h
      rw [Function.update_same, store_add _ _ _ _ _ (Nat.lt_succ_self t)]
    · rw [Function.update_noteq h]
      by_cases h2 : ∃ i, i < t ∧ l = p.add i
      · obtain ⟨i, hi, rfl⟩ := h2
        rw [store_add _ _ _ _ _ hi, store_add _ _ _ _ _ (by omega)]
      · have h3 : ∀ i, i < t → l ≠ p.add i := fun i hi hl => h2 ⟨i, hi, hl⟩
        rw [store_of_ne _ _ _ _ _ h3, store_of_ne]
        intro i hi
        by_cases hit : i = t
        · subst hit; exact h
        · exact h3 i (by omega)

/-- The unit-step loops of the kernels over `p[0 .. n)` as one `store`. -/
theorem forUp_update_eq_store {α : Type} (p : Ptr) (w : Nat → (Ptr → α) → α)
    (hw : ∀ j mem mem', (∀ l, (∀ i, i < j → l ≠ p.add i) → mem l = mem' l) → w j mem = w j mem')
    (n : Nat) (mem0 : Ptr → α) :
    forUp (fun j mem => Function.update mem (p.add j) (w j mem)) n 1 n 0 mem0
      = store mem0 p n (fun j => w j mem0) := by
  rw [forUp_one_eq_foldl _ n n 0 mem0 (by omega)]
  simp only [Nat.sub_zero, Nat.zero_add]
  exact foldl_update_eq_store p w hw mem0 n

end fw.blas


namespace fw.blas

/-! ## `blas2_frame` -/

theorem store_self {α : Type} (mem : Ptr → α) (p : Ptr) (len : Nat) :
    store mem p len (fun j => mem (p.add j)) = mem := by
  funext l
  by_cases h : ∃ i, i < len ∧ l = p.add i
  · obtain ⟨i, hi, rfl⟩ := h
    rw [store_add _ _ _ _ _ hi]
  · exact store_of_ne _ _ _ _ _ (fun i hi hl => h ⟨i, hi, hl⟩)

theorem store_congr {α : Type} (mem : Ptr → α) (p : Ptr) (len : Nat) (v v' : Nat → α)
    (h : ∀ i, i < len → v i = v' i) : store mem p len v = store mem p len v' := by
  funext l
  by_cases h2 : ∃ i, i < len ∧ l = p.add i
  · obtain ⟨i, hi, rfl⟩ := h2
    rw [store_add _ _ _ _ _ hi, store_add _ _ _ _ _ hi, h i hi]
  · rw [store_of_ne _ _ _ _ _ (fun i hi hl => h2 ⟨i, hi, hl⟩),
      store_of_ne _ _ _ _ _ (fun i hi hl => h2 ⟨i, hi, hl⟩)]

section frame
variable {α : Type} [CommRing α] [DecidableEq α]

/-- The scaling loops of `blas2_frame`: `p[j] = beta * p[j]` for `j < len`, with
the shortcuts for `beta = 0` and `beta = 1`. -/
theorem frame_scale (p : Ptr) (len : Nat) (beta : α) (mem : Ptr → α) :
    (if beta = 0 then
        forUp (fun j mem => Function.update mem (p.add j) 0) len 1 len 0 mem
      else if beta ≠ 1 then
        forUp (fun j mem => Function.update mem (p.add j) (mem (p.add j) * beta)) len 1 len 0 mem
      else mem)
      = store mem p len (fun j => beta * mem (p.add j)) := by
  by_cases h0 : beta = 0
  · rw [if_pos h0, forUp_update_eq_store p (fun _ _ => (0 : α)) (fun _ _ _ _ => rfl)]
    exact store_congr _ _ _ _ _ (fun i _ => by simp [h0])
  · rw [if_neg h0]
    by_cases h1 : beta = 1
    · rw [if_neg (not_not.2 h1), h1]
      simp only [one_mul]
      exact (store_self mem p len).symm
    · rw [if_pos h1, forUp_update_eq_store p (fun j mem => mem (p.add j) * beta)
        (fun j mem mem' h => by
          simp only
          rw [h (p.add j) (fun i hi => by rw [Ne, Ptr.add_inj]; omega)])]
      exact store_congr _ _ _ _ _ (fun i _ => mul_comm _ _)

/-- `blas2_frame` with `alpha = 0` scales `y[0 .. m)` by `beta`, whatever the
transpose flag. -/
theorem matrix.blas2_frame_alpha_zero (g : geometry) (hm : g.m ≠ 0) (hn : g.n ≠ 0)
    (kernel : Bool → α → Ptr → Ptr → (Ptr → α) → (Ptr → α)) (t : Bool)
    (x : Nat) (beta : α) (y : Nat) (mem : Ptr → α) :
    matrix.blas2_frame g kernel t 0 x beta y mem
      = store mem (Ptr.mem y) g.m (fun j => beta * mem (Ptr.mem (y + j))) := by
  have hmn : ¬ (g.n = 0 ∨ g.m = 0) := by omega
  unfold matrix.blas2_frame
  rw [if_neg hmn, if_pos rfl]
  have h := frame_scale (Ptr.mem y) g.m beta mem
  simp only [Ptr.mem_add] at h
  by_cases h0 : beta = 0
  · rw [if_pos h0] at h ⊢
    exact h
  · rw [if_neg h0] at h ⊢
    by_cases h1 : beta = 1
    · rw [if_neg (not_not.2 h1)] at h ⊢
      exact h
    · rw [if_pos h1] at h ⊢
      rw [← h]
      congr 1
      funext j mem
      rw [mul_comm]

/-- The merge loops of `blas2_frame`: `y[j] = buffer_y[j] + beta * y[j]` for
`j < len`, with the variants for `beta = 0` and `beta = 1`. -/
theorem frame_merge (y len : Nat) (beta : α) (mem : Ptr → α) :
    (if beta = 0 then
        forUp (fun j mem => Function.update mem (Ptr.mem (y + j)) (mem (Ptr.buf j)))
          len 1 len 0 mem
      else if beta = 1 then
        forUp (fun j mem => Function.update mem (Ptr.mem (y + j))
          (mem (Ptr.mem (y + j)) + mem (Ptr.buf j))) len 1 len 0 mem
      else
        forUp (fun j mem => Function.update mem (Ptr.mem (y + j))
          (mem (Ptr.buf j) + beta * mem (Ptr.mem (y + j)))) len 1 len 0 mem)
      = store mem (Ptr.mem y) len (fun j => mem (Ptr.buf j) + beta * mem (Ptr.mem (y + j))) := by
  have hne : ∀ (j i : Nat), Ptr.buf j ≠ (Ptr.mem y).add i := by
    intro j i; simp
  have hne2 : ∀ (j i : Nat), i < j → Ptr.mem (y + j) ≠ (Ptr.mem y).add i := by
    intro j i h; simp; omega
  by_cases h0 : beta = 0
  · rw [if_pos h0]
    have := forUp_update_eq_store (Ptr.mem y) (fun j (mem : Ptr → α) => mem (Ptr.buf j))
      (fun j mem mem' h => h _ (fun i _ => hne j i)) len mem
    simp only [Ptr.mem_add] at this
    rw [this]
    exact store_congr _ _ _ _ _ (fun i _ => by simp [h0])
  · rw [if_neg h0]
    by_cases h1 : beta = 1
    · rw [if_pos h1]
      have := forUp_update_eq_store (Ptr.mem y)
        (fun j (mem : Ptr → α) => mem (Ptr.mem (y + j)) + mem (Ptr.buf j))
        (fun j mem mem' h => by
          simp only
          rw [h _ (fun i _ => hne j i), h _ (fun i hi => hne2 j i hi)]) len mem
      simp only [Ptr.mem_add] at this
      rw [this]
      exact store_congr _ _ _ _ _ (fun i _ => by simp [h1, add_comm])
    · rw [if_neg h1]
      have := forUp_update_eq_store (Ptr.mem y)
        (fun j (mem : Ptr → α) => mem (Ptr.buf j) + beta * mem (Ptr.mem (y + j)))
        (fun j mem mem' h => by
          simp only
          rw [h _ (fun i _ => hne j i), h _ (fun i hi => hne2 j i hi)]) len mem
      simp only [Ptr.mem_add] at this
      exact this

/-- `blas2_frame` with `alpha ≠ 0` around a kernel that stores
`K x_slice y_slice` over the output slice: the value of every cell of the
memory of the caller afterwards, on the direct and on the buffered path. -/
theorem matrix.blas2_frame_apply (g : geometry) (hm : g.m ≠ 0) (hn : g.n ≠ 0)
    (kernel : Bool → α → Ptr → Ptr → (Ptr → α) → (Ptr → α)) (t : Bool)
    (alpha : α) (halpha : alpha ≠ 0) (x : Nat) (beta : α) (y : Nat) (mem : Ptr → α)
    (xlen : Nat) (hxlen : xlen ≤ max g.m g.n)
    (K : (Nat → α) → (Nat → α) → Nat → α)
    (hK : ∀ (yp : Ptr) (mem1 : Ptr → α),
      (∀ c r, c < xlen → r < (if t then g.n else g.m) → Ptr.mem (x + c) ≠ yp.add r) →
      kernel t alpha (Ptr.mem x) yp mem1
        = store mem1 yp (if t then g.n else g.m)
            (K (load mem1 (Ptr.mem x)) (load mem1 yp)))
    (hKx : ∀ X X' Y r, r < (if t then g.n else g.m) → (∀ c, c < xlen → X c = X' c) →
      K X Y r = K X' Y r)
    (hKy : ∀ X Y Y' r, r < (if t then g.n else g.m) →
      (∀ q, q < (if t then g.n else g.m) → Y q = Y' q) → K X Y r = K X Y' r)
    (l : Nat) :
    matrix.blas2_frame g kernel t alpha x beta y mem (Ptr.mem l)
      = if y ≤ l ∧ l < y + (if t then g.n else g.m) then
          (if Int.natAbs ((y : Int) - (x : Int)) ≥ max g.m g.n then
            K (load mem (Ptr.mem x)) (fun q => beta * mem (Ptr.mem (y + q))) (l - y)
          else
            K (load mem (Ptr.mem x)) (fun _ => 0) (l - y) + beta * mem (Ptr.mem l))
        else mem (Ptr.mem l) := by
  have hmn : ¬ (g.n = 0 ∨ g.m = 0) := by omega
  have hmnle : (if t then g.n else g.m) ≤ max g.m g.n := by
    split
    · exact Nat.le_max_right _ _
    · exact Nat.le_max_left _ _
  generalize hmndef : (if t then g.n else g.m) = mn at hK hKx hKy hmnle ⊢
  unfold matrix.blas2_frame
  rw [if_neg hmn, if_neg halpha]
  simp only [hmndef]
  by_cases hbuf : Int.natAbs ((y : Int) - (x : Int)) ≥ max g.m g.n
  · -- direct path
    simp only [hbuf, if_true, Bool.false_eq_true, if_false]
    rw [frame_scale (Ptr.mem y) mn beta mem]
    have hsep : ∀ c r, c < xlen → r < mn → Ptr.mem (x + c) ≠ (Ptr.mem y).add r := by
      intro c r hc hr
      simp only [Ptr.mem_add, ne_eq, Ptr.mem.injEq]
      omega
    rw [hK (Ptr.mem y) _ hsep, store_mem_apply]
    by_cases hl : y ≤ l ∧ l < y + mn
    · rw [if_pos hl, if_pos hl]
      rw [hKx _ (load mem (Ptr.mem x)) _ _ (by omega) (fun c hc => by
        simp only [load]
        exact store_of_ne _ _ _ _ _ (fun r hr => hsep c r hc hr))]
      apply hKy _ _ _ _ (by omega)
      intro q hq
      simp only [load]
      rw [store_add _ _ _ _ _ hq]
      rfl
    · rw [if_neg hl, if_neg hl, store_mem_apply, if_neg hl]
  · -- buffered path
    simp only [hbuf, if_false, if_true, Bool.true_eq_false]
    have hsep : ∀ c r, c < xlen → r < mn → Ptr.mem (x + c) ≠ (Ptr.buf 0).add r := by
      intro c r _ _
      simp
    have hz := forUp_update_eq_store (Ptr.buf 0) (fun _ (_ : Ptr → α) => (0 : α))
      (fun _ _ _ _ => rfl) mn mem
    rw [hz, hK (Ptr.buf 0) _ hsep, frame_merge y mn beta, store_mem_apply]
    by_cases hl : y ≤ l ∧ l < y + mn
    · rw [if_pos hl, if_pos hl]
      have hlt : l - y < mn := by omega
      have e1 : Ptr.buf (l - y) = (Ptr.buf 0).add (l - y) := by simp
      rw [e1, store_add _ _ _ _ _ hlt, store_buf_apply_mem, store_buf_apply_mem]
      have e2 : y + (l - y) = l := by omega
      rw [e2]
      congr 1
      rw [hKx _ (load mem (Ptr.mem x)) _ _ hlt (fun c hc => by
        simp only [load, Ptr.mem_add, store_buf_apply_mem])]
      apply hKy _ _ _ _ hlt
      intro q hq
      simp only [load]
      rw [store_add _ _ _ _ _ hq]
    · rw [if_neg hl, if_neg hl, store_buf_apply_mem, store_buf_apply_mem]

end frame

end fw.blas


namespace fw.blas

/-! ## Accumulation over blocks -/

section accumulate
variable {α : Type} [CommRing α]

end accumulate

end fw.blas


namespace fw.blas

/-! ## Kernels on a stored output slice -/

section gemv
variable {α : Type} [CommRing α]

end gemv

end fw.blas


namespace fw.blas

/-! ## The kernel of `matrix::matrix_vector` with the identity codec -/

theorem slice_length {γ : Type} (a : Nat → γ) (p count : Nat) :
    (slice a p count).length = count := by
  simp [slice]

theorem slice_get {γ : Type} (a : Nat → γ) (p count q : Nat) (h : q < count) :
    (slice a p count)[q]? = some (a (p + q)) := by
  unfold slice
  rw [List.getElem?_map, List.getElem?_range h]
  rfl

theorem identity_decompress_at {α : Type} (buf cd : Nat → α) (k count p : Nat)
    (hp : p < count) : (fp.identity α).decompress_at buf cd k count p = cd (k + p) := by
  have h := blit_add buf 0 (List.take count (slice cd k count)) p
    (by rw [List.length_take, slice_length]; omega)
  rw [List.getElem?_take_of_lt hp, slice_get _ _ _ _ hp, Nat.zero_add] at h
  exact (Option.some.inj h).symm

/-- With the identity codec the stream of a constructed matrix holds the source
entry `(bj * bs + jj, bi * bs + ii)` at position `jj * nn + ii` of the block
`(bj, bi)`. -/
theorem matrix.ctor_entry {α : Type} (data : Nat → α) (m n ld bs : Nat)
    (hm : 0 < m) (hn : 0 < n) (hbs : 0 < bs) (memory buffer : Nat → α)
    (bj bi jj ii : Nat) (hbj : bj < num_blocks m bs) (hbi : bi < num_blocks n bs)
    (hjj : jj < min (m - bj * bs) bs) (hii : ii < min (n - bi * bs) bs) :
    (matrix.ctor (fp.identity α) (some data) m n ld bs memory buffer).compressed_data
        (matrix.block_offset m n bs
          (matrix.members (fun k => k) m n bs).num_elements_a
          (matrix.members (fun k => k) m n bs).num_elements_b
          (matrix.members (fun k => k) m n bs).num_elements_c bj bi
          + (jj * min (n - bi * bs) bs + ii))
      = data ((bj * bs + jj) * ld + (bi * bs + ii)) := by
  have hlt : jj * min (n - bi * bs) bs + ii
      < min (m - bj * bs) bs * min (n - bi * bs) bs := by
    calc jj * min (n - bi * bs) bs + ii < jj * min (n - bi * bs) bs + min (n - bi * bs) bs := by
          omega
      _ = (jj + 1) * min (n - bi * bs) bs := by ring
      _ ≤ min (m - bj * bs) bs * min (n - bi * bs) bs := Nat.mul_le_mul_right _ hjj
  have h := matrix.ctor_stream (fp.identity α) (fun _ => rfl) data m n ld bs hm hn hbs
    memory buffer bj bi (jj * min (n - bi * bs) bs + ii) hbj hbi hlt
  have h2 := block_values_get data ld (bj * bs) (bi * bs) (min (m - bj * bs) bs)
    (min (n - bi * bs) bs) jj ii hjj hii
  simp only [fp.identity] at h
  rw [h2] at h
  exact (Option.some.inj h).symm

section kernel
variable {α : Type} [CommRing α]

end kernel

end fw.blas


namespace fw.blas

/-! ## The cursor values of the full matrix -/

theorem nested_foldl_append {γ : Type} (g : Nat → Nat → γ) (cnt : Nat → Nat) :
    ∀ (rows : Nat) (tr : List γ),
      (List.range rows).foldl (fun tr r =>
          (List.range (cnt r)).foldl (fun tr c => tr ++ [g r c]) tr) tr
        = tr ++ (List.range rows).flatMap (fun r => (List.range (cnt r)).map (g r)) := by
  have hin : ∀ (r t : Nat) (tr : List γ),
      (List.range t).foldl (fun tr c => tr ++ [g r c]) tr = tr ++ (List.range t).map (g r) := by
    intro r t
    induction t with
    | zero => intro tr; simp
    | succ t ih =>
      intro tr
      rw [List.range_succ, List.foldl_append, ih]
      simp
  intro rows
  induction rows with
  | zero => intro tr; simp
  | succ rows ih =>
    intro tr
    rw [List.range_succ, List.foldl_append, ih]
    simp [hin]

/-- The cursor values of `matrix::compress` in closed form. -/
theorem matrix.compress_trace_eq (m n bs eA eB eC : Nat) (hbs : 0 < bs) :
    matrix.compress_trace m n bs eA eB eC
      = (List.range (num_blocks m bs)).flatMap (fun bj =>
          (List.range (num_blocks n bs)).map (fun bi =>
            (bj * bs, bi * bs, matrix.block_offset m n bs eA eB eC bj bi))) := by
  unfold matrix.compress_trace
  rw [matrix.compress_loop_eq m n bs eA eB eC hbs]
  rw [nested_foldl_append (fun bj bi =>
    (bj * bs, bi * bs, matrix.block_offset m n bs eA eB eC bj bi))]
  simp

theorem matrix.matrix_vector_trace_eq (A : geometry) (hbs : 0 < A.bs) :
    matrix.matrix_vector_trace A
      = (List.range (num_blocks A.m A.bs)).flatMap (fun bj =>
          (List.range (num_blocks A.n A.bs)).map (fun bi =>
            (bj * A.bs, bi * A.bs,
              matrix.block_offset A.m A.n A.bs A.num_elements_a A.num_elements_b
                A.num_elements_c bj bi))) :=
  matrix.compress_trace_eq A.m A.n A.bs _ _ _ hbs

theorem matrix.mem_matrix_vector_trace (A : geometry) (hbs : 0 < A.bs) (bj bi k : Nat) :
    (bj * A.bs, bi * A.bs, k) ∈ matrix.matrix_vector_trace A
      ↔ bj * A.bs < A.m ∧ bi * A.bs < A.n
        ∧ k = matrix.block_offset A.m A.n A.bs A.num_elements_a A.num_elements_b
                A.num_elements_c bj bi := by
  rw [matrix.matrix_vector_trace_eq A hbs]
  simp only [List.mem_flatMap, List.mem_map, List.mem_range, Prod.mk.injEq]
  constructor
  · rintro ⟨r, hr, c, hc, h1, h2, h3⟩
    have e1 : r = bj := Nat.eq_of_mul_eq_mul_right hbs h1
    have e2 : c = bi := Nat.eq_of_mul_eq_mul_right hbs h2
    subst e1 e2
    exact ⟨(lt_num_blocks_iff _ _ _ hbs).1 hr, (lt_num_blocks_iff _ _ _ hbs).1 hc, h3.symm⟩
  · rintro ⟨h1, h2, h3⟩
    exact ⟨bj, (lt_num_blocks_iff _ _ _ hbs).2 h1, bi, (lt_num_blocks_iff _ _ _ hbs).2 h2,
      rfl, rfl, h3.symm⟩

/-! ## `matrix::matrix_vector` with the identity codec -/

section full
variable {α : Type} [CommRing α] [DecidableEq α]

end full

end fw.blas


namespace fw.blas

/-! ## The block loops of the triangular matrix -/

theorem num_blocks_succ_mul (bj bs : Nat) (hbs : 0 < bs) :
    num_blocks (bj * bs + 1) bs = bj + 1 := by
  have h1 : bj < num_blocks (bj * bs + 1) bs := by
    rw [lt_num_blocks_iff _ _ _ hbs]; omega
  have h2 : ¬ (bj + 1 < num_blocks (bj * bs + 1) bs) := by
    rw [lt_num_blocks_iff _ _ _ hbs, Nat.add_mul]; omega
  omega

/-- The inner block loop of the triangular traversals for block row `bj`: the
blocks of the row in order. -/
theorem triangular_matrix.row_loop_eq {σ : Type} (MT : triangular_matrix_type) (n bs : Nat)
    (hbs : 0 < bs) (bj : Nat) (body : Nat → σ → σ) (s : σ) :
    forUp body (if MT = triangular_matrix_type.upper then n else bj * bs + 1) bs
        (if MT = triangular_matrix_type.upper then n else bj * bs + 1)
        (if MT = triangular_matrix_type.upper then bj * bs else 0) s
      = (List.range (triangular_matrix.row_count MT (num_blocks n bs) bj)).foldl
          (fun s t => body (triangular_matrix.column MT bj t * bs) s) s := by
  cases MT
  · -- lower
    simp only [reduceCtorEq, if_false, triangular_matrix.row_count, triangular_matrix.column]
    have h := forUp_eq_foldl body (bj * bs + 1) bs hbs (bj * bs + 1) 0 s (by omega)
    simp only [Nat.zero_mul, Nat.sub_zero, Nat.zero_add] at h
    rw [h]
    have e := num_blocks_succ_mul bj bs hbs
    unfold num_blocks at e
    rw [e]
  · -- upper
    simp only [if_true, triangular_matrix.row_count, triangular_matrix.column]
    exact forUp_eq_foldl body n bs hbs n bj s (by omega)

/-- The block loops of `triangular_matrix::compress` visit the blocks of the
triangle row by row, each with the pointer at the sum of the advances before
it. -/
theorem triangular_matrix.tri_compress_loop_thread {σ : Type} (MT : triangular_matrix_type)
    (n bs eA eB eC : Nat) (hbs : 0 < bs) (visit : Nat → Nat → Nat → σ → σ) (s : σ) :
    triangular_matrix.compress_loop MT n bs eA eB eC visit (0, s)
      = (∑ r ∈ Finset.range (num_blocks n bs),
          ∑ c ∈ Finset.range (triangular_matrix.row_count MT (num_blocks n bs) r),
            triangular_matrix.advance MT n bs eA eB eC (r * bs)
              (triangular_matrix.column MT r c * bs),
         (List.range (num_blocks n bs)).foldl (fun s bj =>
           (List.range (triangular_matrix.row_count MT (num_blocks n bs) bj)).foldl (fun s t =>
             visit (bj * bs) (triangular_matrix.column MT bj t * bs)
               ((∑ q ∈ Finset.range bj,
                   ∑ d ∈ Finset.range (triangular_matrix.row_count MT (num_blocks n bs) q),
                     triangular_matrix.advance MT n bs eA eB eC (q * bs)
                       (triangular_matrix.column MT q d * bs))
                 + ∑ d ∈ Finset.range t,
                     triangular_matrix.advance MT n bs eA eB eC (bj * bs)
                       (triangular_matrix.column MT bj d * bs)) s) s) s) := by
  unfold triangular_matrix.compress_loop
  have hout := fun (body : Nat → Nat × σ → Nat × σ) (st : Nat × σ) =>
    forUp_eq_foldl body n bs hbs n 0 st (by omega)
  simp only [Nat.zero_mul, Nat.sub_zero, Nat.zero_add] at hout
  rw [hout]
  have hrow : ∀ (bj : Nat) (st : Nat × σ),
      forUp (fun i (s : Nat × σ) =>
          (if i = bj * bs then s.1 + eA
           else
             s.1 + (if n - (if MT = triangular_matrix_type.upper then i else bj * bs) < bs
               then eC else eB),
           visit (bj * bs) i s.1 s.2))
        (if MT = triangular_matrix_type.upper then n else bj * bs + 1) bs
        (if MT = triangular_matrix_type.upper then n else bj * bs + 1)
        (if MT = triangular_matrix_type.upper then bj * bs else 0) st
      = (List.range (triangular_matrix.row_count MT (num_blocks n bs) bj)).foldl
          (fun st t => (st.1 + triangular_matrix.advance MT n bs eA eB eC (bj * bs)
              (triangular_matrix.column MT bj t * bs),
            visit (bj * bs) (triangular_matrix.column MT bj t * bs) st.1 st.2)) st := by
    intro bj st
    rw [triangular_matrix.row_loop_eq MT n bs hbs bj]
    congr 1
    funext s t
    unfold triangular_matrix.advance
    split <;> rfl
  simp only [hrow]
  exact foldl_thread_nested (triangular_matrix.row_count MT (num_blocks n bs))
    (fun r c => triangular_matrix.advance MT n bs eA eB eC (r * bs)
      (triangular_matrix.column MT r c * bs))
    (fun bj t => visit (bj * bs) (triangular_matrix.column MT bj t * bs)) (num_blocks n bs) s

end fw.blas


namespace fw.blas

/-! ## `get_offset` is the sum of the advances -/

theorem triangle_succ (k : Nat) : ((k + 1) * (k + 1 + 1)) / 2 = (k * (k + 1)) / 2 + (k + 1) := by
  have e : (k + 1) * (k + 1 + 1) = k * (k + 1) + 2 * (k + 1) := by ring
  rw [e, Nat.add_mul_div_left _ _ (by decide : 0 < 2)]

theorem sum_rows_upper (N : Nat) :
    ∀ bj, bj ≤ N →
      ∑ q ∈ Finset.range bj, (N - q) + ((N - bj) * (N - bj + 1)) / 2 = (N * (N + 1)) / 2 := by
  intro bj
  induction bj with
  | zero => intro _; simp
  | succ bj ih =>
    intro h
    have h1 := ih (by omega)
    have e : N - bj = (N - (bj + 1)) + 1 := by omega
    rw [e, triangle_succ] at h1
    rw [Finset.sum_range_succ]
    omega

theorem sum_rows_lower :
    ∀ bj, ∑ q ∈ Finset.range bj, q + bj = (bj * (bj + 1)) / 2 := by
  intro bj
  induction bj with
  | zero => simp
  | succ bj ih =>
    rw [Finset.sum_range_succ, triangle_succ]
    omega

theorem triangular_matrix.advance_upper_eq (n bs eA eB eC q d : Nat) (hbs : 0 < bs) :
    triangular_matrix.advance triangular_matrix_type.upper n bs eA eB eC (q * bs)
        (triangular_matrix.column triangular_matrix_type.upper q d * bs)
      = if d = 0 then eA else if q + d < n / bs then eB else eC := by
  unfold triangular_matrix.advance triangular_matrix.column
  simp only [if_true]
  have e : (q + d) * bs = q * bs ↔ d = 0 := by
    constructor
    · intro h
      have := Nat.eq_of_mul_eq_mul_right hbs h
      omega
    · intro h; rw [h, Nat.add_zero]
  by_cases hd : d = 0
  · rw [if_pos (e.2 hd), if_pos hd]
  · rw [if_neg (fun h => hd (e.1 h)), if_neg hd]
    by_cases h2 : q + d < n / bs
    · rw [if_neg ((not_congr (border_iff n bs (q + d) hbs)).2 (not_not.2 h2)), if_pos h2]
    · rw [if_pos ((border_iff n bs (q + d) hbs).2 h2), if_neg h2]

theorem triangular_matrix.advance_lower_eq (n bs eA eB eC q d : Nat) (hbs : 0 < bs) :
    triangular_matrix.advance triangular_matrix_type.lower n bs eA eB eC (q * bs)
        (triangular_matrix.column triangular_matrix_type.lower q d * bs)
      = if d = q then eA else if q < n / bs then eB else eC := by
  unfold triangular_matrix.advance triangular_matrix.column
  simp only [reduceCtorEq, if_false]
  have e : d * bs = q * bs ↔ d = q := by
    constructor
    · intro h; exact Nat.eq_of_mul_eq_mul_right hbs h
    · intro h; rw [h]
  by_cases hd : d = q
  · rw [if_pos (e.2 hd), if_pos hd]
  · rw [if_neg (fun h => hd (e.1 h)), if_neg hd]
    by_cases h2 : q < n / bs
    · rw [if_neg ((not_congr (border_iff n bs q hbs)).2 (not_not.2 h2)), if_pos h2]
    · rw [if_pos ((border_iff n bs q hbs).2 h2), if_neg h2]

/-- Upper triangle: the advances of the first `k` blocks of block row `q`, all
before the border column. -/
theorem triangular_matrix.sum_advance_upper_prefix (n bs eA eB eC q : Nat) (hbs : 0 < bs) :
    ∀ k, (k ≠ 0 → q + k < n / bs) →
      ∑ d ∈ Finset.range (k + 1),
          triangular_matrix.advance triangular_matrix_type.upper n bs eA eB eC (q * bs)
            (triangular_matrix.column triangular_matrix_type.upper q d * bs)
        = eA + k * eB := by
  intro k
  induction k with
  | zero =>
    intro _
    simp [triangular_matrix.advance_upper_eq n bs eA eB eC q _ hbs]
  | succ k ih =>
    intro h
    rw [Finset.sum_range_succ, ih (by omega),
      triangular_matrix.advance_upper_eq n bs eA eB eC q _ hbs,
      if_neg (by omega), if_pos (by omega), Nat.add_mul]
    omega

/-- Upper triangle: the advances of a full block row `q` that is not the last
one. -/
theorem triangular_matrix.sum_advance_upper_row (n bs eA eB eC q : Nat) (hbs : 0 < bs)
    (hq : q + 1 < num_blocks n bs) :
    ∑ d ∈ Finset.range (num_blocks n bs - q),
        triangular_matrix.advance triangular_matrix_type.upper n bs eA eB eC (q * bs)
          (triangular_matrix.column triangular_matrix_type.upper q d * bs)
      + (1 + (num_blocks n bs - n / bs)) * eB
      = eA + (num_blocks n bs - q) * eB + (num_blocks n bs - n / bs) * eC := by
  have hN := num_blocks_eq n bs hbs
  by_cases h0 : n % bs = 0
  · rw [if_pos h0] at hN
    have e : num_blocks n bs - q = (num_blocks n bs - q - 1) + 1 := by omega
    have e0 : num_blocks n bs - n / bs = 0 := by omega
    rw [e, triangular_matrix.sum_advance_upper_prefix n bs eA eB eC q hbs _ (by omega), e0]
    simp only [Nat.add_zero, Nat.zero_mul, Nat.one_mul, Nat.add_mul]
    omega
  · rw [if_neg h0] at hN
    have e : num_blocks n bs - q = (num_blocks n bs - q - 2) + 1 + 1 := by omega
    have e1 : num_blocks n bs - n / bs = 1 := by omega
    rw [e, Finset.sum_range_succ,
      triangular_matrix.sum_advance_upper_prefix n bs eA eB eC q hbs _ (by omega),
      triangular_matrix.advance_upper_eq n bs eA eB eC q _ hbs,
      if_neg (by omega), if_neg (by omega), e1]
    simp only [Nat.add_mul, Nat.one_mul]
    omega

end fw.blas


namespace fw.blas

theorem checked_sub_of_le (a b : Nat) (h : b ≤ a) : checked_sub a b = some (a - b) := by
  simp [checked_sub, h]

/-- Upper orientation: when no subtraction wraps around, the checked
`get_offset` returns the value of `get_offset`. -/
theorem triangular_matrix.get_offset_checked_upper (A : geometry) (bj bi : Nat)
    (h1 : 1 ≤ A.n + A.bs)
    (h2 : A.n / A.bs ≤ (A.n + A.bs - 1) / A.bs)
    (h3 : bj ≤ A.n / A.bs + ((A.n + A.bs - 1) / A.bs - A.n / A.bs))
    (h4 : ((A.n / A.bs + ((A.n + A.bs - 1) / A.bs - A.n / A.bs) - bj)
            * (A.n / A.bs + ((A.n + A.bs - 1) / A.bs - A.n / A.bs) - bj + 1)) / 2
          ≤ ((A.n / A.bs + ((A.n + A.bs - 1) / A.bs - A.n / A.bs))
            * (A.n / A.bs + ((A.n + A.bs - 1) / A.bs - A.n / A.bs) + 1)) / 2)
    (h5 : bj * (1 + ((A.n + A.bs - 1) / A.bs - A.n / A.bs))
          ≤ ((A.n / A.bs + ((A.n + A.bs - 1) / A.bs - A.n / A.bs))
              * (A.n / A.bs + ((A.n + A.bs - 1) / A.bs - A.n / A.bs) + 1)) / 2
            - ((A.n / A.bs + ((A.n + A.bs - 1) / A.bs - A.n / A.bs) - bj)
              * (A.n / A.bs + ((A.n + A.bs - 1) / A.bs - A.n / A.bs) - bj + 1)) / 2) :
    triangular_matrix.get_offset_checked A triangular_matrix_type.upper bj bi
      = some (triangular_matrix.get_offset A triangular_matrix_type.upper bj bi) := by
  simp only [triangular_matrix.get_offset_checked, triangular_matrix.get_offset]
  rw [checked_sub_of_le _ _ h1]
  simp only [Option.bind_eq_bind, Option.some_bind]
  rw [checked_sub_of_le _ _ h2]
  simp only [Option.some_bind]
  rw [checked_sub_of_le _ _ h3]
  simp only [Option.some_bind]
  rw [checked_sub_of_le _ _ h4]
  simp only [Option.some_bind]
  rw [checked_sub_of_le _ _ h5]
  simp only [Option.some_bind]
  by_cases hb : bi > bj + 1
  · rw [if_pos hb, checked_sub_of_le _ _ (by omega)]
    simp only [Option.some_bind, if_pos hb]
    rfl
  · rw [if_neg hb]
    simp only [Option.some_bind, if_neg hb]
    rfl

/-- Lower orientation: when no subtraction wraps around, the checked
`get_offset` returns the value of `get_offset`. -/
theorem triangular_matrix.get_offset_checked_lower (A : geometry) (bj bi : Nat)
    (h1 : 1 ≤ A.n + A.bs)
    (h2 : bj ≤ (bj * (bj + 1)) / 2)
    (h3 : 1 ≤ (A.n + A.bs - 1) / A.bs) :
    triangular_matrix.get_offset_checked A triangular_matrix_type.lower bj bi
      = some (triangular_matrix.get_offset A triangular_matrix_type.lower bj bi) := by
  simp only [triangular_matrix.get_offset_checked, triangular_matrix.get_offset]
  rw [checked_sub_of_le _ _ h1]
  simp only [Option.bind_eq_bind, Option.some_bind]
  rw [checked_sub_of_le _ _ h2]
  simp only [Option.some_bind]
  rw [checked_sub_of_le _ _ h3]
  simp only [Option.some_bind]
  rfl

end fw.blas


namespace fw.blas

/-- Upper triangle: the advances of the block rows before `bj`. -/
theorem triangular_matrix.sum_advance_upper_rows (n bs eA eB eC : Nat) (hbs : 0 < bs) :
    ∀ bj, bj < num_blocks n bs →
      (∑ q ∈ Finset.range bj, ∑ d ∈ Finset.range (num_blocks n bs - q),
          triangular_matrix.advance triangular_matrix_type.upper n bs eA eB eC (q * bs)
            (triangular_matrix.column triangular_matrix_type.upper q d * bs))
        + bj * (1 + (num_blocks n bs - n / bs)) * eB
        = bj * eA + (∑ q ∈ Finset.range bj, (num_blocks n bs - q)) * eB
          + bj * (num_blocks n bs - n / bs) * eC := by
  intro bj
  induction bj with
  | zero => intro _; simp
  | succ bj ih =>
    intro h
    have h1 := ih (by omega)
    have h2 := triangular_matrix.sum_advance_upper_row n bs eA eB eC bj hbs h
    rw [Finset.sum_range_succ, Finset.sum_range_succ]
    simp only [Nat.add_mul, Nat.one_mul, Nat.mul_add, Nat.mul_one] at h1 h2 ⊢
    omega

theorem sum_rows_upper_ge (N cn : Nat) (hcn : cn ≤ 1) :
    ∀ bj, bj < N → bj * (1 + cn) ≤ ∑ q ∈ Finset.range bj, (N - q) := by
  intro bj
  induction bj with
  | zero => intro _; simp
  | succ bj ih =>
    intro h
    have := ih (by omega)
    rw [Finset.sum_range_succ, Nat.add_mul, Nat.one_mul]
    omega

/-- Upper orientation: the sum of the advances before the block
`(bj, bj + t)` is `get_offset`, and no subtraction of `get_offset` wraps
around. -/
theorem triangular_matrix.offset_upper (A : geometry) (hbs : 0 < A.bs) (bj t : Nat)
    (hbj : bj < num_blocks A.n A.bs) (ht : t < num_blocks A.n A.bs - bj) :
    ((∑ q ∈ Finset.range bj, ∑ d ∈ Finset.range (num_blocks A.n A.bs - q),
          triangular_matrix.advance triangular_matrix_type.upper A.n A.bs
            A.num_elements_a A.num_elements_b A.num_elements_c (q * A.bs)
            (triangular_matrix.column triangular_matrix_type.upper q d * A.bs))
        + ∑ d ∈ Finset.range t,
            triangular_matrix.advance triangular_matrix_type.upper A.n A.bs
              A.num_elements_a A.num_elements_b A.num_elements_c (bj * A.bs)
              (triangular_matrix.column triangular_matrix_type.upper bj d * A.bs)
      = triangular_matrix.get_offset A triangular_matrix_type.upper bj (bj + t))
    ∧ triangular_matrix.get_offset_checked A triangular_matrix_type.upper bj (bj + t)
      = some (triangular_matrix.get_offset A triangular_matrix_type.upper bj (bj + t)) := by
  have hN := num_blocks_eq A.n A.bs hbs
  have hNdef : (A.n + A.bs - 1) / A.bs = num_blocks A.n A.bs := rfl
  have hcn : num_blocks A.n A.bs - A.n / A.bs ≤ 1 := by split at hN <;> omega
  have hNN : A.n / A.bs + (num_blocks A.n A.bs - A.n / A.bs) = num_blocks A.n A.bs := by
    split at hN <;> omega
  have hR := sum_rows_upper (num_blocks A.n A.bs) bj (by omega)
  have hge := sum_rows_upper_ge (num_blocks A.n A.bs) (num_blocks A.n A.bs - A.n / A.bs) hcn
    bj hbj
  have hS := triangular_matrix.sum_advance_upper_rows A.n A.bs A.num_elements_a
    A.num_elements_b A.num_elements_c hbs bj hbj
  constructor
  · simp only [triangular_matrix.get_offset, hNdef, hNN]
    have hin : ∑ d ∈ Finset.range t,
          triangular_matrix.advance triangular_matrix_type.upper A.n A.bs
            A.num_elements_a A.num_elements_b A.num_elements_c (bj * A.bs)
            (triangular_matrix.column triangular_matrix_type.upper bj d * A.bs)
        = (if bj + t > bj then 1 else 0) * A.num_elements_a
          + (if bj + t > bj + 1 then bj + t - (bj + 1) else 0) * A.num_elements_b := by
      rcases Nat.eq_zero_or_pos t with h0 | hpos
      · subst h0; simp
      · obtain ⟨k, rfl⟩ : ∃ k, t = k + 1 := ⟨t - 1, by omega⟩
        rw [triangular_matrix.sum_advance_upper_prefix A.n A.bs _ _ _ bj hbs k
          (fun _ => by split at hN <;> omega)]
        rw [if_pos (by omega)]
        by_cases hk : k = 0
        · subst hk; simp
        · rw [if_pos (by omega)]
          have : bj + (k + 1) - (bj + 1) = k := by omega
          rw [this, Nat.one_mul]
    rw [hin]
    generalize (∑ q ∈ Finset.range bj, ∑ d ∈ Finset.range (num_blocks A.n A.bs - q),
          triangular_matrix.advance triangular_matrix_type.upper A.n A.bs
            A.num_elements_a A.num_elements_b A.num_elements_c (q * A.bs)
            (triangular_matrix.column triangular_matrix_type.upper q d * A.bs)) = S1 at hS ⊢
    have hR' : (num_blocks A.n A.bs * (num_blocks A.n A.bs + 1)) / 2
        - ((num_blocks A.n A.bs - bj) * (num_blocks A.n A.bs - bj + 1)) / 2
        = ∑ q ∈ Finset.range bj, (num_blocks A.n A.bs - q) := by omega
    rw [hR']
    generalize (∑ q ∈ Finset.range bj, (num_blocks A.n A.bs - q)) = R at hS hge ⊢
    obtain ⟨D, rfl⟩ : ∃ D, R = D + bj * (1 + (num_blocks A.n A.bs - A.n / A.bs)) :=
      ⟨R - bj * (1 + (num_blocks A.n A.bs - A.n / A.bs)), by omega⟩
    rw [Nat.add_sub_cancel]
    simp only [Nat.add_mul] at hS ⊢
    omega
  · apply triangular_matrix.get_offset_checked_upper
    · omega
    · rw [hNdef]; split at hN <;> omega
    · rw [hNdef, hNN]; omega
    · rw [hNdef, hNN]; omega
    · rw [hNdef, hNN]; omega

end fw.blas


namespace fw.blas

/-- Lower triangle: the advances of the first `t` blocks of block row `q`, all
before the diagonal. -/
theorem triangular_matrix.sum_advance_lower_prefix (n bs eA eB eC q : Nat) (hbs : 0 < bs) :
    ∀ t, t ≤ q →
      ∑ d ∈ Finset.range t,
          triangular_matrix.advance triangular_matrix_type.lower n bs eA eB eC (q * bs)
            (triangular_matrix.column triangular_matrix_type.lower q d * bs)
        = t * (if q < n / bs then eB else eC) := by
  intro t
  induction t with
  | zero => intro _; simp
  | succ t ih =>
    intro h
    rw [Finset.sum_range_succ, ih (by omega),
      triangular_matrix.advance_lower_eq n bs eA eB eC q _ hbs,
      if_neg (show ¬ t = q by omega), Nat.add_mul, Nat.one_mul]

/-- Lower triangle: the advances of the block rows before `bj`. -/
theorem triangular_matrix.sum_advance_lower_rows (n bs eA eB eC : Nat) (hbs : 0 < bs) :
    ∀ bj, bj < num_blocks n bs →
      (∑ q ∈ Finset.range bj, ∑ d ∈ Finset.range (q + 1),
          triangular_matrix.advance triangular_matrix_type.lower n bs eA eB eC (q * bs)
            (triangular_matrix.column triangular_matrix_type.lower q d * bs))
        = bj * eA + (∑ q ∈ Finset.range bj, q) * eB := by
  intro bj
  induction bj with
  | zero => intro _; simp
  | succ bj ih =>
    intro h
    have hN := num_blocks_eq n bs hbs
    have hq : bj < n / bs := by split at hN <;> omega
    rw [Finset.sum_range_succ, ih (by omega), Finset.sum_range_succ, Finset.sum_range_succ,
      triangular_matrix.sum_advance_lower_prefix n bs eA eB eC bj hbs bj (Nat.le_refl _),
      triangular_matrix.advance_lower_eq n bs eA eB eC bj _ hbs, if_pos rfl, if_pos hq]
    simp only [Nat.add_mul, Nat.one_mul]
    omega

/-- Lower orientation: the sum of the advances before the block `(bj, t)` is
`get_offset`, and no subtraction of `get_offset` wraps around, provided
`num_elements_c` is zero exactly when there is no border. -/
theorem triangular_matrix.offset_lower (A : geometry) (hbs : 0 < A.bs) (hn : 0 < A.n)
    (hC : A.num_elements_c = 0 ↔ A.n % A.bs = 0) (bj t : Nat)
    (hbj : bj < num_blocks A.n A.bs) (ht : t < bj + 1) :
    ((∑ q ∈ Finset.range bj, ∑ d ∈ Finset.range (q + 1),
          triangular_matrix.advance triangular_matrix_type.lower A.n A.bs
            A.num_elements_a A.num_elements_b A.num_elements_c (q * A.bs)
            (triangular_matrix.column triangular_matrix_type.lower q d * A.bs))
        + ∑ d ∈ Finset.range t,
            triangular_matrix.advance triangular_matrix_type.lower A.n A.bs
              A.num_elements_a A.num_elements_b A.num_elements_c (bj * A.bs)
              (triangular_matrix.column triangular_matrix_type.lower bj d * A.bs)
      = triangular_matrix.get_offset A triangular_matrix_type.lower bj t)
    ∧ triangular_matrix.get_offset_checked A triangular_matrix_type.lower bj t
      = some (triangular_matrix.get_offset A triangular_matrix_type.lower bj t) := by
  have hN := num_blocks_eq A.n A.bs hbs
  have hNdef : (A.n + A.bs - 1) / A.bs = num_blocks A.n A.bs := rfl
  have hR := sum_rows_lower bj
  constructor
  · simp only [triangular_matrix.get_offset, hNdef]
    rw [triangular_matrix.sum_advance_lower_rows A.n A.bs _ _ _ hbs bj hbj,
      triangular_matrix.sum_advance_lower_prefix A.n A.bs _ _ _ bj hbs t (by omega)]
    have hR' : (bj * (bj + 1)) / 2 - bj = ∑ q ∈ Finset.range bj, q := by omega
    rw [hR']
    by_cases hlast : bj < num_blocks A.n A.bs - 1
    · have hq : bj < A.n / A.bs := by split at hN <;> omega
      have e1 : (if bj < num_blocks A.n A.bs - 1 then t else 0) = t := if_pos hlast
      have e2 : (if bj = num_blocks A.n A.bs - 1 then t else 0) = 0 := if_neg (by omega)
      have e3 : (if bj < A.n / A.bs then A.num_elements_b else A.num_elements_c)
          = A.num_elements_b := if_pos hq
      rw [e1, e2, e3]
      simp only [Nat.add_mul, Nat.zero_mul, Nat.add_zero]
      omega
    · have hb : bj = num_blocks A.n A.bs - 1 := by omega
      have e1 : (if bj < num_blocks A.n A.bs - 1 then t else 0) = 0 := if_neg hlast
      have e2 : (if bj = num_blocks A.n A.bs - 1 then t else 0) = t := if_pos hb
      rw [e1, e2]
      by_cases h0 : A.n % A.bs = 0
      · rw [if_pos h0] at hN
        have e3 : (if bj < A.n / A.bs then A.num_elements_b else A.num_elements_c)
            = A.num_elements_b := if_pos (by omega)
        have e4 : (if A.num_elements_c ≠ 0 then A.num_elements_c else A.num_elements_b)
            = A.num_elements_b := if_neg (not_not.2 (hC.2 h0))
        rw [e3, e4]
        simp only [Nat.add_mul, Nat.zero_mul, Nat.add_zero]
      · rw [if_neg h0] at hN
        have e3 : (if bj < A.n / A.bs then A.num_elements_b else A.num_elements_c)
            = A.num_elements_c := if_neg (by omega)
        have e4 : (if A.num_elements_c ≠ 0 then A.num_elements_c else A.num_elements_b)
            = A.num_elements_c := if_pos (fun h => h0 (hC.1 h))
        rw [e3, e4]
        simp only [Nat.add_mul, Nat.zero_mul, Nat.add_zero]
  · apply triangular_matrix.get_offset_checked_lower
    · omega
    · omega
    · rw [hNdef]; omega

end fw.blas


namespace fw.blas

/-! ## The packed copy of `triangular_matrix::compress` -/

theorem blit_snoc {γ : Type} (b : Nat → γ) (L : List γ) (v : γ) :
    set_at (blit b 0 L) L.length v = blit b 0 (L ++ [v]) := by
  funext q
  unfold set_at blit
  simp only [Nat.zero_le, if_true, Nat.sub_zero]
  by_cases h : q = L.length
  · subst h
    simp
  · rw [if_neg h]
    by_cases h2 : q < L.length
    · rw [List.getD_eq_getElem?_getD, List.getD_eq_getElem?_getD,
        List.getElem?_append_left h2]
    · rw [List.getD_eq_default _ _ (by omega), List.getD_eq_default _ _ (by simp; omega)]

theorem slice_blit {γ : Type} (b : Nat → γ) (L : List γ) :
    slice (blit b 0 L) 0 L.length = L := by
  apply List.ext_getElem?
  intro p
  by_cases hp : p < L.length
  · rw [slice_get _ _ _ _ hp, Nat.zero_add, blit_add b 0 L p hp, Nat.zero_add]
  · rw [List.getElem?_eq_none (by rw [slice_length]; omega),
      List.getElem?_eq_none (by omega)]

theorem foldl_pack_row {γ : Type} (h : Nat → γ) (b : Nat → γ) :
    ∀ (c : Nat) (L : List γ),
      (List.range c).foldl (fun (s : Nat × (Nat → γ)) t => (s.1 + 1, set_at s.2 s.1 (h t)))
          (L.length, blit b 0 L)
        = ((L ++ (List.range c).map h).length, blit b 0 (L ++ (List.range c).map h)) := by
  intro c
  induction c with
  | zero => intro L; simp
  | succ c ih =>
    intro L
    rw [List.range_succ, List.foldl_append, ih]
    simp only [List.foldl_cons, List.foldl_nil, List.map_append, List.map_cons, List.map_nil]
    rw [blit_snoc, List.append_assoc]
    simp [Nat.add_assoc]

/-- The packed copy: the scratch array receives the listed entries row by
row, and the counter `kk` ends at their number. -/
theorem foldl_pack {γ : Type} (cnt : Nat → Nat) (g : Nat → Nat → γ) (b : Nat → γ) :
    ∀ u, (List.range u).foldl (fun (s : Nat × (Nat → γ)) jj =>
        (List.range (cnt jj)).foldl
          (fun (s : Nat × (Nat → γ)) t => (s.1 + 1, set_at s.2 s.1 (g jj t))) s) (0, b)
      = (((List.range u).flatMap (fun jj => (List.range (cnt jj)).map (g jj))).length,
         blit b 0 ((List.range u).flatMap (fun jj => (List.range (cnt jj)).map (g jj)))) := by
  intro u
  induction u with
  | zero =>
    simp only [List.range_zero, List.foldl_nil, List.flatMap_nil, List.length_nil]
    congr 1
    funext q
    simp [blit]
  | succ u ih =>
    rw [List.range_succ, List.foldl_append, ih]
    simp only [List.foldl_cons, List.foldl_nil]
    rw [foldl_pack_row (g u) b (cnt u)]
    simp [List.flatMap_append]

theorem flatMap_range_length {γ : Type} (cnt : Nat → Nat) (g : Nat → Nat → γ) :
    ∀ u, ((List.range u).flatMap (fun jj => (List.range (cnt jj)).map (g jj))).length
      = ∑ q ∈ Finset.range u, cnt q := by
  intro u
  induction u with
  | zero => simp
  | succ u ih =>
    rw [List.range_succ, List.flatMap_append, List.length_append, ih, Finset.sum_range_succ]
    simp

theorem flatMap_range_get {γ : Type} (cnt : Nat → Nat) (g : Nat → Nat → γ) :
    ∀ u jj t, jj < u → t < cnt jj →
      ((List.range u).flatMap (fun jj => (List.range (cnt jj)).map (g jj)))[
        (∑ q ∈ Finset.range jj, cnt q) + t]? = some (g jj t) := by
  intro u
  induction u with
  | zero => intro jj t h; omega
  | succ u ih =>
    intro jj t hjj ht
    rw [List.range_succ, List.flatMap_append]
    by_cases h : jj = u
    · subst h
      rw [List.getElem?_append_right (by rw [flatMap_range_length]; omega),
        flatMap_range_length, Nat.add_sub_cancel_left]
      simp [ht]
    · have hlt : jj < u := by omega
      have hb := sum_range_succ_le cnt hlt
      rw [List.getElem?_append_left (by rw [flatMap_range_length]; omega)]
      exact ih jj t hlt ht

/-- Every index below the length of the row-by-row listing is the index of
an entry. -/
theorem flatMap_range_surj (cnt : Nat → Nat) :
    ∀ u p, p < ∑ q ∈ Finset.range u, cnt q →
      ∃ jj t, jj < u ∧ t < cnt jj ∧ p = (∑ q ∈ Finset.range jj, cnt q) + t := by
  intro u
  induction u with
  | zero => intro p h; simp at h
  | succ u ih =>
    intro p hp
    rw [Finset.sum_range_succ] at hp
    by_cases h : p < ∑ q ∈ Finset.range u, cnt q
    · obtain ⟨jj, t, h1, h2, h3⟩ := ih p h
      exact ⟨jj, t, by omega, h2, h3⟩
    · exact ⟨u, p - ∑ q ∈ Finset.range u, cnt q, by omega, by omega, by omega⟩

end fw.blas


namespace fw.blas

theorem sum_row_count (MT : triangular_matrix_type) (nn : Nat) :
    ∑ q ∈ Finset.range nn, triangular_matrix.row_count MT nn q = (nn * (nn + 1)) / 2 := by
  cases MT
  · simp only [triangular_matrix.row_count]
    have := sum_rows_lower nn
    rw [Finset.sum_add_distrib]
    simp only [Finset.sum_const, Finset.card_range, smul_eq_mul, Nat.mul_one]
    exact this
  · simp only [triangular_matrix.row_count]
    have := sum_rows_upper nn nn (Nat.le_refl _)
    simp only [Nat.sub_self, Nat.zero_mul, Nat.zero_div, Nat.add_zero] at this
    exact this

theorem packed_values_length {α : Type} (MT : triangular_matrix_type) (data : Nat → α)
    (ld j nn : Nat) : (packed_values MT data ld j nn).length = (nn * (nn + 1)) / 2 := by
  unfold packed_values
  rw [flatMap_range_length, sum_row_count]

theorem foldl_pair_fst {γ : Type} (h : Nat → (Nat → γ) → (Nat → γ)) (k : Nat) :
    ∀ (u : Nat) (b : Nat → γ),
      (List.range u).foldl (fun (s : Nat × (Nat → γ)) jj => (s.1, h jj s.2)) (k, b)
        = (k, (List.range u).foldl (fun b jj => h jj b) b) := by
  intro u
  induction u with
  | zero => intro b; rfl
  | succ u ih =>
    intro b
    rw [List.range_succ, List.foldl_append, ih, List.foldl_append]
    rfl

/-- The body of `triangular_matrix::compress` writes the codec image of the
logical values of the block at `ptr`, whatever the scratch array held. -/
theorem triangular_matrix.tri_compress_block_snd {α β : Type} (F : fp α β)
    (MT : triangular_matrix_type) (data : Nat → α)
    (n ld bs j i ptr : Nat) (buffer : Nat → α) (stream : Nat → β) :
    (triangular_matrix.compress_block F MT data n ld bs j i ptr (buffer, stream)).2
      = blit stream ptr (F.compress (triangular_matrix.logical_values MT data n ld bs j i)) := by
  unfold triangular_matrix.compress_block fp.compress_at triangular_matrix.logical_values
  simp only
  have hout := fun (body : Nat → Nat × (Nat → α) → Nat × (Nat → α)) (st : Nat × (Nat → α)) =>
    forUp_one_eq_foldl body (min (n - j) bs) (min (n - j) bs) 0 st (by omega)
  simp only [Nat.sub_zero, Nat.zero_add] at hout
  rw [hout]
  by_cases hij : i = j
  · subst hij
    simp only [if_true]
    have hrow : ∀ (jj : Nat) (s : Nat × (Nat → α)),
        forUp (fun ii (s : Nat × (Nat → α)) =>
            (s.1 + 1, set_at s.2 s.1 (data ((i + jj) * ld + (i + ii)))))
          (if MT = triangular_matrix_type.upper then min (n - i) bs else jj + 1) 1
          (if MT = triangular_matrix_type.upper then min (n - i) bs else jj + 1)
          (if MT = triangular_matrix_type.upper then jj else 0) s
        = (List.range (triangular_matrix.row_count MT (min (n - i) bs) jj)).foldl
            (fun (s : Nat × (Nat → α)) t =>
              (s.1 + 1, set_at s.2 s.1
                (data ((i + jj) * ld + (i + triangular_matrix.column MT jj t))))) s := by
      intro jj s
      cases MT
      · simp only [reduceCtorEq, if_false, triangular_matrix.row_count,
          triangular_matrix.column]
        have := forUp_one_eq_foldl (fun ii (s : Nat × (Nat → α)) =>
            (s.1 + 1, set_at s.2 s.1 (data ((i + jj) * ld + (i + ii)))))
          (jj + 1) (jj + 1) 0 s (by omega)
        simpa using this
      · simp only [if_true, triangular_matrix.row_count, triangular_matrix.column]
        exact forUp_one_eq_foldl _ _ _ jj s (by omega)
    simp only [hrow]
    rw [foldl_pack (triangular_matrix.row_count MT (min (n - i) bs))
      (fun jj t => data ((i + jj) * ld + (i + triangular_matrix.column MT jj t)))]
    simp only
    have hlen := packed_values_length MT data ld i (min (n - i) bs)
    unfold packed_values at hlen ⊢
    rw [← hlen, slice_blit]
  · simp only [if_neg hij]
    have hin := fun (body : Nat → (Nat → α) → (Nat → α)) (st : Nat → α) =>
      forUp_one_eq_foldl body (min (n - i) bs) (min (n - i) bs) 0 st (by omega)
    simp only [Nat.sub_zero, Nat.zero_add] at hin
    simp only [hin]
    rw [foldl_pair_fst (fun jj b => (List.range (min (n - i) bs)).foldl
      (fun b ii => set_at b (jj * min (n - i) bs + ii) (data ((j + jj) * ld + (i + ii)))) b)]
    simp only
    rw [foldl_copy_rect (min (n - i) bs) (fun jj ii => data ((j + jj) * ld + (i + ii)))]
    unfold block_values
    rw [slice_zero_eq_map _
      (fun p => data ((j + p / (min (n - i) bs)) * ld + (i + p % (min (n - i) bs))))]
    intro p hp
    simp [hp]

end fw.blas


namespace fw.blas

/-! ## The cursor of the triangular traversals is `get_offset` -/

/-- Both orientations: the sum of the advances before the `t`-th block of
block row `bj` is `get_offset`, and no subtraction of `get_offset` wraps
around. -/
theorem triangular_matrix.sum_advance_eq_get_offset (MT : triangular_matrix_type)
    (A : geometry) (hbs : 0 < A.bs) (hn : 0 < A.n)
    (hC : MT = triangular_matrix_type.lower → (A.num_elements_c = 0 ↔ A.n % A.bs = 0))
    (bj t : Nat) (hbj : bj < num_blocks A.n A.bs)
    (ht : t < triangular_matrix.row_count MT (num_blocks A.n A.bs) bj) :
    ((∑ q ∈ Finset.range bj,
          ∑ d ∈ Finset.range (triangular_matrix.row_count MT (num_blocks A.n A.bs) q),
            triangular_matrix.advance MT A.n A.bs
              A.num_elements_a A.num_elements_b A.num_elements_c (q * A.bs)
              (triangular_matrix.column MT q d * A.bs))
        + ∑ d ∈ Finset.range t,
            triangular_matrix.advance MT A.n A.bs
              A.num_elements_a A.num_elements_b A.num_elements_c (bj * A.bs)
              (triangular_matrix.column MT bj d * A.bs)
      = triangular_matrix.get_offset A MT bj (triangular_matrix.column MT bj t))
    ∧ triangular_matrix.get_offset_checked A MT bj (triangular_matrix.column MT bj t)
      = some (triangular_matrix.get_offset A MT bj (triangular_matrix.column MT bj t)) := by
  cases MT
  · exact triangular_matrix.offset_lower A hbs hn (hC rfl) bj t hbj ht
  · exact triangular_matrix.offset_upper A hbs bj t hbj ht

/-- The block loops of `triangular_matrix::compress` visit the blocks of the
triangle row by row, each with the pointer at `get_offset`. -/
theorem triangular_matrix.tri_compress_loop_eq {σ : Type} (MT : triangular_matrix_type)
    (A : geometry) (hbs : 0 < A.bs) (hn : 0 < A.n)
    (hC : MT = triangular_matrix_type.lower → (A.num_elements_c = 0 ↔ A.n % A.bs = 0))
    (visit : Nat → Nat → Nat → σ → σ) (s : σ) :
    (triangular_matrix.compress_loop MT A.n A.bs
        A.num_elements_a A.num_elements_b A.num_elements_c visit (0, s)).2
      = (List.range (num_blocks A.n A.bs)).foldl (fun s bj =>
          (List.range (triangular_matrix.row_count MT (num_blocks A.n A.bs) bj)).foldl
            (fun s t => visit (bj * A.bs) (triangular_matrix.column MT bj t * A.bs)
              (triangular_matrix.get_offset A MT bj (triangular_matrix.column MT bj t)) s) s)
          s := by
  rw [triangular_matrix.tri_compress_loop_thread MT A.n A.bs _ _ _ hbs]
  apply List.foldl_ext
  intro s bj hbj
  apply List.foldl_ext
  intro s t ht
  rw [(triangular_matrix.sum_advance_eq_get_offset MT A hbs hn hC bj t
    (List.mem_range.1 hbj) (List.mem_range.1 ht)).1]

theorem triangular_matrix.members_border (f : Nat → Nat) (hf0 : f 0 = 0)
    (hfpos : ∀ k, 0 < k → 0 < f k) (n bs : Nat) (hbs : 0 < bs) :
    (triangular_matrix.members f n bs).num_elements_c = 0 ↔ n % bs = 0 := by
  have h := Nat.div_add_mod' n bs
  have e : n - n / bs * bs = n % bs := by omega
  simp only [triangular_matrix.members, e]
  constructor
  · intro h0
    by_contra hne
    have := hfpos (bs * (n % bs)) (Nat.mul_pos hbs (Nat.pos_of_ne_zero hne))
    omega
  · intro h0
    rw [h0, Nat.mul_zero, hf0]

/-- The blocks of the triangle: `(bj, bi)` is the `t`-th block of row `bj`
for exactly one `t`. -/
theorem triangular_matrix.column_surj (MT : triangular_matrix_type) (N bj bi : Nat)
    (h : (MT = triangular_matrix_type.upper ∧ bj ≤ bi ∧ bi < N)
      ∨ (MT = triangular_matrix_type.lower ∧ bi ≤ bj ∧ bj < N)) :
    ∃ t, t < triangular_matrix.row_count MT N bj ∧ triangular_matrix.column MT bj t = bi
      ∧ bj < N := by
  rcases h with ⟨rfl, h1, h2⟩ | ⟨rfl, h1, h2⟩
  · exact ⟨bi - bj, by simp only [triangular_matrix.row_count]; omega,
      by simp only [triangular_matrix.column]; omega, by omega⟩
  · exact ⟨bi, by simp only [triangular_matrix.row_count]; omega, rfl, h2⟩

theorem triangular_matrix.column_mem (MT : triangular_matrix_type) (N bj t : Nat)
    (hbj : bj < N) (ht : t < triangular_matrix.row_count MT N bj) :
    (MT = triangular_matrix_type.upper ∧ bj ≤ triangular_matrix.column MT bj t
        ∧ triangular_matrix.column MT bj t < N)
      ∨ (MT = triangular_matrix_type.lower ∧ triangular_matrix.column MT bj t ≤ bj
        ∧ bj < N) := by
  cases MT
  · right
    simp only [triangular_matrix.row_count] at ht
    exact ⟨rfl, by simp only [triangular_matrix.column]; omega, hbj⟩
  · left
    simp only [triangular_matrix.row_count] at ht
    exact ⟨rfl, by simp only [triangular_matrix.column]; omega,
      by simp only [triangular_matrix.column]; omega⟩

/-- The cursor values of `triangular_matrix::compress` in closed form. -/
theorem triangular_matrix.compress_trace_closed (MT : triangular_matrix_type)
    (A : geometry) (hbs : 0 < A.bs) (hn : 0 < A.n)
    (hC : MT = triangular_matrix_type.lower → (A.num_elements_c = 0 ↔ A.n % A.bs = 0)) :
    triangular_matrix.compress_trace MT A
      = (List.range (num_blocks A.n A.bs)).flatMap (fun bj =>
          (List.range (triangular_matrix.row_count MT (num_blocks A.n A.bs) bj)).map (fun t =>
            (bj * A.bs, triangular_matrix.column MT bj t * A.bs,
              triangular_matrix.get_offset A MT bj (triangular_matrix.column MT bj t)))) := by
  unfold triangular_matrix.compress_trace
  rw [triangular_matrix.tri_compress_loop_eq MT A hbs hn hC]
  rw [nested_foldl_append (fun bj t =>
    (bj * A.bs, triangular_matrix.column MT bj t * A.bs,
      triangular_matrix.get_offset A MT bj (triangular_matrix.column MT bj t)))]
  simp

theorem triangular_matrix.mem_compress_trace (MT : triangular_matrix_type)
    (A : geometry) (hbs : 0 < A.bs) (hn : 0 < A.n)
    (hC : MT = triangular_matrix_type.lower → (A.num_elements_c = 0 ↔ A.n % A.bs = 0))
    (bj bi p : Nat) :
    (bj * A.bs, bi * A.bs, p) ∈ triangular_matrix.compress_trace MT A
      ↔ ((MT = triangular_matrix_type.upper ∧ bj ≤ bi ∧ bi < num_blocks A.n A.bs)
          ∨ (MT = triangular_matrix_type.lower ∧ bi ≤ bj ∧ bj < num_blocks A.n A.bs))
        ∧ p = triangular_matrix.get_offset A MT bj bi := by
  rw [triangular_matrix.compress_trace_closed MT A hbs hn hC]
  simp only [List.mem_flatMap, List.mem_map, List.mem_range, Prod.mk.injEq]
  constructor
  · rintro ⟨r, hr, t, ht, h1, h2, h3⟩
    have e1 : r = bj := Nat.eq_of_mul_eq_mul_right hbs h1
    have e2 : triangular_matrix.column MT r t = bi := Nat.eq_of_mul_eq_mul_right hbs h2
    subst e1
    have := triangular_matrix.column_mem MT _ r t hr ht
    rw [e2] at this h3
    exact ⟨this, h3.symm⟩
  · rintro ⟨h1, h2⟩
    obtain ⟨t, ht, hcol, hbj⟩ := triangular_matrix.column_surj MT _ bj bi h1
    exact ⟨bj, hbj, t, ht, rfl, by rw [hcol], by rw [hcol, h2]⟩

end fw.blas


namespace fw.blas

/-! ## Claims on the full matrix -/

/-- C2, the code at the failing inputs: with `alpha = 0` and the transpose flag
set, a `1 x 2` matrix leaves `y[1]` of the output vector of length `2`
unscaled (`5` instead of `0 * 5`), and a `2 x 1` matrix zeroes the cell `y[1]`
behind the output vector of length `1`. -/
theorem matrix_vector_alpha_zero_transpose_scales_m :
    matrix.matrix_vector (fp.identity ℤ)
        (matrix.ctor (fp.identity ℤ) (some (fun _ => 1)) 1 2 2 1 (fun _ => 0) (fun _ => 0))
        true 0 0 0 2 (fun _ => 0) (fun _ => 5) (Ptr.mem (2 + 1)) = 5
    ∧ matrix.matrix_vector (fp.identity ℤ)
        (matrix.ctor (fp.identity ℤ) (some (fun _ => 1)) 2 1 1 1 (fun _ => 0) (fun _ => 0))
        true 0 0 0 2 (fun _ => 0) (fun _ => 5) (Ptr.mem (2 + 1)) = 0 := by
  constructor <;> decide

/-- C6, the code at the failing input: with `alpha = 0`, `beta = 0`, the
transpose flag set and `y = x`, a `1 x 2` matrix leaves `y[1]` of the output
vector of length `2` at its old value `5` instead of
`alpha * op(A) * x_prev + beta * y_prev = 0`. -/
theorem matrix_vector_aliased_alpha_zero_transpose :
    matrix.matrix_vector (fp.identity ℤ)
        (matrix.ctor (fp.identity ℤ) (some (fun _ => 1)) 1 2 2 1 (fun _ => 0) (fun _ => 0))
        true 0 0 0 0 (fun _ => 0) (fun _ => 5) (Ptr.mem (0 + 1)) = 5 := by
  decide

/-- C8: round trip for the full shape.  For `m, n ≥ 1`, `bs ≥ 1`, `ld ≥ n` and
a codec whose `compress` writes exactly `memory_footprint_elements k` stream
elements for `k` logical values: `matrix::matrix_vector` reaches every block
`(bj, bi)`, and at the cursor `k` with which it reaches the block the
decompressed scratch is `decompress (compress B)` for the row-major
`mm x nn` rectangle `B` of the source; with the identity codec the source
entry `(r, c)` is found at scratch position `(r mod bs) * nn + (c mod bs)` of
the block `(r / bs, c / bs)`. -/
theorem matrix_round_trip {α β : Type} (F : fp α β)
    (m n bs ld : Nat) (data : Nat → α)
    (hF : ∀ l, (F.compress l).length = F.memory_footprint_elements l.length)
    (hm : 1 ≤ m) (hn : 1 ≤ n) (hbs : 1 ≤ bs) (_hld : n ≤ ld) :
    (∀ (memory : Nat → β) (buffer : Nat → α) (bj bi : Nat), bj * bs < m → bi * bs < n →
      ∃ k, (bj * bs, bi * bs, k) ∈ matrix.matrix_vector_trace
        (matrix.ctor F (some data) m n ld bs memory buffer).togeometry)
    ∧ (∀ (memory : Nat → β) (buffer : Nat → α) (bj bi k : Nat),
        (bj * bs, bi * bs, k) ∈ matrix.matrix_vector_trace
          (matrix.ctor F (some data) m n ld bs memory buffer).togeometry →
        ∀ (B : List α), B.length = min (m - bj * bs) bs * min (n - bi * bs) bs →
          (∀ jj ii, jj < min (m - bj * bs) bs → ii < min (n - bi * bs) bs →
            B[jj * min (n - bi * bs) bs + ii]?
              = some (data ((bj * bs + jj) * ld + (bi * bs + ii)))) →
          ∀ (buffer_a : Nat → α),
            F.decompress_at buffer_a
                (matrix.ctor F (some data) m n ld bs memory buffer).compressed_data k
                (min (m - bj * bs) bs * min (n - bi * bs) bs)
              = blit buffer_a 0 (F.decompress (F.compress B)
                  (min (m - bj * bs) bs * min (n - bi * bs) bs)))
    ∧ (∀ (memory buffer : Nat → α) (r c k : Nat), r < m → c < n →
        (r / bs * bs, c / bs * bs, k) ∈ matrix.matrix_vector_trace
          (matrix.ctor (fp.identity α) (some data) m n ld bs memory buffer).togeometry →
        ∀ (buffer_a : Nat → α),
          (fp.identity α).decompress_at buffer_a
              (matrix.ctor (fp.identity α) (some data) m n ld bs memory buffer).compressed_data k
              (min (m - r / bs * bs) bs * min (n - c / bs * bs) bs)
              ((r % bs) * min (n - c / bs * bs) bs + c % bs)
            = data (r * ld + c)) := by
  have hmem : ∀ (G : fp α β) (memory : Nat → β) (buffer : Nat → α) (bj bi k : Nat),
      (bj * bs, bi * bs, k) ∈ matrix.matrix_vector_trace
          (matrix.ctor G (some data) m n ld bs memory buffer).togeometry
        ↔ bj * bs < m ∧ bi * bs < n
          ∧ k = matrix.block_offset m n bs
            (matrix.members G.memory_footprint_elements m n bs).num_elements_a
            (matrix.members G.memory_footprint_elements m n bs).num_elements_b
            (matrix.members G.memory_footprint_elements m n bs).num_elements_c bj bi :=
    fun G memory buffer bj bi k =>
      matrix.mem_matrix_vector_trace
        (matrix.ctor G (some data) m n ld bs memory buffer).togeometry hbs bj bi k
  have hmemid : ∀ (memory buffer : Nat → α) (bj bi k : Nat),
      (bj * bs, bi * bs, k) ∈ matrix.matrix_vector_trace
          (matrix.ctor (fp.identity α) (some data) m n ld bs memory buffer).togeometry
        ↔ bj * bs < m ∧ bi * bs < n
          ∧ k = matrix.block_offset m n bs
            (matrix.members (fun k => k) m n bs).num_elements_a
            (matrix.members (fun k => k) m n bs).num_elements_b
            (matrix.members (fun k => k) m n bs).num_elements_c bj bi :=
    fun memory buffer bj bi k =>
      matrix.mem_matrix_vector_trace
        (matrix.ctor (fp.identity α) (some data) m n ld bs memory buffer).togeometry hbs bj bi k
  refine ⟨?_, ?_, ?_⟩
  · intro memory buffer bj bi hbj hbi
    exact ⟨_, (hmem F memory buffer bj bi _).2 ⟨hbj, hbi, rfl⟩⟩
  · intro memory buffer bj bi k hk B hlen hB buffer_a
    obtain ⟨hbj, hbi, rfl⟩ := (hmem F memory buffer bj bi k).1 hk
    rw [eq_block_values data ld (bj * bs) (bi * bs) _ _ B hlen hB]
    unfold fp.decompress_at
    refine congrArg (fun l => blit buffer_a 0 (F.decompress l _)) ?_
    apply List.ext_getElem?
    intro p
    by_cases hp : p < F.memory_footprint_elements
        (min (m - bj * bs) bs * min (n - bi * bs) bs)
    · rw [slice_get _ _ _ _ hp]
      exact (matrix.ctor_stream F hF data m n ld bs hm hn hbs memory buffer bj bi p
        ((lt_num_blocks_iff _ _ _ hbs).2 hbj) ((lt_num_blocks_iff _ _ _ hbs).2 hbi) hp).symm
    · rw [List.getElem?_eq_none (by rw [slice_length]; omega),
        List.getElem?_eq_none (by rw [hF, block_values_length]; omega)]
  · intro memory buffer r c k hr hc hk buffer_a
    obtain ⟨hbj, hbi, rfl⟩ := (hmemid memory buffer (r / bs) (c / bs) k).1 hk
    have hr1 := Nat.div_add_mod' r bs
    have hc1 := Nat.div_add_mod' c bs
    have hr2 := Nat.mod_lt r hbs
    have hc2 := Nat.mod_lt c hbs
    have hjj : r % bs < min (m - r / bs * bs) bs := by omega
    have hii : c % bs < min (n - c / bs * bs) bs := by omega
    rw [identity_decompress_at _ _ _ _ _ (by
      calc r % bs * min (n - c / bs * bs) bs + c % bs
          < r % bs * min (n - c / bs * bs) bs + min (n - c / bs * bs) bs := by omega
        _ = (r % bs + 1) * min (n - c / bs * bs) bs := by ring
        _ ≤ min (m - r / bs * bs) bs * min (n - c / bs * bs) bs :=
          Nat.mul_le_mul_right _ hjj)]
    rw [matrix.ctor_entry data m n ld bs hm hn hbs memory buffer (r / bs) (c / bs)
      (r % bs) (c % bs) ((lt_num_blocks_iff _ _ _ hbs).2 hbj)
      ((lt_num_blocks_iff _ _ _ hbs).2 hbi) hjj hii, hr1, hc1]

/-- Witness of C8: the identity codec on a `3 x 5` source with `bs = 2`; the
corner block `(1, 2)` is reached by the kernel. -/
theorem matrix_round_trip_witness :
    ∃ k, (1 * 2, 2 * 2, k) ∈ matrix.matrix_vector_trace
      (matrix.ctor (fp.identity ℤ) (some (fun p => (p : ℤ))) 3 5 5 2
        (fun _ => 0) (fun _ => 0)).togeometry :=
  (matrix_round_trip (fp.identity ℤ) 3 5 2 5 (fun p => (p : ℤ)) (fun _ => rfl)
    (by decide) (by decide) (by decide) (by decide)).1 (fun _ => 0) (fun _ => 0) 1 2
    (by decide) (by decide)

end fw.blas


namespace fw.blas

/-! ## The stream written by `triangular_matrix::compress` -/

theorem triangular_matrix.logical_values_length {α : Type} (MT : triangular_matrix_type)
    (data : Nat → α) (n ld bs j i : Nat) :
    (triangular_matrix.logical_values MT data n ld bs j i).length
      = if i = j then (min (n - j) bs * (min (n - j) bs + 1)) / 2
        else min (n - j) bs * min (n - i) bs := by
  unfold triangular_matrix.logical_values
  split
  · exact packed_values_length MT data ld j _
  · exact block_values_length data ld j i _ _

/-- The size of each block of a triangular matrix other than the last one is
the advance of the pointer after it. -/
theorem triangular_matrix.tri_block_length_eq_advance (MT : triangular_matrix_type)
    (f : Nat → Nat) (n bs r c : Nat) (hbs : 0 < bs)
    (hr : r < num_blocks n bs)
    (hc : c < triangular_matrix.row_count MT (num_blocks n bs) r)
    (hnl : r + 1 < num_blocks n bs
      ∨ c + 1 < triangular_matrix.row_count MT (num_blocks n bs) r) :
    f (if triangular_matrix.column MT r c * bs = r * bs
        then (min (n - r * bs) bs * (min (n - r * bs) bs + 1)) / 2
        else min (n - r * bs) bs * min (n - triangular_matrix.column MT r c * bs) bs)
      = triangular_matrix.advance MT n bs
          (triangular_matrix.members f n bs).num_elements_a
          (triangular_matrix.members f n bs).num_elements_b
          (triangular_matrix.members f n bs).num_elements_c (r * bs)
          (triangular_matrix.column MT r c * bs) := by
  have hN := num_blocks_eq n bs hbs
  have hnm := Nat.div_add_mod' n bs
  have e : n - n / bs * bs = n % bs := by omega
  cases MT
  · -- lower
    simp only [triangular_matrix.row_count] at hc hnl
    rw [triangular_matrix.advance_lower_eq n bs _ _ _ r c hbs]
    simp only [triangular_matrix.column, triangular_matrix.members, e]
    by_cases hd : c = r
    · subst hd
      have hr' : c < n / bs := by split at hN <;> omega
      rw [if_pos rfl, if_pos rfl, min_block n bs c hbs hr']
    · have hne : ¬ c * bs = r * bs := fun h => hd (Nat.eq_of_mul_eq_mul_right hbs h)
      have hc' : c < n / bs := by split at hN <;> omega
      rw [if_neg hne, if_neg hd, min_block n bs c hbs hc']
      by_cases hr' : r < n / bs
      · rw [if_pos hr', min_block n bs r hbs hr']
      · have er : r = n / bs := by split at hN <;> omega
        rw [if_neg hr', er, min_border n bs hbs, Nat.mul_comm]
  · -- upper
    simp only [triangular_matrix.row_count] at hc hnl
    rw [triangular_matrix.advance_upper_eq n bs _ _ _ r c hbs]
    simp only [triangular_matrix.column, triangular_matrix.members, e]
    have hr' : r < n / bs := by split at hN <;> omega
    by_cases hd : c = 0
    · subst hd
      rw [if_pos (by simp), if_pos rfl, min_block n bs r hbs hr']
    · have hne : ¬ (r + c) * bs = r * bs := fun h => by
        have := Nat.eq_of_mul_eq_mul_right hbs h
        omega
      rw [if_neg hne, if_neg hd, min_block n bs r hbs hr']
      by_cases hc' : r + c < n / bs
      · rw [if_pos hc', min_block n bs (r + c) hbs hc']
      · have ec : r + c = n / bs := by split at hN <;> omega
        rw [if_neg hc', ec, min_border n bs hbs]

/-- After `triangular_matrix::compress` (through the constructor) the codec
image of every block of the triangle lies in the stream at `get_offset`. -/
theorem triangular_matrix.tri_ctor_stream {α β : Type} (F : fp α β)
    (hF : ∀ l, (F.compress l).length = F.memory_footprint_elements l.length)
    (hf0 : F.memory_footprint_elements 0 = 0)
    (hfpos : ∀ k, 0 < k → 0 < F.memory_footprint_elements k)
    (MT : triangular_matrix_type) (data : Nat → α) (n ld bs : Nat)
    (hn : 0 < n) (hbs : 0 < bs) (memory : Nat → β) (buffer : Nat → α) (bj t p : Nat)
    (hbj : bj < num_blocks n bs)
    (ht : t < triangular_matrix.row_count MT (num_blocks n bs) bj)
    (hp : p < (F.compress (triangular_matrix.logical_values MT data n ld bs (bj * bs)
      (triangular_matrix.column MT bj t * bs))).length) :
    (F.compress (triangular_matrix.logical_values MT data n ld bs (bj * bs)
        (triangular_matrix.column MT bj t * bs)))[p]?
      = some ((triangular_matrix.ctor F MT (some data) n ld bs memory buffer).compressed_data
          (triangular_matrix.get_offset
            (triangular_matrix.members F.memory_footprint_elements n bs) MT bj
            (triangular_matrix.column MT bj t) + p)) := by
  have hn0 : ¬ (n = 0) := by omega
  have hC := triangular_matrix.members_border F.memory_footprint_elements hf0 hfpos n bs hbs
  simp only [triangular_matrix.ctor, triangular_matrix.compress, if_neg hn0, Option.getD_some]
  rw [triangular_matrix.tri_compress_loop_thread MT n bs _ _ _ hbs]
  simp only
  rw [nested_foldl_snd
    (fun r c => triangular_matrix.compress_block F MT data n ld bs (r * bs)
      (triangular_matrix.column MT r c * bs) _)
    (fun r c y => blit y _ (F.compress (triangular_matrix.logical_values MT data n ld bs
      (r * bs) (triangular_matrix.column MT r c * bs))))
    (fun r c x y => triangular_matrix.tri_compress_block_snd F MT data n ld bs (r * bs)
      (triangular_matrix.column MT r c * bs) _ x y)]
  rw [← (triangular_matrix.sum_advance_eq_get_offset MT
    (triangular_matrix.members F.memory_footprint_elements n bs) hbs hn (fun _ => hC)
    bj t hbj ht).1]
  refine nested_blit (num_blocks n bs) (triangular_matrix.row_count MT (num_blocks n bs)) _
    (fun r c => F.compress (triangular_matrix.logical_values MT data n ld bs (r * bs)
      (triangular_matrix.column MT r c * bs))) ?_ memory (num_blocks n bs)
    (Nat.le_refl _) bj t p hbj ht hp
  intro r c hr hc hnl
  rw [hF, triangular_matrix.logical_values_length]
  exact Nat.le_of_eq
    (triangular_matrix.tri_block_length_eq_advance MT F.memory_footprint_elements n bs r c
      hbs hr hc hnl)

end fw.blas


namespace fw.blas

/-! ## Entries of the stream of a triangular matrix, identity codec -/

theorem half_succ_pred (jj : Nat) :
    ((jj + 1) * (jj + 1 - 1)) / 2 = (jj * (jj - 1)) / 2 + jj := by
  rcases Nat.eq_zero_or_pos jj with h0 | hpos
  · subst h0; simp
  · obtain ⟨k, rfl⟩ : ∃ k, jj = k + 1 := ⟨jj - 1, by omega⟩
    have e : (k + 1 + 1) * (k + 1 + 1 - 1) = (k + 1) * (k + 1 + 1) := by
      rw [Nat.add_sub_cancel, Nat.mul_comm]
    have e2 : (k + 1) * (k + 1 - 1) = k * (k + 1) := by
      rw [Nat.add_sub_cancel, Nat.mul_comm]
    rw [e, e2, triangle_succ]

theorem sum_packed_upper (nn : Nat) :
    ∀ jj, jj ≤ nn → ∑ q ∈ Finset.range jj, (nn - q) + (jj * (jj - 1)) / 2 = jj * nn := by
  intro jj
  induction jj with
  | zero => intro _; simp
  | succ jj ih =>
    intro h
    have h1 := ih (by omega)
    have e4 : (jj + 1) * nn = jj * nn + nn := by ring
    rw [Finset.sum_range_succ, half_succ_pred, e4]
    omega

/-- The position of the `t`-th entry of row `jj` in the row-by-row listing of
the triangle is the packed index. -/
theorem packed_index_eq (MT : triangular_matrix_type) (nn jj t : Nat) (hjj : jj < nn) :
    (∑ q ∈ Finset.range jj, triangular_matrix.row_count MT nn q) + t
      = packed_index MT nn jj (triangular_matrix.column MT jj t) := by
  cases MT
  · simp only [triangular_matrix.row_count, triangular_matrix.column, packed_index]
    have := sum_rows_lower jj
    rw [Finset.sum_add_distrib]
    simp only [Finset.sum_const, Finset.card_range, smul_eq_mul, Nat.mul_one]
    omega
  · simp only [triangular_matrix.row_count, triangular_matrix.column, packed_index]
    have := sum_packed_upper nn jj (by omega)
    omega

theorem packed_index_lt (MT : triangular_matrix_type) (nn jj t : Nat) (hjj : jj < nn)
    (ht : t < triangular_matrix.row_count MT nn jj) :
    packed_index MT nn jj (triangular_matrix.column MT jj t) < (nn * (nn + 1)) / 2 := by
  rw [← packed_index_eq MT nn jj t hjj, ← sum_row_count MT nn]
  have := sum_range_succ_le (triangular_matrix.row_count MT nn) hjj
  omega

theorem packed_values_get {α : Type} (MT : triangular_matrix_type) (data : Nat → α)
    (ld j nn jj t : Nat) (hjj : jj < nn) (ht : t < triangular_matrix.row_count MT nn jj) :
    (packed_values MT data ld j nn)[packed_index MT nn jj (triangular_matrix.column MT jj t)]?
      = some (data ((j + jj) * ld + (j + triangular_matrix.column MT jj t))) := by
  rw [← packed_index_eq MT nn jj t hjj]
  exact flatMap_range_get (triangular_matrix.row_count MT nn)
    (fun jj t => data ((j + jj) * ld + (j + triangular_matrix.column MT jj t))) nn jj t hjj ht

/-- Identity codec: the entry `(jj, ii)` of the triangle of the diagonal block
`bj` is in the stream at `get_offset bj bj` plus its packed index. -/
theorem triangular_matrix.ctor_entry_diagonal {α : Type} (MT : triangular_matrix_type)
    (data : Nat → α) (n ld bs : Nat) (hn : 0 < n) (hbs : 0 < bs)
    (memory buffer : Nat → α) (bj jj t : Nat) (hbj : bj < num_blocks n bs)
    (hjj : jj < min (n - bj * bs) bs)
    (ht : t < triangular_matrix.row_count MT (min (n - bj * bs) bs) jj) :
    (triangular_matrix.ctor (fp.identity α) MT (some data) n ld bs memory buffer).compressed_data
        (triangular_matrix.get_offset (triangular_matrix.members (fun k => k) n bs) MT bj bj
          + packed_index MT (min (n - bj * bs) bs) jj (triangular_matrix.column MT jj t))
      = data ((bj * bs + jj) * ld + (bj * bs + triangular_matrix.column MT jj t)) := by
  have hrow : 0 < triangular_matrix.row_count MT (num_blocks n bs) bj := by
    cases MT <;> simp only [triangular_matrix.row_count] <;> omega
  have hcol : ∃ t0, t0 < triangular_matrix.row_count MT (num_blocks n bs) bj
      ∧ triangular_matrix.column MT bj t0 = bj := by
    cases MT
    · exact ⟨bj, by simp only [triangular_matrix.row_count]; omega, rfl⟩
    · exact ⟨0, hrow, rfl⟩
  obtain ⟨t0, ht0, hc0⟩ := hcol
  have hlv : triangular_matrix.logical_values MT data n ld bs (bj * bs)
      (triangular_matrix.column MT bj t0 * bs)
      = packed_values MT data ld (bj * bs) (min (n - bj * bs) bs) := by
    rw [hc0]
    unfold triangular_matrix.logical_values
    rw [if_pos rfl]
  have hlt := packed_index_lt MT (min (n - bj * bs) bs) jj t hjj ht
  have h := triangular_matrix.tri_ctor_stream (fp.identity α) (fun _ => rfl) rfl
    (fun k hk => hk) MT data n ld bs hn hbs memory buffer bj t0
    (packed_index MT (min (n - bj * bs) bs) jj (triangular_matrix.column MT jj t)) hbj ht0
    (by
      rw [hlv]
      simp only [fp.identity]
      rw [packed_values_length]
      exact hlt)
  rw [hlv, hc0] at h
  simp only [fp.identity] at h
  rw [packed_values_get MT data ld (bj * bs) _ jj t hjj ht] at h
  exact (Option.some.inj h).symm

/-- Identity codec: the entry `(jj, ii)` of a non-diagonal block `(bj, bi)` of
the triangle is in the stream at `get_offset bj bi + jj * nn + ii`. -/
theorem triangular_matrix.ctor_entry_rectangle {α : Type} (MT : triangular_matrix_type)
    (data : Nat → α) (n ld bs : Nat) (hn : 0 < n) (hbs : 0 < bs)
    (memory buffer : Nat → α) (bj bi jj ii : Nat)
    (htri : (MT = triangular_matrix_type.upper ∧ bj < bi ∧ bi < num_blocks n bs)
      ∨ (MT = triangular_matrix_type.lower ∧ bi < bj ∧ bj < num_blocks n bs))
    (hjj : jj < min (n - bj * bs) bs) (hii : ii < min (n - bi * bs) bs) :
    (triangular_matrix.ctor (fp.identity α) MT (some data) n ld bs memory buffer).compressed_data
        (triangular_matrix.get_offset (triangular_matrix.members (fun k => k) n bs) MT bj bi
          + (jj * min (n - bi * bs) bs + ii))
      = data ((bj * bs + jj) * ld + (bi * bs + ii)) := by
  obtain ⟨t0, ht0, hc0, hbj⟩ := triangular_matrix.column_surj MT (num_blocks n bs) bj bi (by
    rcases htri with ⟨h1, h2, h3⟩ | ⟨h1, h2, h3⟩
    · exact Or.inl ⟨h1, by omega, h3⟩
    · exact Or.inr ⟨h1, by omega, h3⟩)
  have hne : ¬ bi * bs = bj * bs := by
    intro h
    have := Nat.eq_of_mul_eq_mul_right hbs h
    rcases htri with ⟨_, h2, _⟩ | ⟨_, h2, _⟩ <;> omega
  have hlv : triangular_matrix.logical_values MT data n ld bs (bj * bs)
      (triangular_matrix.column MT bj t0 * bs)
      = block_values data ld (bj * bs) (bi * bs) (min (n - bj * bs) bs)
          (min (n - bi * bs) bs) := by
    rw [hc0]
    unfold triangular_matrix.logical_values
    rw [if_neg hne]
  have hlt : jj * min (n - bi * bs) bs + ii
      < min (n - bj * bs) bs * min (n - bi * bs) bs := by
    calc jj * min (n - bi * bs) bs + ii < jj * min (n - bi * bs) bs + min (n - bi * bs) bs := by
          omega
      _ = (jj + 1) * min (n - bi * bs) bs := by ring
      _ ≤ min (n - bj * bs) bs * min (n - bi * bs) bs := Nat.mul_le_mul_right _ hjj
  have h := triangular_matrix.tri_ctor_stream (fp.identity α) (fun _ => rfl) rfl
    (fun k hk => hk) MT data n ld bs hn hbs memory buffer bj t0
    (jj * min (n - bi * bs) bs + ii) hbj ht0
    (by
      rw [hlv]
      simp only [fp.identity]
      rw [block_values_length]
      exact hlt)
  rw [hlv, hc0] at h
  simp only [fp.identity] at h
  rw [block_values_get data ld (bj * bs) (bi * bs) _ _ jj ii hjj hii] at h
  exact (Option.some.inj h).symm

end fw.blas


namespace fw.blas

/-! ## Sums over the blocks of a triangle -/

section sums
variable {α : Type} [CommRing α]

end sums

end fw.blas


namespace fw.blas

/-! ## Steps of the triangular kernels -/

section steps
variable {α : Type} [CommRing α]

end steps

end fw.blas


namespace fw.blas

/-! ## Entries of the decompressed blocks of a triangular matrix -/

section entries
variable {α : Type} [CommRing α]

end entries

end fw.blas


namespace fw.blas

/-! ## The block sweep over a triangle, on values -/

section sweep
variable {α : Type} [CommRing α]

end sweep

end fw.blas


namespace fw.blas

/-! ## The steps of `triangular_matrix::matrix_vector` on memory -/

section steps
variable {α : Type} [CommRing α]

end steps

end fw.blas


namespace fw.blas

/-! ## The kernel of `triangular_matrix::matrix_vector` -/

section trikernel
variable {α : Type} [CommRing α]

end trikernel

end fw.blas


namespace fw.blas

/-! ## Claims on the layout of the triangular matrix -/

/-- C9: round trip for the triangular shape with the identity codec.  For
`n ≥ 1`, `bs ≥ 1`, `ld ≥ n` and both orientations, after
`triangular_matrix::compress` every source entry `(r, c)` of the triangle is
in the stream at `get_offset(MT, r / bs, c / bs) + p`: for a non-diagonal
block `p = (r mod bs) * nn + (c mod bs)` with `nn = min(n - (c / bs) * bs, bs)`,
for a diagonal block `p` is the row-major packed index of the local
coordinates; the packed indices of a diagonal block of edge `nn` are exactly
the numbers below `nn * (nn + 1) / 2`. -/
theorem triangular_round_trip {α : Type} (MT : triangular_matrix_type)
    (n bs ld : Nat) (data memory buffer : Nat → α)
    (hn : 1 ≤ n) (hbs : 1 ≤ bs) (_hld : n ≤ ld) :
    (∀ r c, r < n → c < n →
        ((MT = triangular_matrix_type.upper ∧ r ≤ c)
          ∨ (MT = triangular_matrix_type.lower ∧ c ≤ r)) →
        r / bs ≠ c / bs →
        (triangular_matrix.ctor (fp.identity α) MT (some data) n ld bs memory
            buffer).compressed_data
          (triangular_matrix.get_offset
              (triangular_matrix.ctor (fp.identity α) MT (some data) n ld bs memory
                buffer).togeometry MT (r / bs) (c / bs)
            + ((r % bs) * min (n - (c / bs) * bs) bs + c % bs))
          = data (r * ld + c))
    ∧ (∀ r c, r < n → c < n →
        ((MT = triangular_matrix_type.upper ∧ r ≤ c)
          ∨ (MT = triangular_matrix_type.lower ∧ c ≤ r)) →
        r / bs = c / bs →
        (triangular_matrix.ctor (fp.identity α) MT (some data) n ld bs memory
            buffer).compressed_data
          (triangular_matrix.get_offset
              (triangular_matrix.ctor (fp.identity α) MT (some data) n ld bs memory
                buffer).togeometry MT (r / bs) (c / bs)
            + packed_index MT (min (n - (c / bs) * bs) bs) (r % bs) (c % bs))
          = data (r * ld + c))
    ∧ (∀ b, b * bs < n →
        (∀ jj ii,
          ((MT = triangular_matrix_type.upper ∧ jj ≤ ii ∧ ii < min (n - b * bs) bs)
            ∨ (MT = triangular_matrix_type.lower ∧ ii ≤ jj ∧ jj < min (n - b * bs) bs)) →
          packed_index MT (min (n - b * bs) bs) jj ii
            < (min (n - b * bs) bs * (min (n - b * bs) bs + 1)) / 2)
        ∧ (∀ p, p < (min (n - b * bs) bs * (min (n - b * bs) bs + 1)) / 2 →
          ∃ jj ii,
            ((MT = triangular_matrix_type.upper ∧ jj ≤ ii ∧ ii < min (n - b * bs) bs)
              ∨ (MT = triangular_matrix_type.lower ∧ ii ≤ jj ∧ jj < min (n - b * bs) bs))
            ∧ packed_index MT (min (n - b * bs) bs) jj ii = p)) := by
  have hloc : ∀ nn jj ii,
      ((MT = triangular_matrix_type.upper ∧ jj ≤ ii ∧ ii < nn)
        ∨ (MT = triangular_matrix_type.lower ∧ ii ≤ jj ∧ jj < nn)) →
      ∃ t, jj < nn ∧ t < triangular_matrix.row_count MT nn jj
        ∧ triangular_matrix.column MT jj t = ii := by
    intro nn jj ii h
    obtain ⟨t, h1, h2, h3⟩ := triangular_matrix.column_surj MT nn jj ii h
    exact ⟨t, h3, h1, h2⟩
  refine ⟨?_, ?_, ?_⟩
  · intro r c hr hc htri hne
    have hr1 := Nat.div_add_mod' r bs
    have hc1 := Nat.div_add_mod' c bs
    have hr2 := Nat.mod_lt r hbs
    have hc2 := Nat.mod_lt c hbs
    have hrb : r / bs < num_blocks n bs := (lt_num_blocks_iff _ _ _ hbs).2 (by omega)
    have hcb : c / bs < num_blocks n bs := (lt_num_blocks_iff _ _ _ hbs).2 (by omega)
    have h := triangular_matrix.ctor_entry_rectangle MT data n ld bs hn hbs memory buffer
      (r / bs) (c / bs) (r % bs) (c % bs) (by
        rcases htri with ⟨h1, h2⟩ | ⟨h1, h2⟩
        · have := Nat.div_le_div_right (c := bs) h2
          exact Or.inl ⟨h1, by omega, hcb⟩
        · have := Nat.div_le_div_right (c := bs) h2
          exact Or.inr ⟨h1, by omega, hrb⟩) (by omega) (by omega)
    rw [hr1, hc1] at h
    exact h
  · intro r c hr hc htri heq
    have hr1 := Nat.div_add_mod' r bs
    have hc1 := Nat.div_add_mod' c bs
    have hr2 := Nat.mod_lt r hbs
    have hc2 := Nat.mod_lt c hbs
    have hcb : c / bs < num_blocks n bs := (lt_num_blocks_iff _ _ _ hbs).2 (by omega)
    have hmul : r / bs * bs = c / bs * bs := by rw [heq]
    obtain ⟨t, hjj, ht, hcol⟩ := hloc (min (n - (c / bs) * bs) bs) (r % bs) (c % bs) (by
      rcases htri with ⟨h1, h2⟩ | ⟨h1, h2⟩
      · exact Or.inl ⟨h1, by omega, by omega⟩
      · exact Or.inr ⟨h1, by omega, by omega⟩)
    have h := triangular_matrix.ctor_entry_diagonal MT data n ld bs hn hbs memory buffer
      (c / bs) (r % bs) t hcb hjj ht
    rw [hcol, hc1, ← heq, hr1] at h
    rw [← h, heq]
    rfl
  · intro b hb
    constructor
    · intro jj ii h
      obtain ⟨t, hjj, ht, hcol⟩ := hloc _ jj ii h
      rw [← hcol]
      exact packed_index_lt MT _ jj t hjj ht
    · intro p hp
      rw [← sum_row_count MT] at hp
      obtain ⟨jj, t, hjj, ht, rfl⟩ := flatMap_range_surj _ _ p hp
      exact ⟨jj, triangular_matrix.column MT jj t,
        triangular_matrix.column_mem MT _ jj t hjj ht |>.imp
          (fun h => ⟨h.1, h.2.1, h.2.2⟩) (fun h => ⟨h.1, h.2.1, h.2.2⟩),
        (packed_index_eq MT _ jj t hjj).symm⟩

/-- Witness of C9: the entry `(1, 4)` of a `5 x 5` upper triangular source with
`bs = 2` lies in the border block `(0, 2)` of edge `1`. -/
theorem triangular_round_trip_witness :
    (triangular_matrix.ctor (fp.identity ℤ) triangular_matrix_type.upper
        (some (fun p => (p : ℤ))) 5 5 2 (fun _ => 0) (fun _ => 0)).compressed_data
      (triangular_matrix.get_offset
          (triangular_matrix.ctor (fp.identity ℤ) triangular_matrix_type.upper
            (some (fun p => (p : ℤ))) 5 5 2 (fun _ => 0) (fun _ => 0)).togeometry
          triangular_matrix_type.upper (1 / 2) (4 / 2)
        + ((1 % 2) * min (5 - (4 / 2) * 2) 2 + 4 % 2))
      = ((1 * 5 + 4 : Nat) : ℤ) :=
  (triangular_round_trip triangular_matrix_type.upper 5 2 5 (fun p => (p : ℤ))
    (fun _ => 0) (fun _ => 0) (by decide) (by decide) (by decide)).1 1 4
    (by decide) (by decide) (Or.inl ⟨rfl, by decide⟩) (by decide)

/-- C10: offset consistency for the triangular shape.  For `n ≥ 1`, `bs ≥ 1`,
a footprint function `f` with `f 0 = 0` and `f k > 0` for `k > 0`, both
orientations and every block `(bj, bi)` of the triangle, no subtraction of
`get_offset(MT, bj, bi)` wraps around and its value is the running pointer with
which `triangular_matrix::compress` writes the block `(bj, bi)`. -/
theorem get_offset_consistent (f : Nat → Nat) (MT : triangular_matrix_type)
    (n bs bj bi : Nat) (hf0 : f 0 = 0) (hfpos : ∀ k, 0 < k → 0 < f k)
    (hn : 1 ≤ n) (hbs : 1 ≤ bs)
    (htri : (MT = triangular_matrix_type.upper ∧ bj ≤ bi ∧ bi < (n + bs - 1) / bs)
      ∨ (MT = triangular_matrix_type.lower ∧ bi ≤ bj ∧ bj < (n + bs - 1) / bs)) :
    triangular_matrix.get_offset_checked (triangular_matrix.members f n bs) MT bj bi
        = some (triangular_matrix.get_offset (triangular_matrix.members f n bs) MT bj bi)
    ∧ (bj * bs, bi * bs,
        triangular_matrix.get_offset (triangular_matrix.members f n bs) MT bj bi)
        ∈ triangular_matrix.compress_trace MT (triangular_matrix.members f n bs)
    ∧ (∀ p, (bj * bs, bi * bs, p)
          ∈ triangular_matrix.compress_trace MT (triangular_matrix.members f n bs) →
        p = triangular_matrix.get_offset (triangular_matrix.members f n bs) MT bj bi) := by
  have hC := triangular_matrix.members_border f hf0 hfpos n bs hbs
  have hmem := triangular_matrix.mem_compress_trace MT (triangular_matrix.members f n bs)
    hbs hn (fun _ => hC) bj bi
  obtain ⟨t, ht, hcol, hbj⟩ := triangular_matrix.column_surj MT (num_blocks n bs) bj bi htri
  have hoff := (triangular_matrix.sum_advance_eq_get_offset MT
    (triangular_matrix.members f n bs) hbs hn (fun _ => hC) bj t hbj ht).2
  rw [hcol] at hoff
  exact ⟨hoff, (hmem _).2 ⟨htri, rfl⟩, fun p hp => ((hmem p).1 hp).2⟩

/-- Witness of C10: the border block `(1, 2)` of an upper triangular matrix of
order `5` with `bs = 2` and the identity footprint. -/
theorem get_offset_consistent_witness :
    triangular_matrix.get_offset_checked (triangular_matrix.members (fun k => k) 5 2)
        triangular_matrix_type.upper 1 2
      = some 12 :=
  (get_offset_consistent (fun k => k) triangular_matrix_type.upper 5 2 1 2 rfl
    (fun _ h => h) (by decide) (by decide) (Or.inl ⟨rfl, by decide, by decide⟩)).1.trans
    (by decide)

end fw.blas


namespace fw.blas

section trimv
variable {α : Type} [CommRing α]

end trimv

end fw.blas


namespace fw.blas

section trimvtop
variable {α : Type} [CommRing α] [DecidableEq α]

end trimvtop

end fw.blas


namespace fw.blas

/-! ## The steps of `triangular_matrix::symmetric_matrix_vector` -/

section symsteps
variable {α : Type} [CommRing α]

end symsteps

end fw.blas


namespace fw.blas

/-! ## The kernel of `triangular_matrix::symmetric_matrix_vector` -/

section symkernel
variable {α : Type} [CommRing α]

end symkernel

end fw.blas


namespace fw.blas

section symtop
variable {α : Type} [CommRing α] [DecidableEq α]

end symtop

end fw.blas


namespace fw.blas

/-! ## Triangular systems: substitution and uniqueness -/

section substitution
variable {α : Type} [Field α]

end substitution

end fw.blas


namespace fw.blas

/-! ## `tpsv` on a packed triangle -/

section tpsvspec
variable {α : Type} [Field α]

end tpsvspec

end fw.blas


namespace fw.blas

/-! ## The block sweeps of `solve` on values -/

section sweepsolve
variable {α : Type} [Field α]

end sweepsolve

end fw.blas


namespace fw.blas

section sweepinv
variable {α : Type} [Field α]

end sweepinv

end fw.blas


namespace fw.blas

/-! ## The kernel of `triangular_matrix::solve` on memory -/

section solvesteps
variable {α : Type} [Field α]

end solvesteps

end fw.blas


namespace fw.blas

section solveouter
variable {α : Type} [Field α]

end solveouter

end fw.blas


namespace fw.blas

section solvekernel
variable {α : Type} [Field α]

end solvekernel

end fw.blas


namespace fw.blas

section solvecongr
variable {α : Type} [Field α]

end solvecongr

section solvetop
variable {α : Type} [Field α] [DecidableEq α]

end solvetop

end fw.blas


namespace fw.blas

/-! ## Footprints of the full shape -/

theorem sub_div_mul_eq_mod (n bs : Nat) : n - (n / bs) * bs = n % bs := by
  have := Nat.div_add_mod' n bs
  omega

theorem ceil_sub_floor (n bs : Nat) (hbs : 0 < bs) :
    (n + bs - 1) / bs - n / bs = if n % bs = 0 then 0 else 1 := by
  have h := num_blocks_eq n bs hbs
  unfold num_blocks at h
  rw [h]
  split <;> omega

/-- The block counts and block sizes of the constructor of `matrix`, with the
remainders `n % bs` and `m % bs` for the border extents. -/
theorem matrix.members_num_elements (f : Nat → Nat) (m n bs : Nat) (hbs : 0 < bs) :
    (matrix.members f m n bs).num_elements
      = (m / bs) * (n / bs) * f (bs * bs)
        + (m / bs) * (if n % bs = 0 then 0 else 1) * f (bs * (n % bs))
        + (if m % bs = 0 then 0 else 1) * (n / bs) * f ((m % bs) * bs)
        + (if m % bs = 0 then 0 else 1) * (if n % bs = 0 then 0 else 1)
          * f ((m % bs) * (n % bs)) := by
  simp only [matrix.members, sub_div_mul_eq_mod, ceil_sub_floor _ bs hbs]

/-- Without a zero-extent guard the sum of the constructor is already zero
when an extent is zero. -/
theorem matrix.members_num_elements_zero (f : Nat → Nat) (m n bs : Nat) (hbs : 0 < bs)
    (h : m = 0 ∨ n = 0) : (matrix.members f m n bs).num_elements = 0 := by
  rw [matrix.members_num_elements f m n bs hbs]
  rcases h with rfl | rfl <;> simp

theorem matrix.memory_footprint_elements_eq (f : Nat → Nat) (m n bs : Nat) (hbs : 0 < bs) :
    matrix.memory_footprint_elements f m n bs = (matrix.members f m n bs).num_elements := by
  unfold matrix.memory_footprint_elements
  by_cases h : m = 0 ∨ n = 0
  · rw [if_pos h, matrix.members_num_elements_zero f m n bs hbs h]
  · rw [if_neg h]
    rfl

/-- In exact arithmetic, with the identity footprint
`memory_footprint_elements(k) = k`, the static
`matrix::memory_footprint_elements` is `m * n` for all `m`, `n` and `bs ≥ 1`. -/
theorem matrix.memory_footprint_elements_identity (m n bs : Nat) (hbs : 1 ≤ bs) :
    matrix.memory_footprint_elements (fun k => k) m n bs = m * n := by
  rw [matrix.memory_footprint_elements_eq _ m n bs hbs,
    matrix.members_num_elements _ m n bs hbs]
  have hm := Nat.div_add_mod' m bs
  have hn := Nat.div_add_mod' n bs
  have e1 : (if n % bs = 0 then 0 else 1) * (n % bs) = n % bs := by
    split
    · rename_i h; rw [h]
    · rw [Nat.one_mul]
  have e2 : (if m % bs = 0 then 0 else 1) * (m % bs) = m % bs := by
    split
    · rename_i h; rw [h]
    · rw [Nat.one_mul]
  have t2 : (m / bs) * (if n % bs = 0 then 0 else 1) * (bs * (n % bs))
      = (m / bs) * bs * (n % bs) := by
    calc (m / bs) * (if n % bs = 0 then 0 else 1) * (bs * (n % bs))
        = (m / bs) * bs * ((if n % bs = 0 then 0 else 1) * (n % bs)) := by ring
      _ = (m / bs) * bs * (n % bs) := by rw [e1]
  have t3 : (if m % bs = 0 then 0 else 1) * (n / bs) * ((m % bs) * bs)
      = (m % bs) * ((n / bs) * bs) := by
    calc (if m % bs = 0 then 0 else 1) * (n / bs) * ((m % bs) * bs)
        = ((if m % bs = 0 then 0 else 1) * (m % bs)) * ((n / bs) * bs) := by ring
      _ = (m % bs) * ((n / bs) * bs) := by rw [e2]
  have t4 : (if m % bs = 0 then 0 else 1) * (if n % bs = 0 then 0 else 1)
        * ((m % bs) * (n % bs))
      = (m % bs) * (n % bs) := by
    calc (if m % bs = 0 then 0 else 1) * (if n % bs = 0 then 0 else 1)
          * ((m % bs) * (n % bs))
        = ((if m % bs = 0 then 0 else 1) * (m % bs))
          * ((if n % bs = 0 then 0 else 1) * (n % bs)) := by ring
      _ = (m % bs) * (n % bs) := by rw [e1, e2]
  rw [t2, t3, t4]
  calc m / bs * (n / bs) * (bs * bs) + m / bs * bs * (n % bs) + m % bs * (n / bs * bs)
        + m % bs * (n % bs)
      = (m / bs * bs + m % bs) * (n / bs * bs + n % bs) := by ring
    _ = m * n := by rw [hm, hn]

/-- In exact arithmetic, for `m, n ≥ 1` and `bs ≥ 1`: the right-border count
`num_blocks_b` of a full matrix is zero if and only if `n` is a multiple of
`bs` or `m < bs`, and the bottom-border count `num_blocks_c` is zero if and
only if `m` is a multiple of `bs` or `n < bs`. -/
theorem matrix.num_blocks_border_zero_iff (f : Nat → Nat) (m n bs : Nat)
    (_hm : 1 ≤ m) (_hn : 1 ≤ n) (hbs : 1 ≤ bs) :
    ((matrix.members f m n bs).num_blocks_b = 0 ↔ (n % bs = 0 ∨ m < bs))
    ∧ ((matrix.members f m n bs).num_blocks_c = 0 ↔ (m % bs = 0 ∨ n < bs))
    ∧ (bs ≤ m → ((matrix.members f m n bs).num_blocks_b = 0 ↔ n % bs = 0))
    ∧ (bs ≤ n → ((matrix.members f m n bs).num_blocks_c = 0 ↔ m % bs = 0)) := by
  have hb : (matrix.members f m n bs).num_blocks_b
      = (m / bs) * (if n % bs = 0 then 0 else 1) := by
    simp only [matrix.members, ceil_sub_floor _ bs hbs]
  have hc : (matrix.members f m n bs).num_blocks_c
      = (if m % bs = 0 then 0 else 1) * (n / bs) := by
    simp only [matrix.members, ceil_sub_floor _ bs hbs]
  have hdm : m / bs = 0 ↔ m < bs := Nat.div_eq_zero_iff hbs
  have hdn : n / bs = 0 ↔ n < bs := Nat.div_eq_zero_iff hbs
  have h1 : (matrix.members f m n bs).num_blocks_b = 0 ↔ (n % bs = 0 ∨ m < bs) := by
    rw [hb, Nat.mul_eq_zero, hdm]
    constructor
    · rintro (h | h)
      · exact Or.inr h
      · left
        by_contra hne
        rw [if_neg hne] at h
        exact absurd h (by decide)
    · rintro (h | h)
      · exact Or.inr (if_pos h)
      · exact Or.inl h
  have h2 : (matrix.members f m n bs).num_blocks_c = 0 ↔ (m % bs = 0 ∨ n < bs) := by
    rw [hc, Nat.mul_eq_zero, hdn]
    constructor
    · rintro (h | h)
      · left
        by_contra hne
        rw [if_neg hne] at h
        exact absurd h (by decide)
      · exact Or.inr h
    · rintro (h | h)
      · exact Or.inl (if_pos h)
      · exact Or.inr h
  refine ⟨h1, h2, ?_, ?_⟩
  · intro hle
    rw [h1]
    constructor
    · rintro (h | h)
      · exact h
      · omega
    · exact Or.inl
  · intro hle
    rw [h2]
    constructor
    · rintro (h | h)
      · exact h
      · omega
    · exact Or.inl

end fw.blas


namespace fw.blas

/-! ## The value returned by `matrix::compress` -/

/-- The running pointer after the block loops of `matrix::compress`. -/
theorem matrix.compress_loop_cursor {σ : Type} (m n bs eA eB eC : Nat) (hbs : 0 < bs)
    (visit : Nat → Nat → Nat → σ → σ) (s : σ) :
    (matrix.compress_loop m n bs eA eB eC visit (0, s)).1
      = (m / bs) * ((n / bs) * eA + (if n % bs = 0 then 0 else 1) * eB)
        + (if m % bs = 0 then 0 else 1)
          * ((n / bs) * eC + (if n % bs = 0 then 0 else 1) * eB) := by
  rw [matrix.compress_loop_thread m n bs eA eB eC hbs visit s]
  simp only [matrix.sum_advance_row m n bs eA eB eC _ hbs]
  rw [num_blocks_eq m bs hbs, Finset.sum_range_add]
  have h1 : ∑ x ∈ Finset.range (m / bs),
      ((n / bs) * (if x < m / bs then eA else eC) + (if n % bs = 0 then 0 else 1) * eB)
      = (m / bs) * ((n / bs) * eA + (if n % bs = 0 then 0 else 1) * eB) := by
    rw [Finset.sum_congr rfl (fun x hx => by rw [if_pos (Finset.mem_range.1 hx)]),
      Finset.sum_const, Finset.card_range, smul_eq_mul]
  rw [h1]
  congr 1
  by_cases hm : m % bs = 0
  · simp only [if_pos hm, Finset.range_zero, Finset.sum_empty, Nat.zero_mul]
  · simp only [if_neg hm, Finset.sum_range_one, Nat.add_zero, Nat.lt_irrefl, if_false,
      Nat.one_mul]

end fw.blas


namespace fw.blas

/-! ## Footprints of the triangular shape -/

/-- The block counts and block sizes of the constructor of
`triangular_matrix`, with the remainder `n % bs` for the border extent. -/
theorem triangular_matrix.tri_members_num_elements (f : Nat → Nat) (n bs : Nat) (hbs : 0 < bs) :
    (triangular_matrix.members f n bs).num_elements
      = (n / bs) * f ((bs * (bs + 1)) / 2)
        + (((n / bs) * (n / bs + 1)) / 2 - n / bs) * f (bs * bs)
        + (n / bs) * (if n % bs = 0 then 0 else 1) * f (bs * (n % bs))
        + (if n % bs = 0 then 0 else 1) * f (((n % bs) * (n % bs + 1)) / 2) := by
  simp only [triangular_matrix.members, sub_div_mul_eq_mod, ceil_sub_floor _ bs hbs]

theorem triangular_matrix.tri_memory_footprint_elements_eq (f : Nat → Nat) (n bs : Nat)
    (hbs : 0 < bs) :
    triangular_matrix.memory_footprint_elements f n bs
      = (triangular_matrix.members f n bs).num_elements := by
  unfold triangular_matrix.memory_footprint_elements
  by_cases h : n = 0
  · rw [if_pos h, triangular_matrix.tri_members_num_elements f n bs hbs, h]
    simp
  · rw [if_neg h]
    rfl

/-- The triangular number with its last row split off. -/
theorem half_succ_sub (k : Nat) : ((k + 1) * (k + 1 + 1)) / 2 - (k + 1) = (k * (k + 1)) / 2 := by
  rw [triangle_succ]
  omega

end fw.blas


namespace fw.blas

theorem two_mul_half_succ (k : Nat) : 2 * ((k * (k + 1)) / 2) = k * (k + 1) :=
  Nat.two_mul_div_two_of_even (Nat.even_mul_succ_self k)

/-- In exact arithmetic, with the identity footprint
`memory_footprint_elements(k) = k`, the static
`triangular_matrix::memory_footprint_elements` is `n * (n + 1) / 2` for all `n`
and `bs ≥ 1`. -/
theorem triangular_matrix.tri_memory_footprint_elements_identity (n bs : Nat) (hbs : 1 ≤ bs) :
    triangular_matrix.memory_footprint_elements (fun k => k) n bs = (n * (n + 1)) / 2 := by
  rw [triangular_matrix.tri_memory_footprint_elements_eq _ n bs hbs,
    triangular_matrix.tri_members_num_elements _ n bs hbs]
  have hn := Nat.div_add_mod' n bs
  have hA := two_mul_half_succ bs
  have hD := two_mul_half_succ (n % bs)
  have hQ := two_mul_half_succ (n / bs)
  have hB : 2 * (((n / bs) * (n / bs + 1)) / 2 - n / bs) + 2 * (n / bs)
      = (n / bs) * (n / bs + 1) := by
    rcases Nat.eq_zero_or_pos (n / bs) with h0 | h0
    · rw [h0]
    · obtain ⟨k, hk⟩ : ∃ k, n / bs = k + 1 := ⟨n / bs - 1, by omega⟩
      rw [hk, half_succ_sub, ← two_mul_half_succ (k + 1), triangle_succ]
      omega
  have e1 : (if n % bs = 0 then 0 else 1) * (n % bs) = n % bs := by
    split
    · rename_i h; rw [h]
    · rw [Nat.one_mul]
  have e2 : (if n % bs = 0 then 0 else 1) * (((n % bs) * (n % bs + 1)) / 2)
      = ((n % bs) * (n % bs + 1)) / 2 := by
    split
    · rename_i h; rw [h]
    · rw [Nat.one_mul]
  have t3 : (n / bs) * (if n % bs = 0 then 0 else 1) * (bs * (n % bs))
      = (n / bs) * bs * (n % bs) := by
    calc (n / bs) * (if n % bs = 0 then 0 else 1) * (bs * (n % bs))
        = (n / bs) * bs * ((if n % bs = 0 then 0 else 1) * (n % bs)) := by ring
      _ = (n / bs) * bs * (n % bs) := by rw [e1]
  rw [t3, e2]
  generalize hAv : (bs * (bs + 1)) / 2 = A at hA ⊢
  generalize hDv : ((n % bs) * (n % bs + 1)) / 2 = D at hD ⊢
  generalize hBv : ((n / bs) * (n / bs + 1)) / 2 - n / bs = B at hB ⊢
  have hA' : (n / bs) * (2 * A) = (n / bs) * (bs * (bs + 1)) := by rw [hA]
  have hB' : (2 * B + 2 * (n / bs)) * (bs * bs) = (n / bs) * (n / bs + 1) * (bs * bs) := by
    rw [hB]
  have hgoal : 2 * ((n / bs) * A + B * (bs * bs) + (n / bs) * bs * (n % bs) + D)
      = n * (n + 1) := by
    have hnn : n * (n + 1) = ((n / bs) * bs + n % bs) * ((n / bs) * bs + n % bs + 1) := by
      rw [hn]
    rw [hnn]
    generalize n / bs = q at *
    generalize n % bs = r at *
    have hA'' : 2 * (q * A) = q * bs * bs + q * bs := by linarith
    have hB'' : 2 * (B * (bs * bs)) + 2 * (q * bs * bs) = q * q * bs * bs + q * bs * bs := by
      linarith
    have hD'' : 2 * D = r * r + r := by linarith
    have : (q * bs + r) * (q * bs + r + 1)
        = q * q * bs * bs + 2 * (q * bs * r) + r * r + q * bs + r := by ring
    rw [this]
    linarith
  omega

end fw.blas


namespace fw.blas

/-! ## Null pointers and zero extents -/

/-- C17: for `matrix::compress` and `triangular_matrix::compress`, every
extent, `ld`, `bs` and `mat`: if the source pointer or the destination pointer
is null, the call returns `0` and the destination stream is left as it was. -/
theorem compress_null_pointer {α β : Type} (F : fp α β) (MT : triangular_matrix_type)
    (data : Option (Nat → α)) (compressed_data : Option (Nat → β)) (m n ld bs : Nat)
    (mat : Option geometry) (buffer : Nat → α)
    (hnull : data = none ∨ compressed_data = none) :
    matrix.compress F data compressed_data m n ld bs mat buffer = (0, compressed_data)
    ∧ triangular_matrix.compress F MT data compressed_data n ld bs mat buffer
      = (0, compressed_data) := by
  rcases hnull with rfl | rfl
  · constructor <;> rfl
  · cases data <;> constructor <;> rfl

/-- Witness of C17: a null source with a `2 x 2` extent; the stream of fives is
returned untouched. -/
theorem compress_null_pointer_witness :
    matrix.compress (fp.identity ℤ) none (some (fun _ => 5)) 2 2 2 2 none (fun _ => 0)
      = (0, some (fun _ => 5))
    ∧ triangular_matrix.compress (fp.identity ℤ) triangular_matrix_type.upper none
        (some (fun _ => 5)) 2 2 2 none (fun _ => 0)
      = (0, some (fun _ => 5)) :=
  compress_null_pointer (fp.identity ℤ) triangular_matrix_type.upper none
    (some (fun _ => 5)) 2 2 2 2 none (fun _ => 0) (Or.inl rfl)

/-- C18: for `bs ≥ 1` and every codec (every footprint function, also one with
`f 0 ≠ 0`): if `m = 0` or `n = 0` the static `matrix::memory_footprint_elements`
is `0` and `matrix::compress` returns `0` and leaves the stream as it was; if
`n = 0` the static `triangular_matrix::memory_footprint_elements` is `0` and
`triangular_matrix::compress` returns `0` and leaves the stream as it was. -/
theorem zero_extent_footprint_and_compress {α β : Type} (F : fp α β)
    (MT : triangular_matrix_type) (data : Option (Nat → α))
    (compressed_data : Option (Nat → β)) (m n ld bs : Nat) (mat : Option geometry)
    (buffer : Nat → α) (_hbs : 1 ≤ bs) :
    ((m = 0 ∨ n = 0) →
      matrix.memory_footprint_elements F.memory_footprint_elements m n bs = 0
      ∧ matrix.compress F data compressed_data m n ld bs mat buffer = (0, compressed_data))
    ∧ (n = 0 →
      triangular_matrix.memory_footprint_elements F.memory_footprint_elements n bs = 0
      ∧ triangular_matrix.compress F MT data compressed_data n ld bs mat buffer
        = (0, compressed_data)) := by
  constructor
  · intro h
    constructor
    · unfold matrix.memory_footprint_elements
      rw [if_pos h]
    · cases data with
      | none => rfl
      | some d =>
        cases compressed_data with
        | none => rfl
        | some c =>
          simp only [matrix.compress, if_pos h]
  · intro h
    constructor
    · unfold triangular_matrix.memory_footprint_elements
      rw [if_pos h]
    · cases data with
      | none => rfl
      | some d =>
        cases compressed_data with
        | none => rfl
        | some c =>
          simp only [triangular_matrix.compress, if_pos h]

/-- Witness of C18: a codec whose footprint is `k + 7` (so `f 0 ≠ 0`), a
`0 x 3` extent for the full shape. -/
theorem zero_extent_footprint_and_compress_witness :
    matrix.memory_footprint_elements (fun k => k + 7) 0 3 2 = 0
    ∧ matrix.compress
        ({ memory_footprint_elements := fun k => k + 7, compress := fun l => l,
           decompress := fun l k => l.take k } : fp ℤ ℤ)
        (some (fun _ => 1)) (some (fun _ => 5)) 0 3 3 2 none (fun _ => 0)
      = (0, some (fun _ => 5)) :=
  (zero_extent_footprint_and_compress
    ({ memory_footprint_elements := fun k => k + 7, compress := fun l => l,
       decompress := fun l k => l.take k } : fp ℤ ℤ)
    triangular_matrix_type.upper (some (fun _ => 1)) (some (fun _ => 5)) 0 3 3 2 none
    (fun _ => 0) (by decide)).1 (Or.inl rfl)

/-- C19: for a matrix with `m = 0` or `n = 0`, every stream, `alpha`, `beta`,
transpose flag, `x` and `y`: `matrix::matrix_vector`,
`triangular_matrix::matrix_vector`, `symmetric_matrix_vector` and `solve`
leave the whole memory as it was, whatever the stream holds. -/
theorem zero_extent_kernels_return {α β : Type} [Field α] [DecidableEq α] (F : fp α β)
    (MT : triangular_matrix_type) (A : matrix β) (t : Bool) (alpha beta : α) (x y : Nat)
    (buffer_a buffer_b : Nat → α) (mem : Ptr → α)
    (hzero : A.m = 0 ∨ A.n = 0) :
    matrix.matrix_vector F A t alpha x beta y buffer_a mem = mem
    ∧ triangular_matrix.matrix_vector F MT A t alpha x beta y buffer_a buffer_b mem = mem
    ∧ triangular_matrix.symmetric_matrix_vector F MT A alpha x beta y buffer_a mem = mem
    ∧ triangular_matrix.solve F MT A t alpha x y buffer_a buffer_b mem = mem := by
  have hframe : ∀ (kernel : Bool → α → Ptr → Ptr → (Ptr → α) → (Ptr → α)) (t : Bool)
      (alpha : α) (x : Nat) (beta : α) (y : Nat),
      matrix.blas2_frame A.togeometry kernel t alpha x beta y mem = mem := by
    intro kernel t alpha x beta y
    unfold matrix.blas2_frame
    rw [if_pos (by
      rcases hzero with h | h
      · exact Or.inr h
      · exact Or.inl h)]
  refine ⟨?_, ?_, ?_, ?_⟩
  · unfold matrix.matrix_vector
    rw [if_pos hzero]
  · unfold triangular_matrix.matrix_vector
    by_cases h : A.n = 0
    · rw [if_pos h]
    · rw [if_neg h]
      exact hframe _ _ _ _ _ _
  · unfold triangular_matrix.symmetric_matrix_vector
    by_cases h : A.n = 0
    · rw [if_pos h]
    · rw [if_neg h]
      exact hframe _ _ _ _ _ _
  · unfold triangular_matrix.solve
    by_cases h : A.n = 0
    · rw [if_pos h]
    · rw [if_neg h]
      exact hframe _ _ _ _ _ _

/-- Witness of C19: the `0 x 3` matrix of the identity codec, `alpha = 2`,
`beta = 3`, on a memory of fives. -/
theorem zero_extent_kernels_return_witness :
    matrix.matrix_vector (fp.identity ℚ)
        (matrix.ctor (fp.identity ℚ) (some (fun _ => 1)) 0 3 3 2 (fun _ => 0) (fun _ => 0))
        false 2 0 3 4 (fun _ => 0) (fun _ => 5) = (fun _ => 5) :=
  (zero_extent_kernels_return (fp.identity ℚ) triangular_matrix_type.upper
    (matrix.ctor (fp.identity ℚ) (some (fun _ => 1)) 0 3 3 2 (fun _ => 0) (fun _ => 0))
    false 2 3 0 4 (fun _ => 0) (fun _ => 0) (fun _ => 5) (Or.inl rfl)).1

end fw.blas


namespace fw.blas

/-! ## The loops of `solve` -/

theorem foldl_append_map {γ : Type} (g : Nat → γ) :
    ∀ (t : Nat) (tr : List γ),
      (List.range t).foldl (fun tr c => tr ++ [g c]) tr = tr ++ (List.range t).map g := by
  intro t
  induction t with
  | zero => intro tr; simp
  | succ t ih =>
    intro tr
    rw [List.range_succ, List.foldl_append, ih]
    simp

theorem foldl_append_flatMap {γ : Type} (h : Nat → List γ) :
    ∀ (rows : Nat) (tr : List γ),
      (List.range rows).foldl (fun tr r => tr ++ h r) tr
        = tr ++ (List.range rows).flatMap h := by
  intro rows
  induction rows with
  | zero => intro tr; simp
  | succ rows ih =>
    intro tr
    rw [List.range_succ, List.foldl_append, ih]
    simp

/-- A unit-stride ascending loop run with more fuel than its bound gives the
result of the loop run with its bound as fuel. -/
theorem forUp_extra_fuel {σ : Type} (body : Nat → σ → σ) (stop extra : Nat) (s : σ) :
    forUp body stop 1 (stop + extra) 0 s = forUp body stop 1 stop 0 s := by
  rw [forUp_one_eq_foldl body stop (stop + extra) 0 s (by omega),
    forUp_one_eq_foldl body stop stop 0 s (by omega)]

/-- A descending loop with a `break` at `stop`, run with more fuel than the
distance from `start` to `stop`, gives the result of the loop run with
`start + 1` as fuel. -/
theorem forDown_extra_fuel {σ : Type} (body : Nat → σ → σ) (stop start extra : Nat) (s : σ) :
    forDown body stop (start + 1 + extra) start s = forDown body stop (start + 1) start s := by
  rw [forDown_eq_foldl body stop (start + 1 + extra) start s (by omega),
    forDown_eq_foldl body stop (start + 1) start s (by omega)]

/-- The loops of `solve` with any amount of fuel beyond the bounds. -/
theorem triangular_matrix.solve_loops_extra_fuel {σ : Type} (MT : triangular_matrix_type)
    (n bs : Nat) (t : Bool) (extra : Nat) (start : Nat → σ → σ) (visit : Nat → Nat → σ → σ)
    (finish : Nat → σ → σ) (s : σ) :
    triangular_matrix.solve_loops MT n bs t extra start visit finish s
      = triangular_matrix.solve_loops MT n bs t 0 start visit finish s := by
  unfold triangular_matrix.solve_loops
  simp only [forUp_extra_fuel, forDown_extra_fuel, Nat.add_zero]

/-- The trace of the descending sweep. -/
theorem triangular_matrix.solve_trace_descending (MT : triangular_matrix_type)
    (n bs : Nat) (t : Bool) (hn : 0 < n) (hbs : 0 < bs)
    (hd : (t = false ∧ MT = triangular_matrix_type.upper)
      ∨ (t = true ∧ MT = triangular_matrix_type.lower)) (extra : Nat) :
    triangular_matrix.solve_trace MT n bs t extra
      = (List.range (num_blocks n bs)).flatMap (fun u =>
          (List.range u).map (fun s => (num_blocks n bs - 1 - u, num_blocks n bs - 1 - s))
            ++ [(num_blocks n bs - 1 - u, num_blocks n bs - 1 - u)]) := by
  have hN : 0 < num_blocks n bs := (lt_num_blocks_iff n bs 0 hbs).2 (by omega)
  have hNdef : (n + bs - 1) / bs = num_blocks n bs := rfl
  have hf : ¬ ((t = true ∧ MT = triangular_matrix_type.upper)
      ∨ (t = false ∧ MT = triangular_matrix_type.lower)) := by
    rcases hd with ⟨rfl, rfl⟩ | ⟨rfl, rfl⟩ <;> decide
  unfold triangular_matrix.solve_trace
  rw [triangular_matrix.solve_loops_extra_fuel]
  unfold triangular_matrix.solve_loops
  simp only [if_neg hf, if_pos hd, hNdef, Nat.add_zero]
  rw [forDown_eq_foldl _ 0 _ _ _ (by omega)]
  have hcount : num_blocks n bs - 1 + 1 - 0 = num_blocks n bs := by omega
  rw [hcount]
  have hbody : ∀ (tr : List (Nat × Nat)) (u : Nat), u ∈ List.range (num_blocks n bs) →
      (forDown (fun bi (s : List (Nat × Nat)) => s ++ [(num_blocks n bs - 1 - u, bi)])
          (num_blocks n bs - 1 - u + 1) (num_blocks n bs - 1 + 1) (num_blocks n bs - 1) tr
        ++ [(num_blocks n bs - 1 - u, num_blocks n bs - 1 - u)])
      = tr ++ ((List.range u).map
            (fun s => (num_blocks n bs - 1 - u, num_blocks n bs - 1 - s))
          ++ [(num_blocks n bs - 1 - u, num_blocks n bs - 1 - u)]) := by
    intro tr u hu
    have hu' := List.mem_range.1 hu
    rw [forDown_eq_foldl _ _ _ _ _ (by omega)]
    have hcnt : num_blocks n bs - 1 + 1 - (num_blocks n bs - 1 - u + 1) = u := by omega
    rw [hcnt, foldl_append_map (fun s => (num_blocks n bs - 1 - u, num_blocks n bs - 1 - s)),
      List.append_assoc]
  rw [List.foldl_ext _
    (fun tr u => tr ++ ((List.range u).map
        (fun s => (num_blocks n bs - 1 - u, num_blocks n bs - 1 - s))
      ++ [(num_blocks n bs - 1 - u, num_blocks n bs - 1 - u)])) _ hbody,
    foldl_append_flatMap, List.nil_append]

/-- The trace of the ascending sweep. -/
theorem triangular_matrix.solve_trace_ascending (MT : triangular_matrix_type)
    (n bs : Nat) (t : Bool)
    (hf : (t = true ∧ MT = triangular_matrix_type.upper)
      ∨ (t = false ∧ MT = triangular_matrix_type.lower)) (extra : Nat) :
    triangular_matrix.solve_trace MT n bs t extra
      = (List.range (num_blocks n bs)).flatMap (fun bj =>
          (List.range bj).map (fun bi => (bj, bi)) ++ [(bj, bj)]) := by
  have hNdef : (n + bs - 1) / bs = num_blocks n bs := rfl
  unfold triangular_matrix.solve_trace
  rw [triangular_matrix.solve_loops_extra_fuel]
  unfold triangular_matrix.solve_loops
  simp only [if_pos hf, hNdef, Nat.add_zero]
  rw [forUp_one_eq_foldl _ _ _ 0 _ (by omega)]
  simp only [Nat.sub_zero, Nat.zero_add]
  have hbody : ∀ (tr : List (Nat × Nat)) (bj : Nat), bj ∈ List.range (num_blocks n bs) →
      (forUp (fun bi (s : List (Nat × Nat)) => s ++ [(bj, bi)]) bj 1 bj 0 tr ++ [(bj, bj)])
      = tr ++ ((List.range bj).map (fun bi => (bj, bi)) ++ [(bj, bj)]) := by
    intro tr bj _
    rw [forUp_one_eq_foldl _ _ _ 0 _ (by omega)]
    simp only [Nat.sub_zero, Nat.zero_add]
    rw [foldl_append_map (fun bi => (bj, bi)), List.append_assoc]
  rw [List.foldl_ext _
    (fun tr bj => tr ++ ((List.range bj).map (fun bi => (bj, bi)) ++ [(bj, bj)])) _ hbody,
    foldl_append_flatMap, List.nil_append]

/-- C20: for `n ≥ 1`, `bs ≥ 1`, every orientation and transpose flag: the
kernel of `triangular_matrix::solve` is the scaling loop after the block loops
`solve_loops` run with the loop bounds as fuel; block loops and unit-stride
loops run with any larger fuel give the same result, so every loop leaves by
its own exit; in the descending sweep (upper without transpose, lower with
transpose) the outer loop reaches the block rows `N - 1, N - 2, .., 0` once
each and, for each `bj`, the inner loop reaches `bi = N - 1, .., bj + 1` once
each (none for `bj = N - 1`) before the diagonal solve `(bj, bj)`; in the
ascending sweep the rows are `0, .., N - 1` with `bi = 0, .., bj - 1`. -/
theorem solve_terminates (MT : triangular_matrix_type) (n bs : Nat) (t : Bool)
    (hn : 1 ≤ n) (hbs : 1 ≤ bs) :
    (∀ (α β : Type) [Field α] (F : fp α β) (A : matrix β) (buffer_a buffer_x : Nat → α)
      (alpha : α) (x y : Ptr) (mem : Ptr → α), A.n = n → A.bs = bs →
      triangular_matrix.solve_kernel F MT A buffer_a buffer_x t alpha x y mem
        = forUp (fun j mem => Function.update mem (y.add j) (mem (y.add j) * (1 / alpha)))
            n 1 n 0
            (triangular_matrix.solve_loops MT n bs t 0
              (fun bj s => (s.1, forUp (fun jj b => set_at b jj 0) (min (n - bj * bs) bs) 1
                (min (n - bj * bs) bs) 0 s.2.1, s.2.2))
              (fun bj bi s =>
                triangular_matrix.solve_block F MT A t y bj bi (min (n - bj * bs) bs) s)
              (fun bj s =>
                triangular_matrix.solve_diagonal F MT A t x y bj (min (n - bj * bs) bs) s)
              (buffer_a, buffer_x, mem)).2.2)
    ∧ (∀ (σ : Type) (extra : Nat) (start : Nat → σ → σ) (visit : Nat → Nat → σ → σ)
        (finish : Nat → σ → σ) (s : σ),
      triangular_matrix.solve_loops MT n bs t extra start visit finish s
        = triangular_matrix.solve_loops MT n bs t 0 start visit finish s)
    ∧ (∀ (σ : Type) (body : Nat → σ → σ) (stop extra : Nat) (s : σ),
      forUp body stop 1 (stop + extra) 0 s = forUp body stop 1 stop 0 s)
    ∧ (((t = false ∧ MT = triangular_matrix_type.upper)
          ∨ (t = true ∧ MT = triangular_matrix_type.lower)) →
      ∀ extra, triangular_matrix.solve_trace MT n bs t extra
        = (List.range (num_blocks n bs)).flatMap (fun u =>
            (List.range u).map (fun s => (num_blocks n bs - 1 - u, num_blocks n bs - 1 - s))
              ++ [(num_blocks n bs - 1 - u, num_blocks n bs - 1 - u)]))
    ∧ (((t = true ∧ MT = triangular_matrix_type.upper)
          ∨ (t = false ∧ MT = triangular_matrix_type.lower)) →
      ∀ extra, triangular_matrix.solve_trace MT n bs t extra
        = (List.range (num_blocks n bs)).flatMap (fun bj =>
            (List.range bj).map (fun bi => (bj, bi)) ++ [(bj, bj)])) := by
  refine ⟨?_, ?_, ?_, ?_, ?_⟩
  · rintro α β _ F A buffer_a buffer_x alpha x y mem rfl rfl
    rfl
  · intro σ extra start visit finish s
    exact triangular_matrix.solve_loops_extra_fuel MT n bs t extra start visit finish s
  · intro σ body stop extra s
    exact forUp_extra_fuel body stop extra s
  · intro hd extra
    exact triangular_matrix.solve_trace_descending MT n bs t hn hbs hd extra
  · intro hf extra
    exact triangular_matrix.solve_trace_ascending MT n bs t hf extra

/-- Witness of C20: the upper orientation without transpose, `n = 5`, `bs = 2`
(`N = 3`), with `1000` iterations of fuel to spare: block rows `2, 1, 0`, and
before the diagonal solve of row `1` the block `2`, of row `0` the blocks
`2, 1`. -/
theorem solve_terminates_witness :
    triangular_matrix.solve_trace triangular_matrix_type.upper 5 2 false 1000
      = [(2, 2), (1, 2), (1, 1), (0, 2), (0, 1), (0, 0)] :=
  ((solve_terminates triangular_matrix_type.upper 5 2 false (by decide) (by decide)).2.2.2.1
    (Or.inl ⟨rfl, rfl⟩) 1000).trans (by decide)

end fw.blas


namespace fw.blas

/-! ## Agreement of the offsets of the full shape -/

end fw.blas


namespace fw.blas

/-! ## The two paths of `blas2_frame` -/

section framepaths
variable {α : Type} [CommRing α] [DecidableEq α]

/-- `blas2_frame` with `alpha ≠ 0` when the aliasing test finds `x` and `y` far
enough apart: `y` is scaled by `beta` and handed to the kernel itself. -/
theorem matrix.blas2_frame_direct (g : geometry) (hm : g.m ≠ 0) (hn : g.n ≠ 0)
    (kernel : Bool → α → Ptr → Ptr → (Ptr → α) → (Ptr → α)) (t : Bool)
    (alpha : α) (halpha : alpha ≠ 0) (x : Nat) (beta : α) (y : Nat) (mem : Ptr → α)
    (h : Int.natAbs ((y : Int) - (x : Int)) ≥ max g.m g.n) :
    matrix.blas2_frame g kernel t alpha x beta y mem
      = kernel t alpha (Ptr.mem x) (Ptr.mem y)
          (store mem (Ptr.mem y) (if t then g.n else g.m)
            (fun j => beta * mem (Ptr.mem (y + j)))) := by
  have hmn : ¬ (g.n = 0 ∨ g.m = 0) := by omega
  unfold matrix.blas2_frame
  rw [if_neg hmn, if_neg halpha]
  simp only [h, if_true, Bool.false_eq_true, if_false]
  rw [frame_scale (Ptr.mem y) (if t then g.n else g.m) beta mem]
  rfl

/-- `blas2_frame` with `alpha ≠ 0` when the aliasing test fails: the kernel
writes to the zeroed stack buffer, which is then merged into `y`. -/
theorem matrix.blas2_frame_buffered (g : geometry) (hm : g.m ≠ 0) (hn : g.n ≠ 0)
    (kernel : Bool → α → Ptr → Ptr → (Ptr → α) → (Ptr → α)) (t : Bool)
    (alpha : α) (halpha : alpha ≠ 0) (x : Nat) (beta : α) (y : Nat) (mem : Ptr → α)
    (h : ¬ Int.natAbs ((y : Int) - (x : Int)) ≥ max g.m g.n) :
    matrix.blas2_frame g kernel t alpha x beta y mem
      = store
          (kernel t alpha (Ptr.mem x) (Ptr.buf 0)
            (store mem (Ptr.buf 0) (if t then g.n else g.m) (fun _ => 0)))
          (Ptr.mem y) (if t then g.n else g.m)
          (fun j =>
            kernel t alpha (Ptr.mem x) (Ptr.buf 0)
                (store mem (Ptr.buf 0) (if t then g.n else g.m) (fun _ => 0)) (Ptr.buf j)
              + beta * kernel t alpha (Ptr.mem x) (Ptr.buf 0)
                (store mem (Ptr.buf 0) (if t then g.n else g.m) (fun _ => 0))
                (Ptr.mem (y + j))) := by
  have hmn : ¬ (g.n = 0 ∨ g.m = 0) := by omega
  unfold matrix.blas2_frame
  rw [if_neg hmn, if_neg halpha]
  simp only [h, if_false, if_true, Bool.true_eq_false]
  have hz := forUp_update_eq_store (Ptr.buf 0) (fun _ (_ : Ptr → α) => (0 : α))
    (fun _ _ _ _ => rfl) (if t then g.n else g.m) mem
  rw [hz, frame_merge y (if t then g.n else g.m) beta]

end framepaths

end fw.blas


namespace fw.blas

/-- C29: soundness of the aliasing test of `blas2_frame`.  For `m, n ≥ 1`, a
transpose flag and offsets `x`, `y` in the memory of the caller with
`|y - x| ≥ max(m, n)`: the cells read through `x` (`n` of them without
transpose, `m` with transpose) and the cells written through `y` (`m` without
transpose, `n` with transpose) are disjoint, and for `alpha ≠ 0` no buffer is
used: the kernel is handed `x` and `y` themselves, `y` scaled by `beta`. -/
theorem blas2_frame_alias_test_sound (α : Type) [CommRing α] [DecidableEq α]
    (g : geometry) (t : Bool) (x y : Nat) (hm : 1 ≤ g.m) (hn : 1 ≤ g.n)
    (h : Int.natAbs ((y : Int) - (x : Int)) ≥ max g.m g.n) :
    (∀ c r, c < (if t then g.m else g.n) → r < (if t then g.n else g.m) →
      Ptr.mem (x + c) ≠ (Ptr.mem y).add r)
    ∧ (∀ (kernel : Bool → α → Ptr → Ptr → (Ptr → α) → (Ptr → α)) (alpha beta : α)
        (mem : Ptr → α), alpha ≠ 0 →
      matrix.blas2_frame g kernel t alpha x beta y mem
        = kernel t alpha (Ptr.mem x) (Ptr.mem y)
            (store mem (Ptr.mem y) (if t then g.n else g.m)
              (fun j => beta * mem (Ptr.mem (y + j))))) := by
  constructor
  · intro c r hc hr
    have h1 : (if t then g.m else g.n) ≤ max g.m g.n := by
      split
      · exact Nat.le_max_left _ _
      · exact Nat.le_max_right _ _
    have h2 : (if t then g.n else g.m) ≤ max g.m g.n := by
      split
      · exact Nat.le_max_right _ _
      · exact Nat.le_max_left _ _
    simp only [Ptr.mem_add, ne_eq, Ptr.mem.injEq]
    omega
  · intro kernel alpha beta mem halpha
    exact matrix.blas2_frame_direct g (by omega) (by omega) kernel t alpha halpha x beta y mem h

/-- Witness of C29: `m = 2`, `n = 3` without transpose, `x` at `0` and `y` at
`3`: the last cell read is not the first cell written. -/
theorem blas2_frame_alias_test_sound_witness :
    Ptr.mem (0 + 2) ≠ (Ptr.mem 3).add 0 :=
  (blas2_frame_alias_test_sound ℤ (matrix.members (fun k => k) 2 3 1) false 0 3
    (by decide) (by decide) (by decide)).1 2 0 (by decide) (by decide)

/-- C24: for a kernel that only adds a contribution `c(x)` to its output
argument (`out ← out + c(x)` whenever the cells of `x` and of the output are
distinct, `c(x)` depending on the `xlen` cells of `x` only), `alpha ≠ 0` and
every `beta`, in exact arithmetic: on the direct path (`|y - x| ≥ max(m, n)`:
`y` scaled by `beta`, the kernel accumulating on `y`) and on the buffered path
(zeroed buffer, then the merge into `y`) `blas2_frame` leaves
`y[j] = c(x)[j] + beta * y_prev[j]` for `j < mn`, `mn = n` with transpose and `m`
without, and every other cell of the memory of the caller as it was. -/
theorem blas2_frame_buffered_eq_direct {α : Type} [CommRing α] [DecidableEq α]
    (g : geometry) (hm : 1 ≤ g.m) (hn : 1 ≤ g.n)
    (kernel : Bool → α → Ptr → Ptr → (Ptr → α) → (Ptr → α)) (t : Bool)
    (alpha : α) (halpha : alpha ≠ 0) (x : Nat) (beta : α) (y : Nat) (mem : Ptr → α)
    (c : (Nat → α) → Nat → α)
    (hc : ∀ X X' r, r < (if t then g.n else g.m) →
      (∀ q, q < (if t then g.m else g.n) → X q = X' q) → c X r = c X' r)
    (hkernel : ∀ (yp : Ptr) (mem1 : Ptr → α),
      (∀ q r, q < (if t then g.m else g.n) → r < (if t then g.n else g.m) →
        Ptr.mem (x + q) ≠ yp.add r) →
      kernel t alpha (Ptr.mem x) yp mem1
        = store mem1 yp (if t then g.n else g.m)
            (fun r => mem1 (yp.add r) + c (load mem1 (Ptr.mem x)) r)) :
    (Int.natAbs ((y : Int) - (x : Int)) ≥ max g.m g.n →
      ∀ l, matrix.blas2_frame g kernel t alpha x beta y mem (Ptr.mem l)
        = if y ≤ l ∧ l < y + (if t then g.n else g.m) then
            c (load mem (Ptr.mem x)) (l - y) + beta * mem (Ptr.mem l)
          else mem (Ptr.mem l))
    ∧ (¬ Int.natAbs ((y : Int) - (x : Int)) ≥ max g.m g.n →
      ∀ l, matrix.blas2_frame g kernel t alpha x beta y mem (Ptr.mem l)
        = if y ≤ l ∧ l < y + (if t then g.n else g.m) then
            c (load mem (Ptr.mem x)) (l - y) + beta * mem (Ptr.mem l)
          else mem (Ptr.mem l)) := by
  have hxlen : (if t then g.m else g.n) ≤ max g.m g.n := by
    split
    · exact Nat.le_max_left _ _
    · exact Nat.le_max_right _ _
  have happ := fun l => matrix.blas2_frame_apply g (by omega) (by omega) kernel t alpha halpha
    x beta y mem (if t then g.m else g.n) hxlen
    (fun X Y r => Y r + c X r)
    (fun yp mem1 hsep => hkernel yp mem1 hsep)
    (fun X X' Y r hr hX => by
      simp only
      rw [hc X X' r hr hX])
    (fun X Y Y' r hr hY => by
      simp only
      rw [hY r hr]) l
  constructor
  · intro hpath l
    rw [happ l]
    by_cases hl : y ≤ l ∧ l < y + (if t then g.n else g.m)
    · rw [if_pos hl, if_pos hl, if_pos hpath]
      have e : y + (l - y) = l := by omega
      show beta * mem (Ptr.mem (y + (l - y))) + _ = _
      rw [e, add_comm]
    · rw [if_neg hl, if_neg hl]
  · intro hpath l
    rw [happ l]
    by_cases hl : y ≤ l ∧ l < y + (if t then g.n else g.m)
    · rw [if_pos hl, if_pos hl, if_neg hpath]
      show (0 : α) + _ + _ = _
      rw [zero_add]
    · rw [if_neg hl, if_neg hl]

/-- Witness of C24: `m = 2`, `n = 1` without transpose, `x` at `0` and `y` at
`1` (the buffered path, although the cells of `x` and `y` are distinct), a
kernel that adds `x[0] * (r + 1)` to `out[r]`, `beta = 3` and a memory of ones:
`y[1] = 1 * 2 + 3 * 1`. -/
theorem blas2_frame_buffered_eq_direct_witness :
    matrix.blas2_frame (matrix.members (fun k => k) 2 1 1)
      (fun _ _ xp yp (mem1 : Ptr → ℤ) =>
        store mem1 yp 2 (fun r => mem1 (yp.add r) + load mem1 xp 0 * ((r : ℤ) + 1)))
      false 1 0 3 1 (fun _ => 1) (Ptr.mem 2) = 5 :=
  ((blas2_frame_buffered_eq_direct (matrix.members (fun k => k) 2 1 1) (by decide) (by decide)
    (fun _ _ xp yp (mem1 : Ptr → ℤ) =>
      store mem1 yp 2 (fun r => mem1 (yp.add r) + load mem1 xp 0 * ((r : ℤ) + 1)))
    false 1 (by decide) 0 3 1 (fun _ => 1) (fun X r => X 0 * ((r : ℤ) + 1))
    (fun X X' r _ hX => by
      show X 0 * ((r : ℤ) + 1) = X' 0 * ((r : ℤ) + 1)
      rw [hX 0 (by decide)])
    (fun _ _ _ => rfl)).2 (by decide) 2).trans (by decide)

end fw.blas


namespace fw.blas

/-! ## The post-loop correction of `matrix::compress` -/

/-- The value returned by `matrix::compress` on non-null pointers and nonzero
extents in terms of the running pointer after the block loops. -/
theorem matrix.compress_fst_fixup {α β : Type} (F : fp α β)
    (data : Nat → α) (stream : Nat → β) (m n ld bs : Nat)
    (hm : 0 < m) (hn : 0 < n) (mat : Option geometry)
    (hmat : mat = none ∨ mat = some (matrix.members F.memory_footprint_elements m n bs))
    (buffer : Nat → α) :
    (matrix.compress F (some data) (some stream) m n ld bs mat buffer).1
      = if (matrix.members F.memory_footprint_elements m n bs).num_elements_d ≠ 0 then
          (matrix.compress_loop m n bs
              (matrix.members F.memory_footprint_elements m n bs).num_elements_a
              (matrix.members F.memory_footprint_elements m n bs).num_elements_b
              (matrix.members F.memory_footprint_elements m n bs).num_elements_c
              (matrix.compress_block F data m n ld bs) (0, (buffer, stream))).1
            - (if (matrix.members F.memory_footprint_elements m n bs).num_elements_b ≠ 0 then
                (matrix.members F.memory_footprint_elements m n bs).num_elements_b
              else (matrix.members F.memory_footprint_elements m n bs).num_elements_c)
            + (matrix.members F.memory_footprint_elements m n bs).num_elements_d
        else
          (matrix.compress_loop m n bs
              (matrix.members F.memory_footprint_elements m n bs).num_elements_a
              (matrix.members F.memory_footprint_elements m n bs).num_elements_b
              (matrix.members F.memory_footprint_elements m n bs).num_elements_c
              (matrix.compress_block F data m n ld bs) (0, (buffer, stream))).1 := by
  have hmn : ¬ (m = 0 ∨ n = 0) := by omega
  rcases hmat with rfl | rfl
  · simp only [matrix.compress, if_neg hmn]
    rfl
  · simp only [matrix.compress, if_neg hmn]

/-- The corner block of a full matrix exists exactly when both extents leave a
remainder. -/
theorem matrix.num_blocks_d_pos_iff (f : Nat → Nat) (m n bs : Nat) (hbs : 0 < bs) :
    0 < (matrix.members f m n bs).num_blocks_d ↔ m % bs ≠ 0 ∧ n % bs ≠ 0 := by
  simp only [matrix.members, ceil_sub_floor _ bs hbs]
  by_cases h1 : m % bs = 0
  · simp [h1]
  · by_cases h2 : n % bs = 0
    · simp [h2]
    · simp [h1, h2]

/-- C25, as stated, fails: for the identity codec and a `3 x 3` source with
`bs = 2` there is a corner block, `eA = 4`, `eB = 2`, `eD = 1`, the running
pointer after the block loops of `matrix::compress` is `10` and the value
returned is `9`: the correction changes the pointer by `-1 = eD - eB`, not by
`eD - eA = -3`. -/
theorem matrix_compress_fixup_not_last_a_step :
    0 < (matrix.members (fp.identity ℤ).memory_footprint_elements 3 3 2).num_blocks_d
    ∧ ((matrix.compress (fp.identity ℤ) (some (fun _ => 0)) (some (fun _ => 0)) 3 3 3 2 none
          (fun _ => 0)).1 : Int)
        - ((matrix.compress_loop 3 3 2
            (matrix.members (fp.identity ℤ).memory_footprint_elements 3 3 2).num_elements_a
            (matrix.members (fp.identity ℤ).memory_footprint_elements 3 3 2).num_elements_b
            (matrix.members (fp.identity ℤ).memory_footprint_elements 3 3 2).num_elements_c
            (matrix.compress_block (fp.identity ℤ) (fun _ => 0) 3 3 3 2)
            (0, ((fun _ => 0), (fun _ => 0)))).1 : Int)
      ≠ ((matrix.members (fp.identity ℤ).memory_footprint_elements 3 3 2).num_elements_d : Int)
        - ((matrix.members (fp.identity ℤ).memory_footprint_elements 3 3 2).num_elements_a
            : Int)
    ∧ (matrix.compress (fp.identity ℤ) (some (fun _ => 0)) (some (fun _ => 0)) 3 3 3 2 none
          (fun _ => 0)).1 = 9
    ∧ (matrix.compress_loop 3 3 2 4 2 2
          (matrix.compress_block (fp.identity ℤ) (fun _ => 0) 3 3 3 2)
          (0, ((fun _ => 0), (fun _ => 0)))).1 = 10 := by
  refine ⟨by decide, by decide, by decide, by decide⟩

/-- C25, amended: for the full shape, `m, n ≥ 1`, `bs ≥ 1` and a footprint
function `f` with `f 0 = 0` and `f k > 0` for `k > 0`, the post-loop correction
of `matrix::compress` changes the running pointer by exactly `eD - eB` when a
corner block exists (`nD > 0`; the loop advanced by `eB` after the corner, which
lies in the border column) and leaves it unchanged otherwise. -/
theorem matrix_compress_fixup {α β : Type} (F : fp α β)
    (data : Nat → α) (stream : Nat → β) (m n ld bs : Nat) (mat : Option geometry)
    (buffer : Nat → α)
    (hm : 1 ≤ m) (hn : 1 ≤ n) (hbs : 1 ≤ bs)
    (hf0 : F.memory_footprint_elements 0 = 0)
    (hfpos : ∀ k, 0 < k → 0 < F.memory_footprint_elements k)
    (hmat : mat = none ∨ mat = some (matrix.members F.memory_footprint_elements m n bs)) :
    (0 < (matrix.members F.memory_footprint_elements m n bs).num_blocks_d →
      ((matrix.compress F (some data) (some stream) m n ld bs mat buffer).1 : Int)
          - ((matrix.compress_loop m n bs
              (matrix.members F.memory_footprint_elements m n bs).num_elements_a
              (matrix.members F.memory_footprint_elements m n bs).num_elements_b
              (matrix.members F.memory_footprint_elements m n bs).num_elements_c
              (matrix.compress_block F data m n ld bs) (0, (buffer, stream))).1 : Int)
        = ((matrix.members F.memory_footprint_elements m n bs).num_elements_d : Int)
          - ((matrix.members F.memory_footprint_elements m n bs).num_elements_b : Int))
    ∧ ((matrix.members F.memory_footprint_elements m n bs).num_blocks_d = 0 →
      (matrix.compress F (some data) (some stream) m n ld bs mat buffer).1
        = (matrix.compress_loop m n bs
            (matrix.members F.memory_footprint_elements m n bs).num_elements_a
            (matrix.members F.memory_footprint_elements m n bs).num_elements_b
            (matrix.members F.memory_footprint_elements m n bs).num_elements_c
            (matrix.compress_block F data m n ld bs) (0, (buffer, stream))).1) := by
  have hfix := matrix.compress_fst_fixup F data stream m n ld bs hm hn mat hmat buffer
  have hcur := matrix.compress_loop_cursor m n bs
    (matrix.members F.memory_footprint_elements m n bs).num_elements_a
    (matrix.members F.memory_footprint_elements m n bs).num_elements_b
    (matrix.members F.memory_footprint_elements m n bs).num_elements_c hbs
    (matrix.compress_block F data m n ld bs) (buffer, stream)
  have hD := matrix.num_blocks_d_pos_iff F.memory_footprint_elements m n bs hbs
  have heD : (matrix.members F.memory_footprint_elements m n bs).num_elements_d
      = F.memory_footprint_elements ((m % bs) * (n % bs)) := by
    simp only [matrix.members, sub_div_mul_eq_mod]
  have heB : (matrix.members F.memory_footprint_elements m n bs).num_elements_b
      = F.memory_footprint_elements (bs * (n % bs)) := by
    simp only [matrix.members, sub_div_mul_eq_mod]
  constructor
  · intro hpos
    obtain ⟨hrm, hrn⟩ := hD.1 hpos
    have hd : (matrix.members F.memory_footprint_elements m n bs).num_elements_d ≠ 0 := by
      rw [heD]
      exact Nat.pos_iff_ne_zero.1 (hfpos _ (Nat.mul_pos (Nat.pos_of_ne_zero hrm)
        (Nat.pos_of_ne_zero hrn)))
    have hb : (matrix.members F.memory_footprint_elements m n bs).num_elements_b ≠ 0 := by
      rw [heB]
      exact Nat.pos_iff_ne_zero.1 (hfpos _ (Nat.mul_pos hbs (Nat.pos_of_ne_zero hrn)))
    rw [if_pos hd, if_pos hb] at hfix
    rw [if_neg hrm, if_neg hrn] at hcur
    have hge : (matrix.members F.memory_footprint_elements m n bs).num_elements_b
        ≤ (matrix.compress_loop m n bs
            (matrix.members F.memory_footprint_elements m n bs).num_elements_a
            (matrix.members F.memory_footprint_elements m n bs).num_elements_b
            (matrix.members F.memory_footprint_elements m n bs).num_elements_c
            (matrix.compress_block F data m n ld bs) (0, (buffer, stream))).1 := by
      rw [hcur, Nat.one_mul, Nat.one_mul]
      omega
    rw [hfix]
    omega
  · intro hzero
    have hd : ¬ (matrix.members F.memory_footprint_elements m n bs).num_elements_d ≠ 0 := by
      rw [heD, not_not]
      have : ¬ (m % bs ≠ 0 ∧ n % bs ≠ 0) := fun h => by
        have := hD.2 h
        omega
      by_cases h1 : m % bs = 0
      · rw [h1, Nat.zero_mul, hf0]
      · have h2 : n % bs = 0 := by
          by_contra h2
          exact this ⟨h1, h2⟩
        rw [h2, Nat.mul_zero, hf0]
    rw [hfix, if_neg hd]

/-- Witness of C25, amended: the identity codec on a `3 x 5` source with
`bs = 2` (a corner block exists, `eD = 1`, `eB = 2`). -/
theorem matrix_compress_fixup_witness :
    ((matrix.compress (fp.identity ℤ) (some (fun _ => 0)) (some (fun _ => 0)) 3 5 5 2 none
          (fun _ => 0)).1 : Int)
        - ((matrix.compress_loop 3 5 2
            (matrix.members (fp.identity ℤ).memory_footprint_elements 3 5 2).num_elements_a
            (matrix.members (fp.identity ℤ).memory_footprint_elements 3 5 2).num_elements_b
            (matrix.members (fp.identity ℤ).memory_footprint_elements 3 5 2).num_elements_c
            (matrix.compress_block (fp.identity ℤ) (fun _ => 0) 3 5 5 2)
            (0, ((fun _ => 0), (fun _ => 0)))).1 : Int)
      = ((matrix.members (fp.identity ℤ).memory_footprint_elements 3 5 2).num_elements_d : Int)
        - ((matrix.members (fp.identity ℤ).memory_footprint_elements 3 5 2).num_elements_b
            : Int) :=
  (matrix_compress_fixup (fp.identity ℤ) (fun _ => 0) (fun _ => 0) 3 5 5 2 none (fun _ => 0)
    (by decide) (by decide) (by decide) rfl (fun _ h => h) (Or.inl rfl)).1 (by decide)

end fw.blas


namespace fw.blas

/-! ## The counter `n_c` of `get_offset` -/

/-- The value of `get_offset` is the weighted sum of its counters. -/
theorem triangular_matrix.get_offset_eq_counters (A : geometry) (mt : triangular_matrix_type)
    (bj bi : Nat) :
    triangular_matrix.get_offset A mt bj bi
      = (triangular_matrix.get_offset_counters A mt bj bi).1 * A.num_elements_a
        + (triangular_matrix.get_offset_counters A mt bj bi).2.1 * A.num_elements_b
        + (triangular_matrix.get_offset_counters A mt bj bi).2.2
          * triangular_matrix.get_offset_factor_c A mt := by
  cases mt <;> rfl

/-- C26, as stated, fails for the lower orientation: for `n = 4`, `bs = 2` and
the identity footprint `num_elements_c = 0`, and for the diagonal block `(1, 1)`
of the last block row the counters of `get_offset` are `n_a = 1`, `n_b = 0`,
`n_c = 1`; the factor of `n_c` is `num_elements_b = 4`, and the offset returned
is `1 * 3 + 0 * 4 + 1 * 4 = 7`. -/
theorem get_offset_counter_c_last_row :
    (triangular_matrix.members (fun k => k) 4 2).num_elements_c = 0
    ∧ (triangular_matrix.get_offset_counters (triangular_matrix.members (fun k => k) 4 2)
        triangular_matrix_type.lower 1 1).2.2 ≠ 0
    ∧ triangular_matrix.get_offset_counters (triangular_matrix.members (fun k => k) 4 2)
        triangular_matrix_type.lower 1 1 = (1, 0, 1)
    ∧ triangular_matrix.get_offset_factor_c (triangular_matrix.members (fun k => k) 4 2)
        triangular_matrix_type.lower
      = (triangular_matrix.members (fun k => k) 4 2).num_elements_b
    ∧ triangular_matrix.get_offset (triangular_matrix.members (fun k => k) 4 2)
        triangular_matrix_type.lower 1 1 = 7 := by
  refine ⟨by decide, by decide, by decide, by decide, by decide⟩

/-- C26, amended: for `n ≥ 1` a multiple of `bs ≥ 1`, a footprint function `f`
with `f 0 = 0` (so that `num_elements_c = 0`) and every block `(bj, bi)` of the
triangle, the offset returned by `get_offset` is
`n_a * eA + n_b * eB + n_c * factor`; for the upper orientation `n_c = 0`; for
the lower orientation `n_c = 0` outside the last block row and `n_c = bi` in
the last block row `bj = n / bs - 1`, where its factor is `eB`: there `n_c`
counts the `bi` blocks of size `eB` to the left of the block, which `n_b` leaves
out; in both orientations the offset returned is the position at which
`triangular_matrix::compress` wrote the block. -/
theorem get_offset_counter_c (f : Nat → Nat) (MT : triangular_matrix_type)
    (n bs bj bi : Nat) (hf0 : f 0 = 0) (hn : 1 ≤ n) (hbs : 1 ≤ bs) (hdiv : n % bs = 0)
    (htri : (MT = triangular_matrix_type.upper ∧ bj ≤ bi ∧ bi < (n + bs - 1) / bs)
      ∨ (MT = triangular_matrix_type.lower ∧ bi ≤ bj ∧ bj < (n + bs - 1) / bs)) :
    triangular_matrix.get_offset (triangular_matrix.members f n bs) MT bj bi
      = (triangular_matrix.get_offset_counters (triangular_matrix.members f n bs) MT bj bi).1
          * (triangular_matrix.members f n bs).num_elements_a
        + (triangular_matrix.get_offset_counters (triangular_matrix.members f n bs) MT bj bi).2.1
          * (triangular_matrix.members f n bs).num_elements_b
        + (triangular_matrix.get_offset_counters (triangular_matrix.members f n bs) MT bj bi).2.2
          * triangular_matrix.get_offset_factor_c (triangular_matrix.members f n bs) MT
    ∧ (triangular_matrix.members f n bs).num_elements_c = 0
    ∧ (MT = triangular_matrix_type.upper →
        (triangular_matrix.get_offset_counters
          (triangular_matrix.members f n bs) MT bj bi).2.2 = 0)
    ∧ (MT = triangular_matrix_type.lower →
        (triangular_matrix.get_offset_counters
            (triangular_matrix.members f n bs) MT bj bi).2.2
          = (if bj = n / bs - 1 then bi else 0)
        ∧ triangular_matrix.get_offset_factor_c (triangular_matrix.members f n bs) MT
          = (triangular_matrix.members f n bs).num_elements_b)
    ∧ (bj * bs, bi * bs,
        triangular_matrix.get_offset (triangular_matrix.members f n bs) MT bj bi)
        ∈ triangular_matrix.compress_trace MT (triangular_matrix.members f n bs) := by
  have hC0 : (triangular_matrix.members f n bs).num_elements_c = 0 := by
    simp only [triangular_matrix.members, sub_div_mul_eq_mod, hdiv, Nat.mul_zero, hf0]
  have hceil : (n + bs - 1) / bs = n / bs := by
    have := ceil_sub_floor n bs hbs
    rw [if_pos hdiv] at this
    have h2 := num_blocks_eq n bs hbs
    rw [if_pos hdiv] at h2
    exact h2
  refine ⟨triangular_matrix.get_offset_eq_counters _ MT bj bi, hC0, ?_, ?_, ?_⟩
  · rintro rfl
    show bj * ((n + bs - 1) / bs - n / bs) = 0
    rw [hceil, Nat.sub_self, Nat.mul_zero]
  · rintro rfl
    constructor
    · show (if bj = (n + bs - 1) / bs - 1 then bi else 0) = _
      rw [hceil]
    · show (if (triangular_matrix.members f n bs).num_elements_c ≠ 0 then _ else _) = _
      rw [if_neg (not_not.2 hC0)]
  · exact (triangular_matrix.mem_compress_trace MT (triangular_matrix.members f n bs) hbs hn
      (fun _ => ⟨fun _ => hdiv, fun _ => hC0⟩) bj bi _).2 ⟨htri, rfl⟩

/-- Witness of C26, amended: the lower orientation with `n = 4`, `bs = 2` and
the identity footprint; the diagonal block `(1, 1)` of the last block row has
the offset `7`. -/
theorem get_offset_counter_c_witness :
    triangular_matrix.get_offset (triangular_matrix.members (fun k => k) 4 2)
        triangular_matrix_type.lower 1 1 = 7 :=
  (get_offset_counter_c (fun k => k) triangular_matrix_type.lower 4 2 1 1 rfl (by decide)
    (by decide) (by decide) (Or.inr ⟨rfl, by decide, by decide⟩)).1.trans (by decide)

end fw.blas


namespace fw.blas

/-! ## `triangular_matrix::compress` reads the stored triangle only -/

/-- The logical values of a block of the triangle are entries of the stored
triangle: two sources that agree there give the same values. -/
theorem triangular_matrix.logical_values_congr {α : Type} (MT : triangular_matrix_type)
    (data data' : Nat → α) (n ld bs bj t : Nat) (hbs : 0 < bs)
    (hbj : bj < num_blocks n bs)
    (ht : t < triangular_matrix.row_count MT (num_blocks n bs) bj)
    (hagree : ∀ r c, r < n → c < n →
      ((MT = triangular_matrix_type.upper ∧ r ≤ c)
        ∨ (MT = triangular_matrix_type.lower ∧ c ≤ r)) →
      data (r * ld + c) = data' (r * ld + c)) :
    triangular_matrix.logical_values MT data n ld bs (bj * bs)
        (triangular_matrix.column MT bj t * bs)
      = triangular_matrix.logical_values MT data' n ld bs (bj * bs)
        (triangular_matrix.column MT bj t * bs) := by
  have hj : bj * bs < n := (lt_num_blocks_iff n bs bj hbs).1 hbj
  unfold triangular_matrix.logical_values
  by_cases hd : triangular_matrix.column MT bj t * bs = bj * bs
  · rw [if_pos hd, if_pos hd]
    unfold packed_values
    apply List.flatMap_congr
    intro jj hjj
    apply List.map_congr_left
    intro u hu
    have hjj' := List.mem_range.1 hjj
    have hu' := List.mem_range.1 hu
    have hcases : (MT = triangular_matrix_type.upper ∧ jj ≤ triangular_matrix.column MT jj u
          ∧ triangular_matrix.column MT jj u < min (n - bj * bs) bs)
        ∨ (MT = triangular_matrix_type.lower ∧ triangular_matrix.column MT jj u ≤ jj) := by
      cases MT
      · right
        refine ⟨rfl, ?_⟩
        have h1 : u < jj + 1 := hu'
        show u ≤ jj
        omega
      · left
        refine ⟨rfl, ?_, ?_⟩
        · show jj ≤ jj + u
          omega
        · have h1 : u < min (n - bj * bs) bs - jj := hu'
          show jj + u < min (n - bj * bs) bs
          omega
    apply hagree
    · omega
    · rcases hcases with ⟨_, _, h⟩ | ⟨_, h⟩
      · omega
      · omega
    · rcases hcases with ⟨h0, h, _⟩ | ⟨h0, h⟩
      · exact Or.inl ⟨h0, by omega⟩
      · exact Or.inr ⟨h0, by omega⟩
  · rw [if_neg hd, if_neg hd]
    unfold block_values
    apply List.map_congr_left
    intro p hp
    have hp' := List.mem_range.1 hp
    have hnn : 0 < min (n - triangular_matrix.column MT bj t * bs) bs := by
      rcases Nat.eq_zero_or_pos (min (n - triangular_matrix.column MT bj t * bs) bs) with h | h
      · rw [h, Nat.mul_zero] at hp'
        omega
      · exact h
    have hrow : p / min (n - triangular_matrix.column MT bj t * bs) bs < min (n - bj * bs) bs :=
      Nat.div_lt_of_lt_mul (by rw [Nat.mul_comm]; exact hp')
    have hcol := Nat.mod_lt p hnn
    have hcases : (MT = triangular_matrix_type.upper
          ∧ bj * bs + bs ≤ triangular_matrix.column MT bj t * bs)
        ∨ (MT = triangular_matrix_type.lower
          ∧ triangular_matrix.column MT bj t * bs + bs ≤ bj * bs) := by
      cases MT
      · right
        refine ⟨rfl, ?_⟩
        have h1 : t < bj + 1 := ht
        have hne : t ≠ bj := fun h => hd (by show t * bs = bj * bs; rw [h])
        have hlt : t + 1 ≤ bj := by omega
        have := Nat.mul_le_mul_right bs hlt
        rw [Nat.add_mul, Nat.one_mul] at this
        exact this
      · left
        refine ⟨rfl, ?_⟩
        have hne : t ≠ 0 := fun h => hd (by show (bj + t) * bs = bj * bs; rw [h, Nat.add_zero])
        have hlt : bj + 1 ≤ bj + t := by omega
        have := Nat.mul_le_mul_right bs hlt
        rw [Nat.add_mul, Nat.one_mul] at this
        exact this
    generalize bj * bs = J at hj hrow hcases ⊢
    generalize triangular_matrix.column MT bj t * bs = I at hnn hrow hcol hcases ⊢
    generalize p / min (n - I) bs = a at hrow ⊢
    generalize p % min (n - I) bs = b at hcol ⊢
    apply hagree
    · omega
    · omega
    · rcases hcases with ⟨h0, h⟩ | ⟨h0, h⟩
      · exact Or.inl ⟨h0, by omega⟩
      · exact Or.inr ⟨h0, by omega⟩

/-- The stream after the block loops of `triangular_matrix::compress`: the codec
images of the logical values of the blocks, stored at the running pointer. -/
theorem triangular_matrix.tri_compress_loop_stream {α β : Type} (F : fp α β)
    (MT : triangular_matrix_type) (data : Nat → α) (n ld bs eA eB eC : Nat) (hbs : 0 < bs)
    (buffer : Nat → α) (stream : Nat → β) :
    (triangular_matrix.compress_loop MT n bs eA eB eC
        (triangular_matrix.compress_block F MT data n ld bs) (0, (buffer, stream))).2.2
      = (List.range (num_blocks n bs)).foldl (fun y bj =>
          (List.range (triangular_matrix.row_count MT (num_blocks n bs) bj)).foldl (fun y t =>
            blit y
              ((∑ q ∈ Finset.range bj,
                  ∑ d ∈ Finset.range (triangular_matrix.row_count MT (num_blocks n bs) q),
                    triangular_matrix.advance MT n bs eA eB eC (q * bs)
                      (triangular_matrix.column MT q d * bs))
                + ∑ d ∈ Finset.range t,
                    triangular_matrix.advance MT n bs eA eB eC (bj * bs)
                      (triangular_matrix.column MT bj d * bs))
              (F.compress (triangular_matrix.logical_values MT data n ld bs (bj * bs)
                (triangular_matrix.column MT bj t * bs)))) y) stream := by
  rw [triangular_matrix.tri_compress_loop_thread MT n bs _ _ _ hbs]
  simp only
  rw [nested_foldl_snd
    (fun r c => triangular_matrix.compress_block F MT data n ld bs (r * bs)
      (triangular_matrix.column MT r c * bs) _)
    (fun r c y => blit y _ (F.compress (triangular_matrix.logical_values MT data n ld bs
      (r * bs) (triangular_matrix.column MT r c * bs))))
    (fun r c x y => triangular_matrix.tri_compress_block_snd F MT data n ld bs (r * bs)
      (triangular_matrix.column MT r c * bs) _ x y)]

/-- The running pointer after the block loops of `triangular_matrix::compress`
does not depend on the body of the loops. -/
theorem triangular_matrix.tri_compress_loop_fst {σ τ : Type} (MT : triangular_matrix_type)
    (n bs eA eB eC : Nat) (hbs : 0 < bs) (visit : Nat → Nat → Nat → σ → σ)
    (visit' : Nat → Nat → Nat → τ → τ) (s : σ) (s' : τ) :
    (triangular_matrix.compress_loop MT n bs eA eB eC visit (0, s)).1
      = (triangular_matrix.compress_loop MT n bs eA eB eC visit' (0, s')).1 := by
  rw [triangular_matrix.tri_compress_loop_thread MT n bs _ _ _ hbs,
    triangular_matrix.tri_compress_loop_thread MT n bs _ _ _ hbs]

/-- C30: `triangular_matrix::compress` depends on the stored triangle only.  For
`n ≥ 1`, `bs ≥ 1`, `ld ≥ n`, an orientation `MT` and every codec: two dense
sources that agree on the entries `(r, c)` with `r, c < n` of the `MT` triangle
(`c ≥ r` for upper, `c ≤ r` for lower) give the same stream and the same
return value, whatever the scratch array held before. -/
theorem triangular_compress_reads_triangle {α β : Type} (F : fp α β)
    (MT : triangular_matrix_type) (data data' : Nat → α) (stream : Nat → β)
    (n ld bs : Nat) (mat : Option geometry) (buffer buffer' : Nat → α)
    (_hn : 1 ≤ n) (hbs : 1 ≤ bs) (_hld : n ≤ ld)
    (hagree : ∀ r c, r < n → c < n →
      ((MT = triangular_matrix_type.upper ∧ r ≤ c)
        ∨ (MT = triangular_matrix_type.lower ∧ c ≤ r)) →
      data (r * ld + c) = data' (r * ld + c)) :
    triangular_matrix.compress F MT (some data) (some stream) n ld bs mat buffer
      = triangular_matrix.compress F MT (some data') (some stream) n ld bs mat buffer' := by
  have hstream : ∀ eA eB eC,
      (triangular_matrix.compress_loop MT n bs eA eB eC
          (triangular_matrix.compress_block F MT data n ld bs) (0, (buffer, stream))).2.2
        = (triangular_matrix.compress_loop MT n bs eA eB eC
          (triangular_matrix.compress_block F MT data' n ld bs) (0, (buffer', stream))).2.2 := by
    intro eA eB eC
    rw [triangular_matrix.tri_compress_loop_stream F MT data n ld bs eA eB eC hbs,
      triangular_matrix.tri_compress_loop_stream F MT data' n ld bs eA eB eC hbs]
    apply List.foldl_ext
    intro y bj hbj
    apply List.foldl_ext
    intro y t ht
    rw [triangular_matrix.logical_values_congr MT data data' n ld bs bj t hbs
      (List.mem_range.1 hbj) (List.mem_range.1 ht) hagree]
  have hptr : ∀ eA eB eC,
      (triangular_matrix.compress_loop MT n bs eA eB eC
          (triangular_matrix.compress_block F MT data n ld bs) (0, (buffer, stream))).1
        = (triangular_matrix.compress_loop MT n bs eA eB eC
          (triangular_matrix.compress_block F MT data' n ld bs) (0, (buffer', stream))).1 :=
    fun eA eB eC => triangular_matrix.tri_compress_loop_fst MT n bs eA eB eC hbs _ _ _ _
  unfold triangular_matrix.compress
  simp only [hstream, hptr]

/-- Witness of C30: the upper orientation, `n = 2`, `bs = 2`, the identity codec;
a source whose entry `(1, 0)` below the diagonal is `7` and the zero source give
the same result. -/
theorem triangular_compress_reads_triangle_witness :
    triangular_matrix.compress (fp.identity ℤ) triangular_matrix_type.upper
        (some (fun p => if p = 2 then 7 else 0)) (some (fun _ => 0)) 2 2 2 none (fun _ => 0)
      = triangular_matrix.compress (fp.identity ℤ) triangular_matrix_type.upper
        (some (fun _ => 0)) (some (fun _ => 0)) 2 2 2 none (fun _ => 0) :=
  triangular_compress_reads_triangle (fp.identity ℤ) triangular_matrix_type.upper
    (fun p => if p = 2 then 7 else 0) (fun _ => 0) (fun _ => 0) 2 2 2 none (fun _ => 0)
    (fun _ => 0) (by decide) (by decide) (by decide)
    (fun r c hr hc h => by
      rcases h with ⟨_, h⟩ | ⟨h, _⟩
      · have hne : r * 2 + c ≠ 2 := by omega
        simp only [hne, if_false]
      · exact absurd h (by decide))

end fw.blas


namespace fw.blas

/-! ## The blocks reached by the triangular traversals -/

end fw.blas


namespace fw.blas

end fw.blas


namespace fw.blas

/-! ## The order of the events of `solve` -/

end fw.blas


namespace fw.blas

end fw.blas


namespace fw.blas

/-! ## Counting the blocks of a traversal -/

end fw.blas


namespace fw.blas

/-! ## Counting the blocks of the triangle -/

/-- The block counts `K = n / bs` and `N = ceil(n / bs)` differ by at most one. -/
theorem num_blocks_bounds (n bs : Nat) (hbs : 0 < bs) :
    n / bs ≤ num_blocks n bs ∧ num_blocks n bs ≤ n / bs + 1 := by
  have h := num_blocks_eq n bs hbs
  split at h <;> omega

section tricount
variable (n bs : Nat) (hbs : 0 < bs) (P : Nat → Nat → Nat)
include hbs

end tricount

end fw.blas


namespace fw.blas

end fw.blas


namespace fw.blas

/-! ## Sequences made of rows: order, neighbours, ends -/

section grid
variable {γ : Type} (cnt : Nat → Nat) (g : Nat → Nat → γ)

end grid

end fw.blas


namespace fw.blas

/-! ## The stream ranges written by `matrix::compress` -/

end fw.blas


namespace fw.blas

end fw.blas


namespace fw.blas

/-! ## The stream ranges written by `triangular_matrix::compress` -/

end fw.blas


namespace fw.blas

end fw.blas


namespace fw.blas

/-! ## Nothing is written outside the ranges of the blocks -/

end fw.blas


namespace fw.blas

end fw.blas


namespace fw.blas

/-! ## Loops and invariants -/

/-- A property kept by the body of an ascending loop is kept by the loop. -/
theorem forUp_preserves {σ : Type} (P : σ → Prop) (body : Nat → σ → σ) (stop step : Nat)
    (h : ∀ j s, j < stop → P s → P (body j s)) :
    ∀ (fuel start : Nat) (s : σ), P s → P (forUp body stop step fuel start s) := by
  intro fuel
  induction fuel with
  | zero => intro start s hs; exact hs
  | succ fuel ih =>
    intro start s hs
    unfold forUp
    split
    · rename_i hlt
      exact ih _ _ (h start s hlt hs)
    · exact hs

/-- A property kept by the body of a descending loop is kept by the loop. -/
theorem forDown_preserves {σ : Type} (P : σ → Prop) (body : Nat → σ → σ) (stop : Nat)
    (h : ∀ j s, P s → P (body j s)) :
    ∀ (fuel start : Nat) (s : σ), P s → P (forDown body stop fuel start s) := by
  intro fuel
  induction fuel with
  | zero => intro start s hs; exact hs
  | succ fuel ih =>
    intro start s hs
    unfold forDown
    split
    · split
      · exact h start s hs
      · exact ih _ _ (h start s hs)
    · exact hs

/-! ## The scratch arrays -/

theorem blit_zero_map {γ : Type} (b0 : Nat → γ) (count : Nat) (g : Nat → γ) :
    blit b0 0 ((List.range count).map g) = fun p => if p < count then g p else b0 p := by
  funext p
  unfold blit
  rw [if_pos (Nat.zero_le _), Nat.sub_zero]
  by_cases h : p < count
  · rw [if_pos h, List.getD_eq_getElem?_getD, List.getElem?_map, List.getElem?_range h]
    rfl
  · rw [if_neg h, List.getD_eq_default]
    rw [List.length_map, List.length_range]
    omega

theorem min_mul_min_le (a b bs : Nat) : min a bs * min b bs ≤ bs * bs :=
  Nat.mul_le_mul (Nat.min_le_right _ _) (Nat.min_le_right _ _)

theorem half_succ_le_sq (k : Nat) : (k * (k + 1)) / 2 ≤ k * k := by
  rcases Nat.eq_zero_or_pos k with h | h
  · subst h
    simp
  · apply Nat.div_le_of_le_mul
    have : k + 1 ≤ 2 * k := by omega
    calc k * (k + 1) ≤ k * (2 * k) := Nat.mul_le_mul_left k this
      _ = 2 * (k * k) := by ring

theorem packed_count_le (a bs : Nat) : (min a bs * (min a bs + 1)) / 2 ≤ bs * bs :=
  Nat.le_trans (half_succ_le_sq _) (min_mul_min_le a a bs)

/-- The index `jj * nn + ii` of the rectangle copy lies below `mm * nn`. -/
theorem rect_index_lt (mm nn jj ii : Nat) (hjj : jj < mm) (hii : ii < nn) :
    jj * nn + ii < mm * nn := by
  calc jj * nn + ii < jj * nn + nn := by omega
    _ = (jj + 1) * nn := by ring
    _ ≤ mm * nn := Nat.mul_le_mul_right nn hjj

/-- The scratch array after the body of the block loops of `matrix::compress`:
the rectangle of the source at the indices `0, .., mm * nn - 1`. -/
theorem matrix.compress_block_fst {α β : Type} (F : fp α β) (data : Nat → α)
    (m n ld bs j i ptr : Nat) (s : (Nat → α) × (Nat → β)) :
    (matrix.compress_block F data m n ld bs j i ptr s).1
      = blit s.1 0 (block_values data ld j i (min (m - j) bs) (min (n - i) bs)) := by
  unfold matrix.compress_block block_values
  simp only
  have hin := fun (body : Nat → (Nat → α) → (Nat → α)) (st : Nat → α) =>
    forUp_one_eq_foldl body (min (n - i) bs) (min (n - i) bs) 0 st (by omega)
  have hout := fun (body : Nat → (Nat → α) → (Nat → α)) (st : Nat → α) =>
    forUp_one_eq_foldl body (min (m - j) bs) (min (m - j) bs) 0 st (by omega)
  simp only [Nat.sub_zero, Nat.zero_add] at hin hout
  rw [hout]
  simp only [hin]
  rw [foldl_copy_rect (min (n - i) bs) (fun jj ii => data ((j + jj) * ld + (i + ii))),
    blit_zero_map]

end fw.blas


namespace fw.blas

/-- The scratch array after the body of the block loops of
`triangular_matrix::compress`: the logical values of the block at the indices
from `0` on, the packed triangle of a diagonal block through the counter `kk`,
the rectangle of another block through `jj * nn + ii`. -/
theorem triangular_matrix.tri_compress_block_fst {α β : Type} (F : fp α β)
    (MT : triangular_matrix_type) (data : Nat → α)
    (n ld bs j i ptr : Nat) (s : (Nat → α) × (Nat → β)) :
    (triangular_matrix.compress_block F MT data n ld bs j i ptr s).1
      = blit s.1 0 (triangular_matrix.logical_values MT data n ld bs j i) := by
  unfold triangular_matrix.compress_block triangular_matrix.logical_values
  simp only
  have hout := fun (body : Nat → Nat × (Nat → α) → Nat × (Nat → α)) (st : Nat × (Nat → α)) =>
    forUp_one_eq_foldl body (min (n - j) bs) (min (n - j) bs) 0 st (by omega)
  simp only [Nat.sub_zero, Nat.zero_add] at hout
  rw [hout]
  by_cases hij : i = j
  · subst hij
    simp only [if_true]
    have hrow : ∀ (jj : Nat) (s : Nat × (Nat → α)),
        forUp (fun ii (s : Nat × (Nat → α)) =>
            (s.1 + 1, set_at s.2 s.1 (data ((i + jj) * ld + (i + ii)))))
          (if MT = triangular_matrix_type.upper then min (n - i) bs else jj + 1) 1
          (if MT = triangular_matrix_type.upper then min (n - i) bs else jj + 1)
          (if MT = triangular_matrix_type.upper then jj else 0) s
        = (List.range (triangular_matrix.row_count MT (min (n - i) bs) jj)).foldl
            (fun (s : Nat × (Nat → α)) t =>
              (s.1 + 1, set_at s.2 s.1
                (data ((i + jj) * ld + (i + triangular_matrix.column MT jj t))))) s := by
      intro jj s
      cases MT
      · simp only [reduceCtorEq, if_false, triangular_matrix.row_count,
          triangular_matrix.column]
        have := forUp_one_eq_foldl (fun ii (s : Nat × (Nat → α)) =>
            (s.1 + 1, set_at s.2 s.1 (data ((i + jj) * ld + (i + ii)))))
          (jj + 1) (jj + 1) 0 s (by omega)
        simpa using this
      · simp only [if_true, triangular_matrix.row_count, triangular_matrix.column]
        exact forUp_one_eq_foldl _ _ _ jj s (by omega)
    simp only [hrow]
    rw [foldl_pack (triangular_matrix.row_count MT (min (n - i) bs))
      (fun jj t => data ((i + jj) * ld + (i + triangular_matrix.column MT jj t)))]
    rfl
  · simp only [if_neg hij]
    have hin := fun (body : Nat → (Nat → α) → (Nat → α)) (st : Nat → α) =>
      forUp_one_eq_foldl body (min (n - i) bs) (min (n - i) bs) 0 st (by omega)
    simp only [Nat.sub_zero, Nat.zero_add] at hin
    simp only [hin]
    rw [foldl_pair_fst (fun jj b => (List.range (min (n - i) bs)).foldl
      (fun b ii => set_at b (jj * min (n - i) bs + ii) (data ((j + jj) * ld + (i + ii)))) b)]
    simp only
    rw [foldl_copy_rect (min (n - i) bs) (fun jj ii => data ((j + jj) * ld + (i + ii)))]
    unfold block_values
    rw [blit_zero_map]

/-- The body of the block loops of `matrix::compress` leaves the scratch array
as it was from the index `mm * nn` on. -/
theorem matrix.compress_block_scratch {α β : Type} (F : fp α β) (data : Nat → α)
    (m n ld bs j i ptr : Nat) (s : (Nat → α) × (Nat → β)) (q : Nat)
    (hq : min (m - j) bs * min (n - i) bs ≤ q) :
    (matrix.compress_block F data m n ld bs j i ptr s).1 q = s.1 q := by
  rw [matrix.compress_block_fst]
  apply blit_of_ge
  rw [block_values_length]
  omega

/-- The body of the block loops of `triangular_matrix::compress` leaves the
scratch array as it was from the logical count of the block on. -/
theorem triangular_matrix.tri_compress_block_scratch {α β : Type} (F : fp α β)
    (MT : triangular_matrix_type) (data : Nat → α)
    (n ld bs j i ptr : Nat) (s : (Nat → α) × (Nat → β)) (q : Nat)
    (hq : (if i = j then (min (n - j) bs * (min (n - j) bs + 1)) / 2
        else min (n - j) bs * min (n - i) bs) ≤ q) :
    (triangular_matrix.compress_block F MT data n ld bs j i ptr s).1 q = s.1 q := by
  rw [triangular_matrix.tri_compress_block_fst]
  apply blit_of_ge
  rw [triangular_matrix.logical_values_length]
  omega

/-- The logical count of a block of a triangular matrix is at most
`bs * bs`. -/
theorem triangular_matrix.logical_count_le (n bs j i : Nat) :
    (if i = j then (min (n - j) bs * (min (n - j) bs + 1)) / 2
      else min (n - j) bs * min (n - i) bs) ≤ bs * bs := by
  split
  · exact packed_count_le _ bs
  · exact min_mul_min_le _ _ bs

/-- The block loops of `matrix::compress` leave the scratch array as it was
from the index `bs * bs` on. -/
theorem matrix.compress_loop_scratch {α β : Type} (F : fp α β) (data : Nat → α)
    (m n ld bs eA eB eC : Nat) (st : Nat × (Nat → α) × (Nat → β)) (q : Nat)
    (hq : bs * bs ≤ q) :
    (matrix.compress_loop m n bs eA eB eC (matrix.compress_block F data m n ld bs) st).2.1 q
      = st.2.1 q := by
  unfold matrix.compress_loop
  refine forUp_preserves (fun s : Nat × (Nat → α) × (Nat → β) => s.2.1 q = st.2.1 q) _ m bs
    ?_ m 0 st rfl
  intro j s _ hs
  refine forUp_preserves (fun s : Nat × (Nat → α) × (Nat → β) => s.2.1 q = st.2.1 q) _ n bs
    ?_ n 0 s hs
  intro i s _ hs
  show (matrix.compress_block F data m n ld bs j i s.1 s.2).1 q = st.2.1 q
  rw [matrix.compress_block_scratch F data m n ld bs j i s.1 s.2 q
    (Nat.le_trans (min_mul_min_le _ _ bs) hq)]
  exact hs

/-- The block loops of `triangular_matrix::compress` leave the scratch array
as it was from the index `bs * bs` on. -/
theorem triangular_matrix.tri_compress_loop_scratch {α β : Type} (F : fp α β)
    (MT : triangular_matrix_type) (data : Nat → α)
    (n ld bs eA eB eC : Nat) (st : Nat × (Nat → α) × (Nat → β)) (q : Nat)
    (hq : bs * bs ≤ q) :
    (triangular_matrix.compress_loop MT n bs eA eB eC
        (triangular_matrix.compress_block F MT data n ld bs) st).2.1 q
      = st.2.1 q := by
  unfold triangular_matrix.compress_loop
  refine forUp_preserves (fun s : Nat × (Nat → α) × (Nat → β) => s.2.1 q = st.2.1 q) _ n bs
    ?_ n 0 st rfl
  intro j s _ hs
  refine forUp_preserves (fun s : Nat × (Nat → α) × (Nat → β) => s.2.1 q = st.2.1 q) _ _ bs
    ?_ _ _ s hs
  intro i s _ hs
  show (triangular_matrix.compress_block F MT data n ld bs j i s.1 s.2).1 q = st.2.1 q
  rw [triangular_matrix.tri_compress_block_scratch F MT data n ld bs j i s.1 s.2 q
    (Nat.le_trans (triangular_matrix.logical_count_le n bs j i) hq)]
  exact hs

end fw.blas


namespace fw.blas

/-! ## The accumulators of the kernels -/

section accumulators
variable {α β : Type}

/-- The loop `for (jj = 0; jj < len; ++jj) b[jj] = v jj b` leaves `b` as it was
from the index `len` on. -/
theorem forUp_set_at_frame {γ : Type} (v : Nat → (Nat → γ) → γ) (len : Nat) (b : Nat → γ)
    (q : Nat) (hq : len ≤ q) :
    forUp (fun jj b => set_at b jj (v jj b)) len 1 len 0 b q = b q := by
  refine forUp_preserves (fun b' : Nat → γ => b' q = b q) _ len 1 ?_ len 0 b rfl
  intro jj b' hjj hb
  show set_at b' jj (v jj b') q = b q
  unfold set_at
  rw [if_neg (by omega)]
  exact hb

theorem gemv_frame [CommRing α] (t : Bool) (M N : Nat) (alpha : α) (A : Nat → α) (lda : Nat)
    (X : Nat → α) (beta : α) (Y : Nat → α) (q : Nat) (hq : (if t then N else M) ≤ q) :
    gemv t M N alpha A lda X beta Y q = Y q := by
  unfold gemv
  cases t
  · simp only [Bool.false_eq_true, if_false] at hq ⊢
    rw [if_neg (by omega)]
  · simp only [if_true] at hq ⊢
    rw [if_neg (by omega)]

theorem tpmv_frame [CommRing α] (MT : triangular_matrix_type) (t : Bool) (N : Nat)
    (Ap X : Nat → α) (q : Nat) (hq : N ≤ q) : tpmv MT t N Ap X q = X q := by
  unfold tpmv
  rw [if_neg (by omega)]

/-- The body of the first pass of `triangular_matrix::matrix_vector` leaves the
accumulator `buffer_y` as it was from the index `nn` on. -/
theorem triangular_matrix.matrix_vector_block_1_accumulator [CommRing α] (F : fp α β)
    (MT : triangular_matrix_type) (A : matrix β) (t : Bool) (alpha : α) (x y : Ptr)
    (j i k : Nat) (s : (Nat → α) × (Nat → α) × (Ptr → α)) (q : Nat)
    (hq : min (A.n - i) A.bs ≤ q) :
    (triangular_matrix.matrix_vector_block_1 F MT A t alpha x y j i k s).2.1 q = s.2.1 q := by
  unfold triangular_matrix.matrix_vector_block_1
  by_cases h : i = j
  · simp only [if_pos h]
    rw [tpmv_frame MT t _ _ _ q hq]
    exact forUp_set_at_frame (fun jj _ => s.2.2 (x.add (j + jj))) _ s.2.1 q hq
  · simp only [if_neg h]

/-- The body of the inner loop of `solve` leaves the accumulator `buffer_x` as
it was from the index `mm` on. -/
theorem triangular_matrix.solve_block_accumulator [Field α] (F : fp α β)
    (MT : triangular_matrix_type) (A : matrix β) (t : Bool) (y : Ptr) (bj bi mm : Nat)
    (s : (Nat → α) × (Nat → α) × (Ptr → α)) (q : Nat) (hq : mm ≤ q) :
    (triangular_matrix.solve_block F MT A t y bj bi mm s).2.1 q = s.2.1 q := by
  unfold triangular_matrix.solve_block
  cases t
  · simp only [Bool.false_eq_true, if_false]
    exact gemv_frame false mm _ 1 _ _ _ 1 s.2.1 q hq
  · simp only [if_true]
    exact gemv_frame true _ mm 1 _ _ _ 1 s.2.1 q hq

/-- The block loops of the first pass of `triangular_matrix::matrix_vector`
leave the accumulator `buffer_y` as it was from the index `bs` on. -/
theorem triangular_matrix.matrix_vector_loop_1_accumulator [CommRing α] (F : fp α β)
    (MT : triangular_matrix_type) (A : matrix β) (t : Bool) (alpha : α) (x y : Ptr)
    (eA eB eC : Nat) (st : Nat × (Nat → α) × (Nat → α) × (Ptr → α)) (q : Nat)
    (hq : A.bs ≤ q) :
    (triangular_matrix.matrix_vector_loop_1 MT A.n A.bs eA eB eC
        (triangular_matrix.matrix_vector_block_1 F MT A t alpha x y) st).2.2.1 q
      = st.2.2.1 q := by
  unfold triangular_matrix.matrix_vector_loop_1
  refine forUp_preserves
    (fun s : Nat × (Nat → α) × (Nat → α) × (Ptr → α) => s.2.2.1 q = st.2.2.1 q) _ A.n A.bs
    ?_ A.n 0 st rfl
  intro j s _ hs
  refine forUp_preserves
    (fun s : Nat × (Nat → α) × (Nat → α) × (Ptr → α) => s.2.2.1 q = st.2.2.1 q) _ _ A.bs
    ?_ _ _ s hs
  intro i s _ hs
  show (triangular_matrix.matrix_vector_block_1 F MT A t alpha x y j i s.1 s.2).2.1 q
    = st.2.2.1 q
  rw [triangular_matrix.matrix_vector_block_1_accumulator F MT A t alpha x y j i s.1 s.2 q
    (Nat.le_trans (Nat.min_le_right _ _) hq)]
  exact hs

/-- The block loops of the second pass of `triangular_matrix::matrix_vector`
do not write the accumulator `buffer_y`. -/
theorem triangular_matrix.matrix_vector_loop_2_accumulator [CommRing α] (F : fp α β)
    (MT : triangular_matrix_type) (A : matrix β) (t : Bool) (alpha : α) (x y : Ptr)
    (eA eB eC : Nat) (st : Nat × (Nat → α) × (Nat → α) × (Ptr → α)) :
    (triangular_matrix.matrix_vector_loop_2 MT A.n A.bs eA eB eC
        (triangular_matrix.matrix_vector_block_2 F A t alpha x y) st).2.2.1
      = st.2.2.1 := by
  unfold triangular_matrix.matrix_vector_loop_2
  refine forUp_preserves
    (fun s : Nat × (Nat → α) × (Nat → α) × (Ptr → α) => s.2.2.1 = st.2.2.1) _ A.n A.bs
    ?_ A.n 0 st rfl
  intro j s _ hs
  refine forUp_preserves
    (fun s : Nat × (Nat → α) × (Nat → α) × (Ptr → α) => s.2.2.1 = st.2.2.1) _ _ A.bs
    ?_ _ _ s hs
  intro i s _ hs
  show (triangular_matrix.matrix_vector_block_2 F A t alpha x y j i s.1 s.2).2.1 = st.2.2.1
  unfold triangular_matrix.matrix_vector_block_2
  by_cases h : i = j
  · simp only [if_pos h]
    exact hs
  · simp only [if_neg h]
    exact hs

/-- The block loops of the kernel of `solve` leave the accumulator `buffer_x`
as it was from the index `bs` on. -/
theorem triangular_matrix.solve_loops_accumulator [Field α] (F : fp α β)
    (MT : triangular_matrix_type) (A : matrix β) (t : Bool) (x y : Ptr) (extra : Nat)
    (st : (Nat → α) × (Nat → α) × (Ptr → α)) (q : Nat) (hq : A.bs ≤ q) :
    (triangular_matrix.solve_loops MT A.n A.bs t extra
        (fun bj s => (s.1, forUp (fun jj b => set_at b jj 0) (min (A.n - bj * A.bs) A.bs) 1
          (min (A.n - bj * A.bs) A.bs) 0 s.2.1, s.2.2))
        (fun bj bi s =>
          triangular_matrix.solve_block F MT A t y bj bi (min (A.n - bj * A.bs) A.bs) s)
        (fun bj s =>
          triangular_matrix.solve_diagonal F MT A t x y bj (min (A.n - bj * A.bs) A.bs) s)
        st).2.1 q
      = st.2.1 q := by
  have hstart : ∀ (bj : Nat) (s : (Nat → α) × (Nat → α) × (Ptr → α)),
      s.2.1 q = st.2.1 q →
      (forUp (fun jj b => set_at b jj (0 : α)) (min (A.n - bj * A.bs) A.bs) 1
        (min (A.n - bj * A.bs) A.bs) 0 s.2.1) q = st.2.1 q := by
    intro bj s hs
    rw [forUp_set_at_frame (fun _ _ => (0 : α)) _ s.2.1 q
      (Nat.le_trans (Nat.min_le_right _ _) hq)]
    exact hs
  have hvisit : ∀ (bj bi : Nat) (s : (Nat → α) × (Nat → α) × (Ptr → α)),
      s.2.1 q = st.2.1 q →
      (triangular_matrix.solve_block F MT A t y bj bi (min (A.n - bj * A.bs) A.bs) s).2.1 q
        = st.2.1 q := by
    intro bj bi s hs
    rw [triangular_matrix.solve_block_accumulator F MT A t y bj bi _ s q
      (Nat.le_trans (Nat.min_le_right _ _) hq)]
    exact hs
  unfold triangular_matrix.solve_loops
  split
  · refine forUp_preserves (fun s : (Nat → α) × (Nat → α) × (Ptr → α) => s.2.1 q = st.2.1 q)
      _ _ 1 ?_ _ 0 st rfl
    intro bj s _ hs
    show (forUp (fun bi s =>
        triangular_matrix.solve_block F MT A t y bj bi (min (A.n - bj * A.bs) A.bs) s) bj 1
      (bj + extra) 0 _).2.1 q = st.2.1 q
    refine forUp_preserves (fun s : (Nat → α) × (Nat → α) × (Ptr → α) => s.2.1 q = st.2.1 q)
      _ bj 1 ?_ _ 0 _ (hstart bj s hs)
    intro bi s _ hs
    exact hvisit bj bi s hs
  · split
    · refine forDown_preserves
        (fun s : (Nat → α) × (Nat → α) × (Ptr → α) => s.2.1 q = st.2.1 q) _ 0 ?_ _ _ st rfl
      intro bj s hs
      show (forDown (fun bi s =>
          triangular_matrix.solve_block F MT A t y bj bi (min (A.n - bj * A.bs) A.bs) s)
        (bj + 1) _ _ _).2.1 q = st.2.1 q
      refine forDown_preserves
        (fun s : (Nat → α) × (Nat → α) × (Ptr → α) => s.2.1 q = st.2.1 q) _ (bj + 1) ?_ _ _ _
        (hstart bj s hs)
      intro bi s hs
      exact hvisit bj bi s hs
    · rfl

end accumulators

end fw.blas


namespace fw.blas

/-- C31: scratch bounds, for all extents and block sizes (in particular
`m, n ≥ 1` and `bs ≥ 1`).  In `matrix::compress` the copy into the scratch array
writes the rectangle at the indices `jj * nn + ii < mm * nn ≤ bs * bs`, and in
`triangular_matrix::compress` the packed triangle of a diagonal block through
the counter `kk` at the indices below `mm * (mm + 1) / 2 ≤ bs * bs`: the scratch
array afterwards is the old one with the logical values of the block stored
from `0` on, and over the whole of the block loops it is unchanged from the
index `bs * bs` on.  The logical counts passed to the codec, `mm * nn` or
`mm * (mm + 1) / 2`, are at most `bs * bs` in `compress`, in the three
`matrix_vector` kernels, in `symmetric_matrix_vector` and in `solve`.  The
accumulator `buffer_y` of the triangular `matrix_vector` and the accumulator
`buffer_x` of `solve` are unchanged from the index `bs` on over the whole of
the block loops. -/
theorem scratch_bounds {α β : Type} [Field α] (F : fp α β) (MT : triangular_matrix_type)
    (m n bs : Nat) :
    (∀ (data : Nat → α) (ld j i ptr : Nat) (s : (Nat → α) × (Nat → β)),
      (matrix.compress_block F data m n ld bs j i ptr s).1
          = blit s.1 0 (block_values data ld j i (min (m - j) bs) (min (n - i) bs))
        ∧ (block_values data ld j i (min (m - j) bs) (min (n - i) bs)).length
          = min (m - j) bs * min (n - i) bs
        ∧ (matrix.compress_block F data m n ld bs j i ptr s).2
          = F.compress_at s.2 ptr (matrix.compress_block F data m n ld bs j i ptr s).1
              (min (m - j) bs * min (n - i) bs)
        ∧ min (m - j) bs * min (n - i) bs ≤ bs * bs
        ∧ (∀ jj ii, jj < min (m - j) bs → ii < min (n - i) bs →
            jj * min (n - i) bs + ii < bs * bs)
        ∧ (∀ q, bs * bs ≤ q →
            (matrix.compress_block F data m n ld bs j i ptr s).1 q = s.1 q))
    ∧ (∀ (data : Nat → α) (ld eA eB eC : Nat) (st : Nat × (Nat → α) × (Nat → β)) (q : Nat),
        bs * bs ≤ q →
        (matrix.compress_loop m n bs eA eB eC (matrix.compress_block F data m n ld bs)
          st).2.1 q = st.2.1 q)
    ∧ (∀ (data : Nat → α) (ld j i ptr : Nat) (s : (Nat → α) × (Nat → β)),
      (triangular_matrix.compress_block F MT data n ld bs j i ptr s).1
          = blit s.1 0 (triangular_matrix.logical_values MT data n ld bs j i)
        ∧ (triangular_matrix.logical_values MT data n ld bs j i).length
          = (if i = j then (min (n - j) bs * (min (n - j) bs + 1)) / 2
              else min (n - j) bs * min (n - i) bs)
        ∧ (triangular_matrix.compress_block F MT data n ld bs j i ptr s).2
          = F.compress_at s.2 ptr
              (triangular_matrix.compress_block F MT data n ld bs j i ptr s).1
              (if i = j then (min (n - j) bs * (min (n - j) bs + 1)) / 2
                else min (n - j) bs * min (n - i) bs)
        ∧ (if i = j then (min (n - j) bs * (min (n - j) bs + 1)) / 2
            else min (n - j) bs * min (n - i) bs) ≤ bs * bs
        ∧ (∀ jj ii, jj < min (n - j) bs → ii < min (n - i) bs →
            jj * min (n - i) bs + ii < bs * bs)
        ∧ (∀ q, bs * bs ≤ q →
            (triangular_matrix.compress_block F MT data n ld bs j i ptr s).1 q = s.1 q))
    ∧ (∀ (data : Nat → α) (ld eA eB eC : Nat) (st : Nat × (Nat → α) × (Nat → β)) (q : Nat),
        bs * bs ≤ q →
        (triangular_matrix.compress_loop MT n bs eA eB eC
          (triangular_matrix.compress_block F MT data n ld bs) st).2.1 q = st.2.1 q)
    ∧ (∀ (A : matrix β) (t : Bool) (alpha : α) (x y : Ptr) (j i k : Nat)
        (s : (Nat → α) × (Ptr → α)),
        (matrix.matrix_vector_block F A t alpha x y j i k s).1
            = F.decompress_at s.1 A.compressed_data k
                (min (A.m - j) A.bs * min (A.n - i) A.bs)
          ∧ min (A.m - j) A.bs * min (A.n - i) A.bs ≤ A.bs * A.bs)
    ∧ (∀ (A : matrix β) (t : Bool) (alpha : α) (x y : Ptr) (j i k : Nat)
        (s : (Nat → α) × (Nat → α) × (Ptr → α)),
        (i = j →
          (triangular_matrix.matrix_vector_block_1 F MT A t alpha x y j i k s).1
            = F.decompress_at s.1 A.compressed_data k
                ((min (A.n - i) A.bs * (min (A.n - i) A.bs + 1)) / 2))
          ∧ (min (A.n - i) A.bs * (min (A.n - i) A.bs + 1)) / 2 ≤ A.bs * A.bs
          ∧ (i ≠ j →
            (triangular_matrix.matrix_vector_block_2 F A t alpha x y j i k s).1
              = F.decompress_at s.1 A.compressed_data k
                  (min (A.n - j) A.bs * min (A.n - i) A.bs))
          ∧ min (A.n - j) A.bs * min (A.n - i) A.bs ≤ A.bs * A.bs)
    ∧ (∀ (A : matrix β) (alpha : α) (x y : Ptr) (j i k : Nat) (s : (Nat → α) × (Ptr → α)),
        (triangular_matrix.symmetric_matrix_vector_block F MT A alpha x y j i k s).1
          = F.decompress_at s.1 A.compressed_data k
              (if i = j then (min (A.n - i) A.bs * (min (A.n - i) A.bs + 1)) / 2
                else min (A.n - j) A.bs * min (A.n - i) A.bs))
    ∧ (∀ (A : matrix β) (t : Bool) (x y : Ptr) (bj bi : Nat)
        (s : (Nat → α) × (Nat → α) × (Ptr → α)),
        (triangular_matrix.solve_block F MT A t y bj bi (min (A.n - bj * A.bs) A.bs) s).1
            = F.decompress_at s.1 A.compressed_data
                (if t then triangular_matrix.get_offset A.togeometry MT bi bj
                  else triangular_matrix.get_offset A.togeometry MT bj bi)
                (min (A.n - bj * A.bs) A.bs * min (A.n - bi * A.bs) A.bs)
          ∧ min (A.n - bj * A.bs) A.bs * min (A.n - bi * A.bs) A.bs ≤ A.bs * A.bs
          ∧ (triangular_matrix.solve_diagonal F MT A t x y bj
                (min (A.n - bj * A.bs) A.bs) s).1
            = F.decompress_at s.1 A.compressed_data
                (triangular_matrix.get_offset A.togeometry MT bj bj)
                ((min (A.n - bj * A.bs) A.bs * (min (A.n - bj * A.bs) A.bs + 1)) / 2)
          ∧ (min (A.n - bj * A.bs) A.bs * (min (A.n - bj * A.bs) A.bs + 1)) / 2
            ≤ A.bs * A.bs)
    ∧ (∀ (A : matrix β) (t : Bool) (alpha : α) (x y : Ptr) (eA eB eC : Nat)
        (st : Nat × (Nat → α) × (Nat → α) × (Ptr → α)) (q : Nat), A.bs ≤ q →
        (triangular_matrix.matrix_vector_loop_1 MT A.n A.bs eA eB eC
            (triangular_matrix.matrix_vector_block_1 F MT A t alpha x y) st).2.2.1 q
          = st.2.2.1 q
        ∧ (triangular_matrix.matrix_vector_loop_2 MT A.n A.bs eA eB eC
            (triangular_matrix.matrix_vector_block_2 F A t alpha x y) st).2.2.1 q
          = st.2.2.1 q)
    ∧ (∀ (A : matrix β) (t : Bool) (x y : Ptr) (extra : Nat)
        (st : (Nat → α) × (Nat → α) × (Ptr → α)) (q : Nat), A.bs ≤ q →
        (triangular_matrix.solve_loops MT A.n A.bs t extra
            (fun bj s => (s.1, forUp (fun jj b => set_at b jj 0)
              (min (A.n - bj * A.bs) A.bs) 1 (min (A.n - bj * A.bs) A.bs) 0 s.2.1, s.2.2))
            (fun bj bi s =>
              triangular_matrix.solve_block F MT A t y bj bi (min (A.n - bj * A.bs) A.bs) s)
            (fun bj s =>
              triangular_matrix.solve_diagonal F MT A t x y bj
                (min (A.n - bj * A.bs) A.bs) s)
            st).2.1 q
          = st.2.1 q) := by
  refine ⟨?_, ?_, ?_, ?_, ?_, ?_, ?_, ?_, ?_, ?_⟩
  · intro data ld j i ptr s
    refine ⟨matrix.compress_block_fst F data m n ld bs j i ptr s, block_values_length _ _ _ _ _ _,
      rfl, min_mul_min_le _ _ bs, ?_, ?_⟩
    · intro jj ii hjj hii
      exact Nat.lt_of_lt_of_le (rect_index_lt _ _ jj ii hjj hii) (min_mul_min_le _ _ bs)
    · intro q hq
      exact matrix.compress_block_scratch F data m n ld bs j i ptr s q
        (Nat.le_trans (min_mul_min_le _ _ bs) hq)
  · intro data ld eA eB eC st q hq
    exact matrix.compress_loop_scratch F data m n ld bs eA eB eC st q hq
  · intro data ld j i ptr s
    refine ⟨triangular_matrix.tri_compress_block_fst F MT data n ld bs j i ptr s,
      triangular_matrix.logical_values_length MT data n ld bs j i, rfl,
      triangular_matrix.logical_count_le n bs j i, ?_, ?_⟩
    · intro jj ii hjj hii
      exact Nat.lt_of_lt_of_le (rect_index_lt _ _ jj ii hjj hii) (min_mul_min_le _ _ bs)
    · intro q hq
      exact triangular_matrix.tri_compress_block_scratch F MT data n ld bs j i ptr s q
        (Nat.le_trans (triangular_matrix.logical_count_le n bs j i) hq)
  · intro data ld eA eB eC st q hq
    exact triangular_matrix.tri_compress_loop_scratch F MT data n ld bs eA eB eC st q hq
  · intro A t alpha x y j i k s
    exact ⟨rfl, min_mul_min_le _ _ _⟩
  · intro A t alpha x y j i k s
    refine ⟨?_, packed_count_le _ _, ?_, min_mul_min_le _ _ _⟩
    · intro h
      unfold triangular_matrix.matrix_vector_block_1
      simp only [if_pos h]
    · intro h
      unfold triangular_matrix.matrix_vector_block_2
      simp only [if_neg h]
  · intro A alpha x y j i k s
    unfold triangular_matrix.symmetric_matrix_vector_block
    by_cases h : i = j
    · simp only [if_pos h]
    · simp only [if_neg h]
  · intro A t x y bj bi s
    exact ⟨rfl, min_mul_min_le _ _ _, rfl, packed_count_le _ _⟩
  · intro A t alpha x y eA eB eC st q hq
    refine ⟨triangular_matrix.matrix_vector_loop_1_accumulator F MT A t alpha x y eA eB eC st q
      hq, ?_⟩
    rw [triangular_matrix.matrix_vector_loop_2_accumulator F MT A t alpha x y eA eB eC st]
  · intro A t x y extra st q hq
    exact triangular_matrix.solve_loops_accumulator F MT A t x y extra st q hq

/-- Witness of C31: the identity codec on a `3 x 5` source of ones with
`bs = 2`; the element `4 = bs * bs` of a scratch array of zeros is still `0`
after the block loops of `matrix::compress`. -/
theorem scratch_bounds_witness :
    (matrix.compress_loop 3 5 2 4 2 2
      (matrix.compress_block (fp.identity ℚ) (fun _ => 1) 3 5 5 2)
      (0, ((fun _ => 0), (fun _ => 0)))).2.1 4 = 0 :=
  (scratch_bounds (fp.identity ℚ) triangular_matrix_type.upper 3 5 2).2.1
    (fun _ => 1) 5 4 2 2 (0, ((fun _ => 0), (fun _ => 0))) 4 (by decide)

end fw.blas


namespace fw.blas

/-! ## `solve` with `alpha = 0` -/

/-- C32: for `n ≥ 1`, `bs ≥ 1`, an orientation, a transpose flag, a triangular
matrix of order `n` with any stream and any right-hand side `y`:
`triangular_matrix::solve(transpose, 0, x, y)` sets the `n` elements of the
output `x` to `0` and leaves every other cell of the memory as it was; the
kernel is not executed (the call equals `blas2_frame` around any other kernel),
so `1 / alpha` is not evaluated and the stream is not read: a matrix with the
same geometry and another stream, and other contents of the scratch arrays,
give the same memory. -/
theorem solve_alpha_zero {α β : Type} [Field α] [DecidableEq α] (F : fp α β)
    (MT : triangular_matrix_type) (A : matrix β) (n bs : Nat) (hn : 1 ≤ n) (_hbs : 1 ≤ bs)
    (hA : A.togeometry = triangular_matrix.members F.memory_footprint_elements n bs)
    (t : Bool) (x y : Nat) (buffer_a buffer_x : Nat → α) (mem : Ptr → α) :
    (∀ l, triangular_matrix.solve F MT A t 0 x y buffer_a buffer_x mem (Ptr.mem l)
        = if x ≤ l ∧ l < x + n then 0 else mem (Ptr.mem l))
    ∧ (∀ p, triangular_matrix.solve F MT A t 0 x y buffer_a buffer_x mem (Ptr.buf p)
        = mem (Ptr.buf p))
    ∧ (∀ (kernel : Bool → α → Ptr → Ptr → (Ptr → α) → (Ptr → α)),
        triangular_matrix.solve F MT A t 0 x y buffer_a buffer_x mem
          = matrix.blas2_frame A.togeometry kernel t 0 y 0 x mem)
    ∧ (∀ (A' : matrix β) (buffer_a' buffer_x' : Nat → α), A'.togeometry = A.togeometry →
        triangular_matrix.solve F MT A' t 0 x y buffer_a' buffer_x' mem
          = triangular_matrix.solve F MT A t 0 x y buffer_a buffer_x mem) := by
  have hAn : A.n = n := by
    show A.togeometry.n = n
    rw [hA]
    rfl
  have hAm : A.m = n := by
    show A.togeometry.m = n
    rw [hA]
    rfl
  have hn0 : A.n ≠ 0 := by omega
  have hm0 : A.m ≠ 0 := by omega
  have hval : ∀ (A' : matrix β) (buffer_a' buffer_x' : Nat → α),
      A'.togeometry = A.togeometry →
      triangular_matrix.solve F MT A' t 0 x y buffer_a' buffer_x' mem
        = store mem (Ptr.mem x) n (fun _ => 0) := by
    intro A' buffer_a' buffer_x' hg
    have hn' : A'.n = A.n := by
      show A'.togeometry.n = A.togeometry.n
      rw [hg]
    have hm' : A'.m = A.m := by
      show A'.togeometry.m = A.togeometry.m
      rw [hg]
    unfold triangular_matrix.solve
    rw [if_neg (by omega)]
    rw [matrix.blas2_frame_alpha_zero A'.togeometry (by show A'.m ≠ 0; omega)
      (by show A'.n ≠ 0; omega)]
    have e : A'.togeometry.m = n := by
      show A'.m = n
      omega
    rw [e]
    exact store_congr _ _ _ _ _ (fun i _ => zero_mul _)
  refine ⟨?_, ?_, ?_, ?_⟩
  · intro l
    rw [hval A buffer_a buffer_x rfl, store_mem_apply]
  · intro p
    rw [hval A buffer_a buffer_x rfl]
    rfl
  · intro kernel
    rw [hval A buffer_a buffer_x rfl,
      matrix.blas2_frame_alpha_zero A.togeometry hm0 hn0]
    have e : A.togeometry.m = n := hAm
    rw [e]
    exact (store_congr _ _ _ _ _ (fun i _ => zero_mul _)).symm
  · intro A' buffer_a' buffer_x' hg
    rw [hval A' buffer_a' buffer_x' hg, hval A buffer_a buffer_x rfl]

/-- Witness of C32: the upper orientation, `n = 2`, `bs = 2`, the identity codec
on a source of ones, the output at `0`, the right-hand side at `2` and a
memory of sevens: the element `1` of the output is `0`. -/
theorem solve_alpha_zero_witness :
    triangular_matrix.solve (fp.identity ℚ) triangular_matrix_type.upper
      (triangular_matrix.ctor (fp.identity ℚ) triangular_matrix_type.upper
        (some (fun _ => 1)) 2 2 2 (fun _ => 0) (fun _ => 0))
      false 0 0 2 (fun _ => 0) (fun _ => 0) (fun _ => 7) (Ptr.mem 1) = 0 :=
  ((solve_alpha_zero (fp.identity ℚ) triangular_matrix_type.upper
    (triangular_matrix.ctor (fp.identity ℚ) triangular_matrix_type.upper
      (some (fun _ => 1)) 2 2 2 (fun _ => 0) (fun _ => 0))
    2 2 (by decide) (by decide) rfl false 0 2 (fun _ => 0) (fun _ => 0) (fun _ => 7)).1 1).trans
    (if_pos ⟨by decide, by decide⟩)

end fw.blas


namespace fw.blas

/-! ## The constructors on a borrowed stream -/

/-- A matrix constructed from the stream that the static `matrix::compress`
(called without a matrix object) has written for a dense source is the matrix
that the constructor builds when it compresses the source itself. -/
theorem matrix.constructor_of_compress {α β : Type} (F : fp α β) (data : Nat → α)
    (m n ld bs : Nat) (stream memory : Nat → β) (buffer buffer_c : Nat → α) :
    matrix.constructor F
        (source.fp_type (((matrix.compress F (some data) (some stream) m n ld bs none
          buffer_c).2).getD stream)) m n ld bs memory buffer
      = matrix.ctor F (some data) m n ld bs stream buffer_c := rfl

/-- A triangular matrix constructed from the stream that the static
`triangular_matrix::compress` (called without a matrix object) has written for
a dense source is the matrix that the constructor builds when it compresses
the source itself. -/
theorem triangular_matrix.tri_constructor_of_compress {α β : Type} (F : fp α β)
    (MT : triangular_matrix_type) (data : Nat → α)
    (n ld bs : Nat) (stream memory : Nat → β) (buffer buffer_c : Nat → α) :
    triangular_matrix.constructor F MT
        (source.fp_type (((triangular_matrix.compress F MT (some data) (some stream) n ld bs
          none buffer_c).2).getD stream)) n ld bs memory buffer
      = triangular_matrix.ctor F MT (some data) n ld bs stream buffer_c := rfl

end fw.blas


namespace fw.blas

/-! ## The products of the full matrix, by the way the matrix is constructed -/

end fw.blas


namespace fw.blas

/-! ## The products of the triangular matrix, by the way the matrix is constructed -/

end fw.blas


namespace fw.blas

/-! ## `solve`, by the way the matrix is constructed -/

end fw.blas


namespace fw.blas

/-! ## `std::size_t` arithmetic and the exact geometry -/

theorem size_t_of_lt {a : Nat} (h : a < 2 ^ 64) : size_t a = a :=
  Nat.mod_eq_of_lt h

theorem size_t_lt (a : Nat) : size_t a < 2 ^ 64 :=
  Nat.mod_lt _ (by norm_num)

theorem size_t_modEq (a : Nat) : size_t a ≡ a [MOD 2 ^ 64] :=
  Nat.mod_modEq a _

theorem size_t_sub_of_le {a b : Nat} (hb : b ≤ a) (ha : a < 2 ^ 64) :
    size_t_sub a b = a - b := by
  unfold size_t_sub
  have e : a + 2 ^ 64 - b = (a - b) + 2 ^ 64 := by omega
  rw [e, Nat.add_mod_right]
  exact Nat.mod_eq_of_lt (by omega)

/-- The ceiling `(n + bs - 1) / bs` in `std::size_t` arithmetic is the exact
one as long as `n + bs - 1` is representable. -/
theorem ceil_size_t (n bs : Nat) (hbs : 1 ≤ bs) (h : n + bs ≤ 2 ^ 64) :
    size_t_sub (size_t (n + bs)) 1 / bs = num_blocks n bs := by
  have e : size_t_sub (size_t (n + bs)) 1 = n + bs - 1 := by
    rcases Nat.lt_or_ge (n + bs) (2 ^ 64) with h1 | h1
    · rw [size_t_of_lt h1, size_t_sub_of_le (by omega) h1]
    · have e1 : n + bs = 2 ^ 64 := by omega
      rw [e1]
      decide
  rw [e]
  rfl

/-- The remainder `n - (n / bs) * bs` in `std::size_t` arithmetic is the exact
one. -/
theorem rem_size_t (n bs : Nat) (hn : n < 2 ^ 64) :
    size_t_sub n (size_t ((n / bs) * bs)) = n - (n / bs) * bs := by
  have h := Nat.div_mul_le_self n bs
  rw [size_t_of_lt (by omega), size_t_sub_of_le h hn]

/-- The difference of ceiling and floor in `std::size_t` arithmetic is the
exact one, `0` or `1`, as long as `n + bs - 1` is representable. -/
theorem ceil_sub_floor_size_t (n bs : Nat) (hbs : 1 ≤ bs) (h : n + bs ≤ 2 ^ 64) :
    size_t_sub (size_t_sub (size_t (n + bs)) 1 / bs) (n / bs)
      = num_blocks n bs - n / bs := by
  obtain ⟨h1, h2⟩ := num_blocks_bounds n bs hbs
  have h3 : num_blocks n bs ≤ n + bs - 1 := Nat.div_le_self _ _
  rw [ceil_size_t n bs hbs h, size_t_sub_of_le h1 (by omega)]

theorem ceil_sub_floor_le_one (n bs : Nat) (hbs : 1 ≤ bs) :
    num_blocks n bs - n / bs ≤ 1 := by
  obtain ⟨h1, h2⟩ := num_blocks_bounds n bs hbs
  omega

/-- A sum of four products in `std::size_t` arithmetic is the exact sum modulo
`2 ^ 64`, whatever was reduced on the way. -/
theorem size_t_sum_modEq {a a1 b b1 c c1 d d1 : Nat}
    (ha : a1 ≡ a [MOD 2 ^ 64]) (hb : b1 ≡ b [MOD 2 ^ 64])
    (hc : c1 ≡ c [MOD 2 ^ 64]) (hd : d1 ≡ d [MOD 2 ^ 64]) :
    size_t (size_t (size_t (size_t a1 + size_t b1) + size_t c1) + size_t d1)
      = (a + b + c + d) % 2 ^ 64 := by
  have h1 : size_t a1 ≡ a [MOD 2 ^ 64] := (size_t_modEq a1).trans ha
  have h2 : size_t b1 ≡ b [MOD 2 ^ 64] := (size_t_modEq b1).trans hb
  have h3 : size_t c1 ≡ c [MOD 2 ^ 64] := (size_t_modEq c1).trans hc
  have h4 : size_t d1 ≡ d [MOD 2 ^ 64] := (size_t_modEq d1).trans hd
  have s1 : size_t (size_t a1 + size_t b1) ≡ a + b [MOD 2 ^ 64] :=
    (size_t_modEq _).trans (h1.add h2)
  have s2 : size_t (size_t (size_t a1 + size_t b1) + size_t c1) ≡ a + b + c [MOD 2 ^ 64] :=
    (size_t_modEq _).trans (s1.add h3)
  exact s2.add h4

/-! ### The full shape -/

section full
variable (f : Nat → Nat) (m n bs : Nat)

theorem matrix.members_size_t_num_blocks_a :
    (matrix.members_size_t f m n bs).num_blocks_a = size_t ((m / bs) * (n / bs)) := rfl

theorem matrix.members_size_t_num_blocks_b (hbs : 1 ≤ bs) (hm : m < 2 ^ 64)
    (hn : n + bs ≤ 2 ^ 64) :
    (matrix.members_size_t f m n bs).num_blocks_b
      = (m / bs) * (num_blocks n bs - n / bs) := by
  show size_t ((m / bs) * size_t_sub (size_t_sub (size_t (n + bs)) 1 / bs) (n / bs)) = _
  rw [ceil_sub_floor_size_t n bs hbs hn]
  have h1 := ceil_sub_floor_le_one n bs hbs
  have h2 : m / bs ≤ m := Nat.div_le_self m bs
  have h3 : (m / bs) * (num_blocks n bs - n / bs) ≤ (m / bs) * 1 := Nat.mul_le_mul_left _ h1
  exact size_t_of_lt (by omega)

theorem matrix.members_size_t_num_blocks_c (hbs : 1 ≤ bs) (hm : m + bs ≤ 2 ^ 64)
    (hn : n < 2 ^ 64) :
    (matrix.members_size_t f m n bs).num_blocks_c
      = (num_blocks m bs - m / bs) * (n / bs) := by
  show size_t (size_t_sub (size_t_sub (size_t (m + bs)) 1 / bs) (m / bs) * (n / bs)) = _
  rw [ceil_sub_floor_size_t m bs hbs hm]
  have h1 := ceil_sub_floor_le_one m bs hbs
  have h2 : n / bs ≤ n := Nat.div_le_self n bs
  have h3 : (num_blocks m bs - m / bs) * (n / bs) ≤ 1 * (n / bs) := Nat.mul_le_mul_right _ h1
  exact size_t_of_lt (by omega)

theorem matrix.members_size_t_num_blocks_d (hbs : 1 ≤ bs) (hm : m + bs ≤ 2 ^ 64)
    (hn : n + bs ≤ 2 ^ 64) :
    (matrix.members_size_t f m n bs).num_blocks_d
      = (num_blocks m bs - m / bs) * (num_blocks n bs - n / bs) := by
  show size_t (size_t_sub (size_t_sub (size_t (m + bs)) 1 / bs) (m / bs)
    * size_t_sub (size_t_sub (size_t (n + bs)) 1 / bs) (n / bs)) = _
  rw [ceil_sub_floor_size_t m bs hbs hm, ceil_sub_floor_size_t n bs hbs hn]
  have h1 := ceil_sub_floor_le_one m bs hbs
  have h2 := ceil_sub_floor_le_one n bs hbs
  have h3 : (num_blocks m bs - m / bs) * (num_blocks n bs - n / bs) ≤ 1 * 1 :=
    Nat.mul_le_mul h1 h2
  exact size_t_of_lt (by omega)

theorem matrix.members_size_t_num_elements_a :
    (matrix.members_size_t f m n bs).num_elements_a = f (size_t (bs * bs)) := rfl

theorem matrix.members_size_t_num_elements_b (hn : n < 2 ^ 64) :
    (matrix.members_size_t f m n bs).num_elements_b
      = f (size_t (bs * (n - (n / bs) * bs))) := by
  show f (size_t (bs * size_t_sub n (size_t ((n / bs) * bs)))) = _
  rw [rem_size_t n bs hn]

theorem matrix.members_size_t_num_elements_c (hm : m < 2 ^ 64) :
    (matrix.members_size_t f m n bs).num_elements_c
      = f (size_t ((m - (m / bs) * bs) * bs)) := by
  show f (size_t (size_t_sub m (size_t ((m / bs) * bs)) * bs)) = _
  rw [rem_size_t m bs hm]

theorem matrix.members_size_t_num_elements_d (hm : m < 2 ^ 64) (hn : n < 2 ^ 64) :
    (matrix.members_size_t f m n bs).num_elements_d
      = f (size_t ((m - (m / bs) * bs) * (n - (n / bs) * bs))) := by
  show f (size_t (size_t_sub m (size_t ((m / bs) * bs))
    * size_t_sub n (size_t ((n / bs) * bs)))) = _
  rw [rem_size_t m bs hm, rem_size_t n bs hn]

theorem matrix.members_size_t_num_elements_eq :
    (matrix.members_size_t f m n bs).num_elements
      = size_t (size_t (size_t (size_t ((matrix.members_size_t f m n bs).num_blocks_a
            * (matrix.members_size_t f m n bs).num_elements_a)
          + size_t ((matrix.members_size_t f m n bs).num_blocks_b
            * (matrix.members_size_t f m n bs).num_elements_b))
          + size_t ((matrix.members_size_t f m n bs).num_blocks_c
            * (matrix.members_size_t f m n bs).num_elements_c))
          + size_t ((matrix.members_size_t f m n bs).num_blocks_d
            * (matrix.members_size_t f m n bs).num_elements_d)) := rfl

/-- The static function in `std::size_t` arithmetic is the member
`num_elements`: the sum of the constructor is `0` when an extent is `0`. -/
theorem matrix.memory_footprint_elements_size_t_eq (hbs : 1 ≤ bs) (hbs2 : bs < 2 ^ 64) :
    matrix.memory_footprint_elements_size_t f m n bs
      = (matrix.members_size_t f m n bs).num_elements := by
  unfold matrix.memory_footprint_elements_size_t
  by_cases h : m = 0 ∨ n = 0
  · rw [if_pos h]
    have hz : size_t_sub (size_t_sub (size_t (0 + bs)) 1 / bs) (0 / bs) = 0 := by
      rw [ceil_sub_floor_size_t 0 bs hbs (by omega)]
      have e : num_blocks 0 bs = 0 := by
        unfold num_blocks
        exact Nat.div_eq_of_lt (by omega)
      rw [e, Nat.zero_sub]
    rcases h with rfl | rfl
    · show 0 = size_t (size_t (size_t (size_t (size_t ((0 / bs) * (n / bs)) * _)
        + size_t (size_t ((0 / bs) * _) * _))
        + size_t (size_t (size_t_sub (size_t_sub (size_t (0 + bs)) 1 / bs) (0 / bs)
          * (n / bs)) * _))
        + size_t (size_t (size_t_sub (size_t_sub (size_t (0 + bs)) 1 / bs) (0 / bs) * _) * _))
      rw [hz]
      simp [size_t]
    · show 0 = size_t (size_t (size_t (size_t (size_t ((m / bs) * (0 / bs)) * _)
        + size_t (size_t ((m / bs)
          * size_t_sub (size_t_sub (size_t (0 + bs)) 1 / bs) (0 / bs)) * _))
        + size_t (size_t (_ * (0 / bs)) * _))
        + size_t (size_t (_
          * size_t_sub (size_t_sub (size_t (0 + bs)) 1 / bs) (0 / bs)) * _))
      rw [hz]
      simp [size_t]
  · rw [if_neg h]
    rfl

end full

end fw.blas


namespace fw.blas

/-! ## Footprints of the full shape in `std::size_t` arithmetic -/

/-- The member `num_elements` in `std::size_t` arithmetic is the exact one
modulo `2 ^ 64`, as long as `m + bs - 1`, `n + bs - 1` and `bs * bs` are
representable. -/
theorem matrix.members_size_t_num_elements (f : Nat → Nat) (m n bs : Nat) (hbs : 1 ≤ bs)
    (hm : m + bs ≤ 2 ^ 64) (hn : n + bs ≤ 2 ^ 64) (hbb : bs * bs < 2 ^ 64) :
    (matrix.members_size_t f m n bs).num_elements
      = (matrix.members f m n bs).num_elements % 2 ^ 64 := by
  have hrn : n - (n / bs) * bs < bs := by
    rw [sub_div_mul_eq_mod]
    exact Nat.mod_lt _ hbs
  have hrm : m - (m / bs) * bs < bs := by
    rw [sub_div_mul_eq_mod]
    exact Nat.mod_lt _ hbs
  have h1 : bs * (n - (n / bs) * bs) ≤ bs * bs := Nat.mul_le_mul_left _ (Nat.le_of_lt hrn)
  have h2 : (m - (m / bs) * bs) * bs ≤ bs * bs := Nat.mul_le_mul_right _ (Nat.le_of_lt hrm)
  have h3 : (m - (m / bs) * bs) * (n - (n / bs) * bs) ≤ bs * bs :=
    Nat.mul_le_mul (Nat.le_of_lt hrm) (Nat.le_of_lt hrn)
  rw [matrix.members_size_t_num_elements_eq, matrix.members_size_t_num_blocks_a,
    matrix.members_size_t_num_blocks_b f m n bs hbs (by omega) hn,
    matrix.members_size_t_num_blocks_c f m n bs hbs hm (by omega),
    matrix.members_size_t_num_blocks_d f m n bs hbs hm hn,
    matrix.members_size_t_num_elements_a,
    matrix.members_size_t_num_elements_b f m n bs (by omega),
    matrix.members_size_t_num_elements_c f m n bs (by omega),
    matrix.members_size_t_num_elements_d f m n bs (by omega) (by omega),
    size_t_of_lt hbb, size_t_of_lt (show bs * (n - (n / bs) * bs) < 2 ^ 64 by omega),
    size_t_of_lt (show (m - (m / bs) * bs) * bs < 2 ^ 64 by omega),
    size_t_of_lt (show (m - (m / bs) * bs) * (n - (n / bs) * bs) < 2 ^ 64 by omega)]
  exact size_t_sum_modEq ((size_t_modEq _).mul_right _) (Nat.ModEq.refl _) (Nat.ModEq.refl _)
    (Nat.ModEq.refl _)

/-- The closed form of the specification is the member `num_elements` in exact
arithmetic. -/
theorem matrix.footprint_closed_form_eq (f : Nat → Nat) (m n bs : Nat) (hbs : 1 ≤ bs) :
    matrix.footprint_closed_form f m n bs = (matrix.members f m n bs).num_elements := by
  rw [matrix.members_num_elements f m n bs hbs]
  unfold matrix.footprint_closed_form
  simp only [Nat.add_sub_cancel_left]

/-- C13, as stated, fails: for `m = n = 3` and `bs = 2 ^ 64 - 1` with the
identity footprint, `n + bs - 1` wraps around to `1`, the ceiling
`(n + bs - 1) / bs` is `0` and not `1`, and the static
`memory_footprint_elements({3, 3}, bs)` and the member `num_elements` are `0`,
where the closed form is `nD * eD = 1 * f(3 * 3) = 9`. -/
theorem matrix_footprint_closed_form_wraps :
    matrix.memory_footprint_elements_size_t (fun k => k) 3 3 (2 ^ 64 - 1) = 0
    ∧ matrix.memory_footprint_elements_query
        (matrix.members_size_t (fun k => k) 3 3 (2 ^ 64 - 1)) = 0
    ∧ matrix.footprint_closed_form (fun k => k) 3 3 (2 ^ 64 - 1) = 9
    ∧ ¬ (matrix.memory_footprint_elements_size_t (fun k => k) 3 3 (2 ^ 64 - 1)
        = matrix.footprint_closed_form (fun k => k) 3 3 (2 ^ 64 - 1)) := by
  refine ⟨?_, ?_, ?_, ?_⟩ <;> decide

/-- C13, amended: for all `m, n ≥ 0`, `bs ≥ 1` and every footprint function `f`
such that `m + bs - 1`, `n + bs - 1` and `bs * bs` are representable in
`std::size_t` (are below `2 ^ 64`): the member `memory_footprint_elements()`
of a full matrix (`num_elements`, computed by the member initialisers without
a zero-extent guard) equals the static `memory_footprint_elements({m, n}, bs)`,
and both equal the closed form `nA * eA + nB * eB + nC * eC + nD * eD` modulo
`2 ^ 64`, that is the closed form itself when it is representable. -/
theorem matrix_footprint_query_eq_static (f : Nat → Nat) (m n bs : Nat)
    (hbs : 1 ≤ bs) (hm : m + bs ≤ 2 ^ 64) (hn : n + bs ≤ 2 ^ 64) (hbb : bs * bs < 2 ^ 64) :
    matrix.memory_footprint_elements_query (matrix.members_size_t f m n bs)
      = matrix.memory_footprint_elements_size_t f m n bs
    ∧ matrix.memory_footprint_elements_size_t f m n bs
      = matrix.footprint_closed_form f m n bs % 2 ^ 64
    ∧ (matrix.footprint_closed_form f m n bs < 2 ^ 64 →
        matrix.memory_footprint_elements_size_t f m n bs
          = matrix.footprint_closed_form f m n bs) := by
  have hb2 : bs < 2 ^ 64 := by
    have : bs * 1 ≤ bs * bs := Nat.mul_le_mul_left _ hbs
    omega
  have e := matrix.memory_footprint_elements_size_t_eq f m n bs hbs hb2
  have e2 : matrix.memory_footprint_elements_size_t f m n bs
      = matrix.footprint_closed_form f m n bs % 2 ^ 64 := by
    rw [e, matrix.members_size_t_num_elements f m n bs hbs hm hn hbb,
      matrix.footprint_closed_form_eq f m n bs hbs]
  refine ⟨?_, e2, ?_⟩
  · rw [e]
    rfl
  · intro h
    rw [e2, Nat.mod_eq_of_lt h]

/-- Witness of C13, amended: a `5 x 3` matrix with `bs = 2` and the identity
footprint has `2 * 1 * 4 + 2 * 1 * 2 + 1 * 1 * 2 + 1 * 1 * 1 = 15` elements. -/
theorem matrix_footprint_query_eq_static_witness :
    matrix.memory_footprint_elements_query (matrix.members_size_t (fun k => k) 5 3 2) = 15 :=
  ((matrix_footprint_query_eq_static (fun k => k) 5 3 2 (by decide) (by decide) (by decide)
      (by decide)).1.trans
    (matrix_footprint_query_eq_static (fun k => k) 5 3 2 (by decide) (by decide) (by decide)
      (by decide)).2.1).trans (by decide)

/-- With the identity footprint the member `num_elements` in `std::size_t`
arithmetic is the exact one modulo `2 ^ 64`, as long as `m + bs - 1` and
`n + bs - 1` are representable: the block sizes may wrap around. -/
theorem matrix.members_size_t_num_elements_identity (m n bs : Nat) (hbs : 1 ≤ bs)
    (hm : m + bs ≤ 2 ^ 64) (hn : n + bs ≤ 2 ^ 64) :
    (matrix.members_size_t (fun k => k) m n bs).num_elements
      = (matrix.members (fun k => k) m n bs).num_elements % 2 ^ 64 := by
  rw [matrix.members_size_t_num_elements_eq, matrix.members_size_t_num_blocks_a,
    matrix.members_size_t_num_blocks_b _ m n bs hbs (by omega) hn,
    matrix.members_size_t_num_blocks_c _ m n bs hbs hm (by omega),
    matrix.members_size_t_num_blocks_d _ m n bs hbs hm hn,
    matrix.members_size_t_num_elements_a,
    matrix.members_size_t_num_elements_b _ m n bs (by omega),
    matrix.members_size_t_num_elements_c _ m n bs (by omega),
    matrix.members_size_t_num_elements_d _ m n bs (by omega) (by omega)]
  exact size_t_sum_modEq ((size_t_modEq _).mul (size_t_modEq _))
    ((Nat.ModEq.refl _).mul (size_t_modEq _)) ((Nat.ModEq.refl _).mul (size_t_modEq _))
    ((Nat.ModEq.refl _).mul (size_t_modEq _))

/-- C14, as stated, fails: for `m = n = 3` and `bs = 2 ^ 64 - 1` with the
identity footprint, `n + bs - 1` wraps around, the ceiling `(n + bs - 1) / bs`
is `0`, no corner block is counted and the static
`memory_footprint_elements({3, 3}, bs)` is `0`, not `3 * 3`. -/
theorem matrix_footprint_no_padding_wraps :
    matrix.memory_footprint_elements_size_t (fun k => k) 3 3 (2 ^ 64 - 1) = 0
    ∧ ¬ (matrix.memory_footprint_elements_size_t (fun k => k) 3 3 (2 ^ 64 - 1) = 3 * 3) := by
  constructor <;> decide

/-- C14, amended: with the identity footprint `memory_footprint_elements(k) = k`,
for all `m, n ≥ 0` and `bs ≥ 1` such that `m + bs - 1`, `n + bs - 1` and
`m * n` are representable in `std::size_t` (are below `2 ^ 64`), the static
`matrix::memory_footprint_elements({m, n}, bs)` is exactly `m * n`. -/
theorem matrix_footprint_no_padding (m n bs : Nat) (hbs : 1 ≤ bs)
    (hm : m + bs ≤ 2 ^ 64) (hn : n + bs ≤ 2 ^ 64) (hmn : m * n < 2 ^ 64) :
    matrix.memory_footprint_elements_size_t (fun k => k) m n bs = m * n := by
  by_cases h : m = 0 ∨ n = 0
  · unfold matrix.memory_footprint_elements_size_t
    rw [if_pos h]
    rcases h with rfl | rfl
    · rw [Nat.zero_mul]
    · rw [Nat.mul_zero]
  · have hb2 : bs < 2 ^ 64 := by omega
    rw [matrix.memory_footprint_elements_size_t_eq _ m n bs hbs hb2,
      matrix.members_size_t_num_elements_identity m n bs hbs hm hn,
      ← matrix.memory_footprint_elements_eq _ m n bs hbs,
      matrix.memory_footprint_elements_identity m n bs hbs, Nat.mod_eq_of_lt hmn]

/-- Witness of C14, amended: `m = 5`, `n = 3`, `bs = 2`. -/
theorem matrix_footprint_no_padding_witness :
    matrix.memory_footprint_elements_size_t (fun k => k) 5 3 2 = 5 * 3 :=
  matrix_footprint_no_padding 5 3 2 (by decide) (by decide) (by decide) (by decide)

/-! ## Border counts of the full shape in `std::size_t` arithmetic -/

/-- C16, as stated, fails: for a `1 x 3` matrix with `bs = 2` the right-border
count `num_blocks_b` is zero although `3` is not a multiple of `2`, and for a
`3 x 1` matrix the bottom-border count `num_blocks_c` is zero although `3` is
not a multiple of `2` (there is no full block row, or column); and for
`m = bs = 2 ^ 64 - 1` and `n = 2`, where `n + bs - 1` wraps around,
`num_blocks_b` is zero although `2` is not a multiple of `bs` and `m ≥ bs`. -/
theorem matrix_border_count_short_extent :
    ¬ ((matrix.members_size_t (fun k => k) 1 3 2).num_blocks_b = 0 ↔ 3 % 2 = 0)
    ∧ ¬ ((matrix.members_size_t (fun k => k) 3 1 2).num_blocks_c = 0 ↔ 3 % 2 = 0)
    ∧ ¬ ((matrix.members_size_t (fun k => k) (2 ^ 64 - 1) 2 (2 ^ 64 - 1)).num_blocks_b = 0
        ↔ 2 % (2 ^ 64 - 1) = 0) := by
  refine ⟨?_, ?_, ?_⟩ <;> decide

/-- C16, amended: for `m, n ≥ 1` and `bs ≥ 1` such that `m + bs - 1` and
`n + bs - 1` are representable in `std::size_t` (are below `2 ^ 64`), the
right-border count `num_blocks_b` of a full matrix is zero if and only if `n`
is a multiple of `bs` or `m < bs` (there is no full block row), and the
bottom-border count `num_blocks_c` is zero if and only if `m` is a multiple of
`bs` or `n < bs`; in particular the counts are zero exactly for multiples of
`bs` when `m ≥ bs` and `n ≥ bs`. -/
theorem matrix_border_count_zero_iff (f : Nat → Nat) (m n bs : Nat)
    (hm1 : 1 ≤ m) (hn1 : 1 ≤ n) (hbs : 1 ≤ bs)
    (hm : m + bs ≤ 2 ^ 64) (hn : n + bs ≤ 2 ^ 64) :
    ((matrix.members_size_t f m n bs).num_blocks_b = 0 ↔ (n % bs = 0 ∨ m < bs))
    ∧ ((matrix.members_size_t f m n bs).num_blocks_c = 0 ↔ (m % bs = 0 ∨ n < bs))
    ∧ (bs ≤ m → ((matrix.members_size_t f m n bs).num_blocks_b = 0 ↔ n % bs = 0))
    ∧ (bs ≤ n → ((matrix.members_size_t f m n bs).num_blocks_c = 0 ↔ m % bs = 0)) := by
  have hb : (matrix.members_size_t f m n bs).num_blocks_b
      = (matrix.members f m n bs).num_blocks_b :=
    matrix.members_size_t_num_blocks_b f m n bs hbs (by omega) hn
  have hc : (matrix.members_size_t f m n bs).num_blocks_c
      = (matrix.members f m n bs).num_blocks_c :=
    matrix.members_size_t_num_blocks_c f m n bs hbs hm (by omega)
  rw [hb, hc]
  exact matrix.num_blocks_border_zero_iff f m n bs hm1 hn1 hbs

/-- Witness of C16, amended: the `1 x 3` matrix with `bs = 2` has no block of
class `B` because `m < bs`. -/
theorem matrix_border_count_zero_iff_witness :
    (matrix.members_size_t (fun k => k) 1 3 2).num_blocks_b = 0 ↔ (3 % 2 = 0 ∨ 1 < 2) :=
  (matrix_border_count_zero_iff (fun k => k) 1 3 2 (by decide) (by decide) (by decide)
    (by decide) (by decide)).1

end fw.blas


namespace fw.blas

/-! ## The triangular shape in `std::size_t` arithmetic -/

theorem succ_le_mul_succ (k : Nat) (hk : 1 ≤ k) : k + 1 ≤ k * (k + 1) :=
  Nat.le_mul_of_pos_left _ hk

theorem mul_succ_mono {a b : Nat} (h : a ≤ b) : a * (a + 1) ≤ b * (b + 1) :=
  Nat.mul_le_mul h (by omega)

/-- The packed count `k * (k + 1) / 2` in `std::size_t` arithmetic is the exact
one as long as `k * (k + 1)` is representable. -/
theorem half_succ_size_t (k : Nat) (h : k * (k + 1) < 2 ^ 64) :
    size_t (k * size_t (k + 1)) / 2 = (k * (k + 1)) / 2 := by
  rcases Nat.eq_zero_or_pos k with h0 | h0
  · subst h0
    rw [Nat.zero_mul, Nat.zero_mul]
    rfl
  · have := succ_le_mul_succ k h0
    rw [size_t_of_lt (show k + 1 < 2 ^ 64 by omega), size_t_of_lt h]

section tri
variable (f : Nat → Nat) (n bs : Nat)

theorem triangular_matrix.tri_members_size_t_num_blocks_b
    (hq : (n / bs) * (n / bs + 1) < 2 ^ 64) :
    (triangular_matrix.members_size_t f n bs).num_blocks_b
      = ((n / bs) * (n / bs + 1)) / 2 - n / bs := by
  show size_t_sub (size_t ((n / bs) * size_t (n / bs + 1)) / 2) (n / bs) = _
  rw [half_succ_size_t _ hq]
  have h1 := sum_rows_lower (n / bs)
  have h2 : ((n / bs) * (n / bs + 1)) / 2 ≤ (n / bs) * (n / bs + 1) := Nat.div_le_self _ _
  exact size_t_sub_of_le (by omega) (by omega)

theorem triangular_matrix.tri_members_size_t_num_blocks_c (hbs : 1 ≤ bs)
    (hn : n + bs ≤ 2 ^ 64) :
    (triangular_matrix.members_size_t f n bs).num_blocks_c
      = (n / bs) * (num_blocks n bs - n / bs) := by
  show size_t ((n / bs) * size_t_sub (size_t_sub (size_t (n + bs)) 1 / bs) (n / bs)) = _
  rw [ceil_sub_floor_size_t n bs hbs hn]
  have h1 := ceil_sub_floor_le_one n bs hbs
  have h2 : n / bs ≤ n := Nat.div_le_self n bs
  have h3 : (n / bs) * (num_blocks n bs - n / bs) ≤ (n / bs) * 1 := Nat.mul_le_mul_left _ h1
  exact size_t_of_lt (by omega)

theorem triangular_matrix.tri_members_size_t_num_blocks_d (hbs : 1 ≤ bs)
    (hn : n + bs ≤ 2 ^ 64) :
    (triangular_matrix.members_size_t f n bs).num_blocks_d
      = num_blocks n bs - n / bs :=
  ceil_sub_floor_size_t n bs hbs hn

theorem triangular_matrix.tri_members_size_t_num_elements_eq :
    (triangular_matrix.members_size_t f n bs).num_elements
      = size_t (size_t (size_t (size_t ((triangular_matrix.members_size_t f n bs).num_blocks_a
            * (triangular_matrix.members_size_t f n bs).num_elements_a)
          + size_t ((triangular_matrix.members_size_t f n bs).num_blocks_b
            * (triangular_matrix.members_size_t f n bs).num_elements_b))
          + size_t ((triangular_matrix.members_size_t f n bs).num_blocks_c
            * (triangular_matrix.members_size_t f n bs).num_elements_c))
          + size_t ((triangular_matrix.members_size_t f n bs).num_blocks_d
            * (triangular_matrix.members_size_t f n bs).num_elements_d)) := rfl

end tri

/-- With the identity footprint the member `num_elements` of the triangular
shape in `std::size_t` arithmetic is the exact one modulo `2 ^ 64`, as long as
`n + bs - 1` and `n * (n + 1)` are representable. -/
theorem triangular_matrix.tri_members_size_t_num_elements_identity (n bs : Nat)
    (hbs : 1 ≤ bs) (hn : n + bs ≤ 2 ^ 64) (hnn : n * (n + 1) < 2 ^ 64) :
    (triangular_matrix.members_size_t (fun k => k) n bs).num_elements
      = (triangular_matrix.members (fun k => k) n bs).num_elements % 2 ^ 64 := by
  have hqn : n / bs ≤ n := Nat.div_le_self n bs
  have hq : (n / bs) * (n / bs + 1) < 2 ^ 64 :=
    Nat.lt_of_le_of_lt (mul_succ_mono hqn) hnn
  have hn2 : n < 2 ^ 64 := by omega
  have hr : n - (n / bs) * bs ≤ n := Nat.sub_le _ _
  have hrr : (n - (n / bs) * bs) * (n - (n / bs) * bs + 1) < 2 ^ 64 :=
    Nat.lt_of_le_of_lt (mul_succ_mono hr) hnn
  rw [triangular_matrix.tri_members_size_t_num_elements_eq,
    triangular_matrix.tri_members_size_t_num_blocks_b _ n bs hq,
    triangular_matrix.tri_members_size_t_num_blocks_c _ n bs hbs hn,
    triangular_matrix.tri_members_size_t_num_blocks_d _ n bs hbs hn]
  have ha : (triangular_matrix.members_size_t (fun k => k) n bs).num_blocks_a
        * (triangular_matrix.members_size_t (fun k => k) n bs).num_elements_a
      ≡ (n / bs) * ((bs * (bs + 1)) / 2) [MOD 2 ^ 64] := by
    show (n / bs) * (size_t (bs * size_t (bs + 1)) / 2)
      ≡ (n / bs) * ((bs * (bs + 1)) / 2) [MOD 2 ^ 64]
    rcases Nat.eq_zero_or_pos (n / bs) with h0 | h0
    · rw [h0, Nat.zero_mul, Nat.zero_mul]
    · have hle : bs ≤ n := by
        by_contra hc
        rw [Nat.div_eq_of_lt (by omega)] at h0
        omega
      rw [half_succ_size_t bs (Nat.lt_of_le_of_lt (mul_succ_mono hle) hnn)]
  have hb : (((n / bs) * (n / bs + 1)) / 2 - n / bs)
        * (triangular_matrix.members_size_t (fun k => k) n bs).num_elements_b
      ≡ (((n / bs) * (n / bs + 1)) / 2 - n / bs) * (bs * bs) [MOD 2 ^ 64] :=
    (Nat.ModEq.refl _).mul (size_t_modEq _)
  have hc : (n / bs) * (num_blocks n bs - n / bs)
        * (triangular_matrix.members_size_t (fun k => k) n bs).num_elements_c
      ≡ (n / bs) * (num_blocks n bs - n / bs) * (bs * (n - (n / bs) * bs)) [MOD 2 ^ 64] := by
    show (n / bs) * (num_blocks n bs - n / bs)
        * size_t (bs * size_t_sub n (size_t ((n / bs) * bs)))
      ≡ (n / bs) * (num_blocks n bs - n / bs) * (bs * (n - (n / bs) * bs)) [MOD 2 ^ 64]
    rw [rem_size_t n bs hn2]
    exact (Nat.ModEq.refl _).mul (size_t_modEq _)
  have hd : (num_blocks n bs - n / bs)
        * (triangular_matrix.members_size_t (fun k => k) n bs).num_elements_d
      ≡ (num_blocks n bs - n / bs)
        * (((n - (n / bs) * bs) * (n - (n / bs) * bs + 1)) / 2) [MOD 2 ^ 64] := by
    show (num_blocks n bs - n / bs)
        * (size_t (size_t_sub n (size_t ((n / bs) * bs))
          * size_t (size_t_sub n (size_t ((n / bs) * bs)) + 1)) / 2)
      ≡ (num_blocks n bs - n / bs)
        * (((n - (n / bs) * bs) * (n - (n / bs) * bs + 1)) / 2) [MOD 2 ^ 64]
    rw [rem_size_t n bs hn2, half_succ_size_t _ hrr]
  exact size_t_sum_modEq ha hb hc hd

/-- C15, as stated, fails: for `n = 3` and `bs = 2 ^ 64 - 1` with the identity
footprint, `n + bs - 1` wraps around, the ceiling `(n + bs - 1) / bs` is `0`,
no diagonal block is counted and the static
`triangular_matrix::memory_footprint_elements({3}, bs)` is `0`, not
`3 * 4 / 2 = 6`. -/
theorem triangular_footprint_no_padding_wraps :
    triangular_matrix.memory_footprint_elements_size_t (fun k => k) 3 (2 ^ 64 - 1) = 0
    ∧ ¬ (triangular_matrix.memory_footprint_elements_size_t (fun k => k) 3 (2 ^ 64 - 1)
        = (3 * (3 + 1)) / 2) := by
  constructor <;> decide

/-- C15, amended: with the identity footprint `memory_footprint_elements(k) = k`,
for all `n ≥ 0` and `bs ≥ 1` such that `n + bs - 1` and `n * (n + 1)` are
representable in `std::size_t` (are below `2 ^ 64`), the static
`triangular_matrix::memory_footprint_elements({n}, bs)` is exactly
`n * (n + 1) / 2`, the number of entries of the triangle. -/
theorem triangular_footprint_no_padding (n bs : Nat) (hbs : 1 ≤ bs)
    (hn : n + bs ≤ 2 ^ 64) (hnn : n * (n + 1) < 2 ^ 64) :
    triangular_matrix.memory_footprint_elements_size_t (fun k => k) n bs
      = (n * (n + 1)) / 2 := by
  by_cases h : n = 0
  · subst h
    rfl
  · have e : triangular_matrix.memory_footprint_elements_size_t (fun k => k) n bs
        = (triangular_matrix.members_size_t (fun k => k) n bs).num_elements := by
      unfold triangular_matrix.memory_footprint_elements_size_t
      rw [if_neg h]
      rfl
    have hlt : (n * (n + 1)) / 2 < 2 ^ 64 :=
      Nat.lt_of_le_of_lt (Nat.div_le_self _ _) hnn
    rw [e, triangular_matrix.tri_members_size_t_num_elements_identity n bs hbs hn hnn,
      ← triangular_matrix.tri_memory_footprint_elements_eq _ n bs hbs,
      triangular_matrix.tri_memory_footprint_elements_identity n bs hbs,
      Nat.mod_eq_of_lt hlt]

/-- Witness of C15, amended: `n = 5`, `bs = 2`. -/
theorem triangular_footprint_no_padding_witness :
    triangular_matrix.memory_footprint_elements_size_t (fun k => k) 5 2 = (5 * (5 + 1)) / 2 :=
  triangular_footprint_no_padding 5 2 (by decide) (by decide) (by decide)

end fw.blas


namespace fw.blas

/-! ## The geometry counts and the traversal -/

end fw.blas


namespace fw.blas

/-! ## The geometry in `std::size_t` arithmetic and in exact arithmetic -/

theorem geometry.eq_of_fields (g h : geometry) (h1 : g.m = h.m) (h2 : g.n = h.n)
    (h3 : g.bs = h.bs) (h4 : g.num_blocks_a = h.num_blocks_a)
    (h5 : g.num_elements_a = h.num_elements_a) (h6 : g.num_blocks_b = h.num_blocks_b)
    (h7 : g.num_elements_b = h.num_elements_b) (h8 : g.num_blocks_c = h.num_blocks_c)
    (h9 : g.num_elements_c = h.num_elements_c) (h10 : g.num_blocks_d = h.num_blocks_d)
    (h11 : g.num_elements_d = h.num_elements_d) (h12 : g.num_elements = h.num_elements) :
    g = h := by
  cases g
  cases h
  simp only [geometry.mk.injEq]
  exact ⟨h1, h2, h3, h4, h5, h6, h7, h8, h9, h10, h11, h12⟩

/-- The members of a full matrix in `std::size_t` arithmetic are the exact ones
as long as `m + bs - 1`, `n + bs - 1`, `bs * bs`, the number of interior blocks
and the number of stream elements are representable: the statements on
`matrix.members` then are statements on the members that the constructor
computes. -/
theorem matrix.members_size_t_eq (f : Nat → Nat) (m n bs : Nat) (hbs : 1 ≤ bs)
    (hm : m + bs ≤ 2 ^ 64) (hn : n + bs ≤ 2 ^ 64) (hbb : bs * bs < 2 ^ 64)
    (hA : (m / bs) * (n / bs) < 2 ^ 64)
    (hsum : (matrix.members f m n bs).num_elements < 2 ^ 64) :
    matrix.members_size_t f m n bs = matrix.members f m n bs := by
  have hrn : n - (n / bs) * bs < bs := by
    rw [sub_div_mul_eq_mod]
    exact Nat.mod_lt _ hbs
  have hrm : m - (m / bs) * bs < bs := by
    rw [sub_div_mul_eq_mod]
    exact Nat.mod_lt _ hbs
  have h1 : bs * (n - (n / bs) * bs) ≤ bs * bs := Nat.mul_le_mul_left _ (Nat.le_of_lt hrn)
  have h2 : (m - (m / bs) * bs) * bs ≤ bs * bs := Nat.mul_le_mul_right _ (Nat.le_of_lt hrm)
  have h3 : (m - (m / bs) * bs) * (n - (n / bs) * bs) ≤ bs * bs :=
    Nat.mul_le_mul (Nat.le_of_lt hrm) (Nat.le_of_lt hrn)
  refine geometry.eq_of_fields _ _ rfl rfl rfl ?_ ?_ ?_ ?_ ?_ ?_ ?_ ?_ ?_
  · rw [matrix.members_size_t_num_blocks_a]
    exact size_t_of_lt hA
  · rw [matrix.members_size_t_num_elements_a, size_t_of_lt hbb]
    rfl
  · exact matrix.members_size_t_num_blocks_b f m n bs hbs (by omega) hn
  · rw [matrix.members_size_t_num_elements_b f m n bs (by omega), size_t_of_lt (by omega)]
    rfl
  · exact matrix.members_size_t_num_blocks_c f m n bs hbs hm (by omega)
  · rw [matrix.members_size_t_num_elements_c f m n bs (by omega), size_t_of_lt (by omega)]
    rfl
  · exact matrix.members_size_t_num_blocks_d f m n bs hbs hm hn
  · rw [matrix.members_size_t_num_elements_d f m n bs (by omega) (by omega),
      size_t_of_lt (by omega)]
    rfl
  · rw [matrix.members_size_t_num_elements f m n bs hbs hm hn hbb, Nat.mod_eq_of_lt hsum]

/-- The members of a triangular matrix in `std::size_t` arithmetic are the
exact ones as long as `n + bs - 1`, `bs * (bs + 1)`,
`floor(n / bs) * (floor(n / bs) + 1)` and the number of stream elements are
representable: the statements on `triangular_matrix.members` then are
statements on the members that the constructor computes. -/
theorem triangular_matrix.tri_members_size_t_eq (f : Nat → Nat) (n bs : Nat) (hbs : 1 ≤ bs)
    (hn : n + bs ≤ 2 ^ 64) (hb1 : bs * (bs + 1) < 2 ^ 64)
    (hq : (n / bs) * (n / bs + 1) < 2 ^ 64)
    (hsum : (triangular_matrix.members f n bs).num_elements < 2 ^ 64) :
    triangular_matrix.members_size_t f n bs = triangular_matrix.members f n bs := by
  have hn2 : n < 2 ^ 64 := by omega
  have hrn : n - (n / bs) * bs < bs := by
    rw [sub_div_mul_eq_mod]
    exact Nat.mod_lt _ hbs
  have hbb : bs * bs < 2 ^ 64 := by
    have : bs * bs ≤ bs * (bs + 1) := Nat.mul_le_mul_left _ (by omega)
    omega
  have h1 : bs * (n - (n / bs) * bs) ≤ bs * bs := Nat.mul_le_mul_left _ (Nat.le_of_lt hrn)
  have hrr : (n - (n / bs) * bs) * (n - (n / bs) * bs + 1) < 2 ^ 64 :=
    Nat.lt_of_le_of_lt (mul_succ_mono (Nat.le_of_lt hrn)) hb1
  have eA : (triangular_matrix.members_size_t f n bs).num_elements_a
      = (triangular_matrix.members f n bs).num_elements_a := by
    show f (size_t (bs * size_t (bs + 1)) / 2) = f ((bs * (bs + 1)) / 2)
    rw [half_succ_size_t bs hb1]
  have eB : (triangular_matrix.members_size_t f n bs).num_elements_b
      = (triangular_matrix.members f n bs).num_elements_b := by
    show f (size_t (bs * bs)) = f (bs * bs)
    rw [size_t_of_lt hbb]
  have eC : (triangular_matrix.members_size_t f n bs).num_elements_c
      = (triangular_matrix.members f n bs).num_elements_c := by
    show f (size_t (bs * size_t_sub n (size_t ((n / bs) * bs))))
      = f (bs * (n - (n / bs) * bs))
    rw [rem_size_t n bs hn2, size_t_of_lt (by omega)]
  have eD : (triangular_matrix.members_size_t f n bs).num_elements_d
      = (triangular_matrix.members f n bs).num_elements_d := by
    show f (size_t (size_t_sub n (size_t ((n / bs) * bs))
        * size_t (size_t_sub n (size_t ((n / bs) * bs)) + 1)) / 2)
      = f (((n - (n / bs) * bs) * (n - (n / bs) * bs + 1)) / 2)
    rw [rem_size_t n bs hn2, half_succ_size_t _ hrr]
  have nB := triangular_matrix.tri_members_size_t_num_blocks_b f n bs hq
  have nC := triangular_matrix.tri_members_size_t_num_blocks_c f n bs hbs hn
  have nD := triangular_matrix.tri_members_size_t_num_blocks_d f n bs hbs hn
  refine geometry.eq_of_fields _ _ rfl rfl rfl rfl eA nB eB nC eC nD eD ?_
  rw [triangular_matrix.tri_members_size_t_num_elements_eq, eA, eB, eC, eD, nB, nC, nD]
  have key := size_t_sum_modEq
    (Nat.ModEq.refl ((triangular_matrix.members_size_t f n bs).num_blocks_a
      * (triangular_matrix.members f n bs).num_elements_a))
    (Nat.ModEq.refl ((((n / bs) * (n / bs + 1)) / 2 - n / bs)
      * (triangular_matrix.members f n bs).num_elements_b))
    (Nat.ModEq.refl ((n / bs) * (num_blocks n bs - n / bs)
      * (triangular_matrix.members f n bs).num_elements_c))
    (Nat.ModEq.refl ((num_blocks n bs - n / bs)
      * (triangular_matrix.members f n bs).num_elements_d))
  rw [key]
  exact Nat.mod_eq_of_lt hsum

end fw.blas
